import Mathlib

/-!
Tetromino: an exact 8×8 tiling solver

A shallow embedding of the bitboard solver (`board.h`, `board.cpp`,
`push_pop_history_array.h`, `solver.cpp`, `main.cpp`) together with the
properties proved about it.

Conventions of the embedding.

* `uint64_t` values are natural numbers; every operation that can leave the
  64-bit range in C++ is followed by an explicit `% 2 ^ 64`.
* `uint8_t` / `int8_t` narrowing is written `toUInt8` / `toInt8`, the 32-bit
  `int` accumulator is narrowed with `toInt32`, and `size_t` counters are
  taken modulo `2 ^ 64`.
* A mutable `Board&` becomes explicit state passing: the solver receives and
  returns a `Run` record holding the board, the solution counter, the boards
  written to the output stream and a log of every board state reached.
* Loops over integer ranges become recursion over the list of values of the
  loop variable; recursion that is bounded by the number of pieces takes that
  bound as fuel.
-/

namespace Tetromino

/-! ## Machine integers -/

/-- Narrowing conversion to `uint8_t`. -/
def toUInt8 (z : Int) : Nat := (z % 256).toNat

/-- Narrowing conversion to `int8_t` (two's complement). -/
def toInt8 (z : Int) : Int := (z + 128) % 256 - 128

/-- Narrowing conversion to a 32-bit `int` (two's complement). -/
def toInt32 (z : Int) : Int := (z + 2147483648) % 4294967296 - 2147483648

/-- Narrowing conversion to `size_t`. -/
def toSize (z : Int) : Nat := (z % 18446744073709551616).toNat

/-- The shift `b << i` on `uint64_t`. -/
def shl64 (b i : Nat) : Nat := (b <<< i) % 2 ^ 64

/-- The complement `~b` on `uint64_t`. -/
def not64 (b : Nat) : Nat := (b ^^^ (2 ^ 64 - 1)) % 2 ^ 64

/-! ## Bitboard primitives (`board.h`) -/

/-- The macro `BIT_COUNT(b)`, that is `__builtin_popcountll(b)`. -/
def BIT_COUNT (b : Nat) : Nat := (List.range 64).countP (fun k => b.testBit k)

/-- Search for the lowest set bit, starting at bit `k`. -/
def ctzFrom (b : Nat) : Nat → Nat → Nat
  | 0, k => k
  | fuel + 1, k => if b.testBit k then k else ctzFrom b fuel (k + 1)

/-- The macro `LSB(b)`, that is `__builtin_ctzll(b)` (only used on `b ≠ 0`). -/
def LSB (b : Nat) : Nat := ctzFrom b 64 0

def CHECKERBOARD_MASK : Nat := 0xAA55AA55AA55AA55
def NOT_A_FILE : Nat := 0xFEFEFEFEFEFEFEFE
def NOT_H_FILE : Nat := 0x7F7F7F7F7F7F7F7F

/-! ## Tiles -/

/-- The struct `Tile`: a mask and the largest x and y coordinate of a set bit. -/
structure Tile where
  repr : Nat
  p_width : Nat
  p_height : Nat
deriving DecidableEq, Repr

instance : Inhabited Tile := ⟨⟨0, 0, 0⟩⟩

/-- One iteration of the scan in `Tile::Tile`, on the pair `(max_x, max_y)`. -/
def Tile.scanStep (r : Nat) (m : Nat × Nat) (i : Nat) : Nat × Nat :=
  if (r >>> i) &&& 1 != 0 then
    let x := toUInt8 (i % 8)
    let y := toUInt8 (i / 8)
    (if x > m.1 then x else m.1, if y > m.2 then y else m.2)
  else m

/-- The constructor `Tile::Tile(r)`. -/
def Tile.ctor (r : Nat) : Tile :=
  let m := (List.range 64).foldl (Tile.scanStep r) (0, 0)
  { repr := r, p_width := m.1, p_height := m.2 }

/-- The comparison `Tile::operator==`: masks only. -/
def Tile.beq (a b : Tile) : Bool := a.repr == b.repr

/-! ## The history stack (`push_pop_history_array.h`) -/

/-- One record of the history stack. -/
structure Placement where
  occ : Nat
  pos : Nat
  balance_delta : Int
deriving DecidableEq, Repr

instance : Inhabited Placement := ⟨⟨0, 0, 0⟩⟩

/-- The class `PushPopHistoryArray`: 64 slots and the number of live ones.
Slots at index `used` and above are dead storage; `pop_back` does not clear
them. -/
structure PushPopHistoryArray where
  history : List Placement
  used : Nat
deriving DecidableEq, Repr

namespace PushPopHistoryArray

/-- The default constructor; the 64 slots start with unspecified content,
modelled as zero records. -/
def ctor : PushPopHistoryArray := ⟨List.replicate 64 default, 0⟩

def size (h : PushPopHistoryArray) : Nat := h.used

def empty (h : PushPopHistoryArray) : Bool := h.used == 0

/-- The accessor `operator[]`. -/
def get (h : PushPopHistoryArray) (index : Nat) : Placement := h.history.getD index default

/-- The accessor `back()`, the slot `used - 1` (only called on a non-empty stack). -/
def back (h : PushPopHistoryArray) : Placement := h.get (h.used - 1)

/-- The method `emplace_back` (called `emplace` in `Board::place`): writes slot
`used` and increments `used`. A write past the 64 slots is undefined in C++;
the list update drops it. -/
def emplace_back (h : PushPopHistoryArray) (occ pos : Nat) (balance_delta : Int) :
    PushPopHistoryArray :=
  { history := h.history.set h.used ⟨occ, pos, balance_delta⟩,
    used := toSize (h.used + 1) }

/-- The method `pop_back` (called `pop` in `Board::pop`). -/
def pop_back (h : PushPopHistoryArray) : PushPopHistoryArray :=
  if h.used > 0 then { h with used := h.used - 1 } else h

/-- The live entries `history[0 .. used)`. -/
def live (h : PushPopHistoryArray) : List Placement := h.history.take h.used

end PushPopHistoryArray

/-! ## The board (`board.h`, `board.cpp`) -/

/-- The class `Board`. -/
structure Board where
  occ : Nat
  history : PushPopHistoryArray
  pieces : List Tile
  suffix_min_size : List Nat
  suffix_max_imbalance : List Int
  piece_index : Nat
  tile_gcd : Nat
  current_imbalance : Int
deriving DecidableEq, Repr

/-- The helper `ListGCD`. Its `uint8_t` loop index returns for lists of at most
255 tiles, which is the range modelled here. -/
def ListGCD (nums : List Tile) : Nat :=
  match nums with
  | [] => 0
  | t :: rest =>
    rest.foldl (fun g u => Nat.gcd g (toUInt8 (BIT_COUNT u.repr))) (toUInt8 (BIT_COUNT t.repr))

/-- The first loop of `Board::Board`, with `n` the number of iterations left:
the iteration handles index `n - 1`. -/
def suffixMinLoop (pieces : List Tile) : Nat → Int → List Nat → List Nat
  | 0, _, tbl => tbl
  | i + 1, min_sz, tbl =>
    let count := toInt8 (BIT_COUNT (pieces.getD i default).repr)
    let min_sz1 := if count < min_sz then count else min_sz
    suffixMinLoop pieces i min_sz1 (tbl.set i (toUInt8 min_sz1))

/-- The second loop of `Board::Board`, with the `int8_t` accumulator
`running_max`. -/
def suffixImbLoop (pieces : List Tile) : Nat → Int → List Int → List Int
  | 0, _, tbl => tbl
  | i + 1, running_max, tbl =>
    let b := toInt8 (BIT_COUNT ((pieces.getD i default).repr &&& CHECKERBOARD_MASK))
    let w := toInt8 (BIT_COUNT ((pieces.getD i default).repr &&& not64 CHECKERBOARD_MASK))
    let running_max1 := toInt8 (running_max + |b - w|)
    suffixImbLoop pieces i running_max1 (tbl.set i running_max1)

/-- Number of iterations of `for (int8_t i = size - 1; i >= 0; --i)`. -/
def int8LoopCount (size : Nat) : Nat := (toInt8 ((size : Int) - 1) + 1).toNat

namespace Board

/-- The constructor `Board::Board(p)`. -/
def ctor (p : List Tile) : Board :=
  { occ := 0
    piece_index := 0
    current_imbalance := 0
    pieces := p
    history := PushPopHistoryArray.ctor
    suffix_min_size :=
      if p.isEmpty then List.replicate (p.length + 1) 0
      else suffixMinLoop p (int8LoopCount p.length) 64 (List.replicate (p.length + 1) 0)
    suffix_max_imbalance :=
      (if p.isEmpty then List.replicate (p.length + 1) 0
       else suffixImbLoop p (int8LoopCount p.length) 0 (List.replicate (p.length + 1) 0)).set
        p.length 0
    tile_gcd := ListGCD p }

def getCurrentPiece (b : Board) : Tile := b.pieces.getD b.piece_index default
def getPiece (b : Board) (index : Nat) : Tile := b.pieces.getD index default
def getPieceIndex (b : Board) : Nat := b.piece_index
def getLastPlacementPos (b : Board) : Nat := if b.history.empty then 0 else b.history.back.pos
def placements (b : Board) : Nat := not64 b.occ
def done (b : Board) : Bool := b.piece_index == b.pieces.length
def numPieces (b : Board) : Nat := b.pieces.length
def getSuffixMaxImbalance (b : Board) : Int := b.suffix_max_imbalance.getD b.piece_index 0
def getCurrentImbalance (b : Board) : Int := b.current_imbalance

/-- Modelled from the spec: `open_squares()`, called by `solve` and not declared
in `board.h`; it "returns `popcount(~occ)`". -/
def openSquares (b : Board) : Nat := BIT_COUNT (not64 b.occ)

/-- Modelled from the spec: `symmetry_broken()`, called by `solve` and not
declared in `board.h`; it is "true iff `piece_index > 0`". -/
def symmetryBroken (b : Board) : Bool := decide (b.piece_index > 0)

/-- The method `Board::place`. -/
def place (b : Board) (piece pos : Nat) : Board :=
  let p := shl64 piece pos
  let black := toUInt8 (BIT_COUNT (p &&& CHECKERBOARD_MASK))
  let white := toUInt8 (BIT_COUNT (p &&& not64 CHECKERBOARD_MASK))
  let delta := toInt8 ((black : Int) - (white : Int))
  { b with
    history := b.history.emplace_back b.occ pos delta
    occ := b.occ ||| p
    current_imbalance := toInt32 (b.current_imbalance + delta)
    piece_index := toSize (b.piece_index + 1) }

/-- The method `Board::pop`. -/
def pop (b : Board) : Board :=
  if b.history.empty then b
  else
    let last := b.history.back
    { b with
      occ := last.occ
      current_imbalance := toInt32 (b.current_imbalance - last.balance_delta)
      history := b.history.pop_back
      piece_index := toSize ((b.piece_index : Int) - 1) }

end Board

/-- The eight directional shifts of the flood fill in `hasSolvableRegions`. -/
def grow8 (component : Nat) : Nat :=
  component
    ||| shl64 (component &&& NOT_H_FILE) 1
    ||| (component &&& NOT_A_FILE) >>> 1
    ||| shl64 component 8
    ||| component >>> 8
    ||| shl64 (component &&& NOT_H_FILE) 9
    ||| shl64 (component &&& NOT_A_FILE) 7
    ||| (component &&& NOT_H_FILE) >>> 7
    ||| (component &&& NOT_A_FILE) >>> 9

/-- The inner `while (true)` loop of `hasSolvableRegions` on the pair
`(component, empty)`; it leaves through `break` within 64 iterations. -/
def floodLoop : Nat → Nat → Nat → Nat × Nat
  | 0, component, empty => (component, empty)
  | fuel + 1, component, empty =>
    let new_nodes := grow8 component &&& empty
    if new_nodes = 0 then (component, empty)
    else floodLoop fuel (component ||| new_nodes) (empty &&& not64 new_nodes)

/-- The outer `while (empty)` loop of `hasSolvableRegions`. -/
def regionLoop (min_sz : Int) (tile_gcd : Nat) : Nat → Nat → Bool
  | 0, _ => true
  | fuel + 1, empty =>
    if empty = 0 then true
    else
      let start_node := shl64 1 (LSB empty)
      let ce := floodLoop 64 start_node (empty &&& not64 start_node)
      if (BIT_COUNT ce.1 : Int) < min_sz || BIT_COUNT ce.1 % tile_gcd != 0 then false
      else regionLoop min_sz tile_gcd fuel ce.2

/-- The method `Board::hasSolvableRegions`. The remainder by `tile_gcd` is only
reached with `min_sz ≠ 0`. -/
def Board.hasSolvableRegions (b : Board) : Bool :=
  let empty := not64 b.occ
  if empty = 0 then true
  else
    let min_sz := toInt8 (b.suffix_min_size.getD b.piece_index 0)
    if min_sz = 0 then true
    else regionLoop min_sz b.tile_gcd 65 empty

/-- The outcome of a run that checks what the fuel and the remainder hide: a
value, or a loop that was still running when its fuel ran out, or a remainder
by zero. -/
inductive Checked where
  | value (b : Bool)
  | outOfFuel
  | divisionByZero
deriving DecidableEq, Repr

/-- The inner `while (true)` loop of `hasSolvableRegions` with its exit made
explicit: `some` when the loop leaves through `break` within `fuel` tests of
`new_nodes`, `none` when it does not. -/
def floodLoopChecked : Nat → Nat → Nat → Option (Nat × Nat)
  | 0, _, _ => none
  | fuel + 1, component, empty =>
    let new_nodes := grow8 component &&& empty
    if new_nodes = 0 then some (component, empty)
    else floodLoopChecked fuel (component ||| new_nodes) (empty &&& not64 new_nodes)

/-- The outer `while (empty)` loop of `hasSolvableRegions` with its failures made
explicit. The remainder is evaluated only when `BIT_COUNT(component) < min_sz`
is false, as the short-circuit `||` of the source does. -/
def regionLoopChecked (min_sz : Int) (tile_gcd : Nat) : Nat → Nat → Checked
  | 0, _ => Checked.outOfFuel
  | fuel + 1, empty =>
    if empty = 0 then Checked.value true
    else
      let start_node := shl64 1 (LSB empty)
      match floodLoopChecked 64 start_node (empty &&& not64 start_node) with
      | none => Checked.outOfFuel
      | some ce =>
        if (BIT_COUNT ce.1 : Int) < min_sz then Checked.value false
        else if tile_gcd = 0 then Checked.divisionByZero
        else if BIT_COUNT ce.1 % tile_gcd != 0 then Checked.value false
        else regionLoopChecked min_sz tile_gcd fuel ce.2

/-- The method `Board::hasSolvableRegions` with its failures made explicit. -/
def Board.hasSolvableRegionsChecked (b : Board) : Checked :=
  let empty := not64 b.occ
  if empty = 0 then Checked.value true
  else
    let min_sz := toInt8 (b.suffix_min_size.getD b.piece_index 0)
    if min_sz = 0 then Checked.value true
    else regionLoopChecked min_sz b.tile_gcd 65 empty

/-! ## The solver (`solver.cpp`) -/

/-- The state threaded through `solve`: the `Board&`, the `size_t&` counter, the
boards written to `std::cout`, and a log of every board state the search
produced (on entry to each call and after each `pop`). -/
structure Run where
  board : Board
  solution_count : Nat
  out : List Board
  visited : List Board
deriving DecidableEq, Repr

/-- The origins `i = y * 8 + x` produced by the nested `y`/`x` loops of `solve`,
in the order of the iteration. -/
def solveOrigins (start_pos max_x max_y : Nat) : List Nat :=
  let start_y := toUInt8 (start_pos / 8)
  let start_x := toUInt8 (start_pos % 8)
  (List.range' start_y (max_y + 1 - start_y)).flatMap fun (y : Nat) =>
    let current_start_x := if y = start_y then start_x else 0
    (List.range' current_start_x (max_x + 1 - current_start_x)).map
      fun (x : Nat) => toUInt8 ((y : Int) * 8 + (x : Int))

/-- The first-piece octant test: `y > 3 || x > 3 || y > x` on `i`. -/
def outsideOctant (i : Nat) : Bool :=
  decide (toUInt8 (i / 8) > 3) || decide (toUInt8 (i % 8) > 3)
    || decide (toUInt8 (i / 8) > toUInt8 (i % 8))

/-- The body of the placement loops of `solve`, iterated over the origins that
are left; `rec` is the recursive call. -/
def solveLoop (rec : Run → Bool × Run) (one_solution : Bool) (placements piece : Nat) :
    List Nat → Bool → Run → Bool × Run
  | [], result, r => (result, r)
  | i :: rest, result, r =>
    if !r.board.symmetryBroken && outsideOctant i then
      solveLoop rec one_solution placements piece rest result r
    else if shl64 piece i &&& placements != shl64 piece i then
      solveLoop rec one_solution placements piece rest result r
    else
      let res := rec { r with board := r.board.place piece i }
      if res.1 && one_solution then (true, res.2)
      else
        let b3 := res.2.board.pop
        solveLoop rec one_solution placements piece rest (result || res.1)
          { res.2 with board := b3, visited := res.2.visited ++ [b3] }

/-- The solved branch of `solve`. -/
def solveDone (silent : Bool) (r : Run) : Bool × Run :=
  (true, { r with out := if silent then r.out else r.out ++ [r.board],
                  solution_count := r.solution_count + 1 })

/-- The function `solve`, with the condition under which the region check runs
as a parameter `gate` (applied to `openSquares() + p_height * p_width`). The
fuel bounds the recursion depth, which is at most the number of pieces left. -/
def solveGated (gate : Nat → Bool) : Nat → Bool → Bool → Run → Bool × Run
  | 0, _, silent, r =>
    let r := { r with visited := r.visited ++ [r.board] }
    if r.board.done then solveDone silent r else (false, r)
  | fuel + 1, one_solution, silent, r =>
    let r := { r with visited := r.visited ++ [r.board] }
    if r.board.done then solveDone silent r
    else if |r.board.getCurrentImbalance| > r.board.getSuffixMaxImbalance then (false, r)
    else
      let t := r.board.getCurrentPiece
      if gate (r.board.openSquares + t.p_height * t.p_width)
          && !r.board.hasSolvableRegions then (false, r)
      else
        let current_piece_index := r.board.getPieceIndex
        let start_pos :=
          if decide (current_piece_index > 0)
              && (r.board.getPiece current_piece_index).beq
                  (r.board.getPiece (current_piece_index - 1)) then
            r.board.getLastPlacementPos + 1
          else 0
        let placements := r.board.placements
        let piece := t.repr
        let max_y := toUInt8 (7 - (t.p_height : Int))
        let max_x := toUInt8 (7 - (t.p_width : Int))
        solveLoop (solveGated gate fuel one_solution silent) one_solution placements piece
          (solveOrigins start_pos max_x max_y) false r

/-- The gate of the source: `openSquares() + p_height * p_width > 32`. -/
def codedGate (s : Nat) : Bool := decide (s > 32)

/-- The call `solve(board, solution_count, one_solution, silent)`. -/
def solve (board : Board) (solution_count : Nat) (one_solution silent : Bool) : Bool × Run :=
  solveGated codedGate (board.pieces.length - board.piece_index) one_solution silent
    ⟨board, solution_count, [], []⟩

/-! ## Task generation (`main.cpp`) -/

/-- The state threaded through `generateTasks`: the `Board&`, the global
`task_queue`, and the log of board states. -/
structure GenRun where
  board : Board
  task_queue : List Board
  visited : List Board
deriving DecidableEq, Repr

/-- The body of the linear placement loop of `generateTasks`. -/
def generateLoop (rec : GenRun → GenRun) (current_piece_index placements piece : Nat)
    (t : Tile) : List Nat → GenRun → GenRun
  | [], g => g
  | i :: rest, g =>
    if current_piece_index == 0 && outsideOctant i then
      generateLoop rec current_piece_index placements piece t rest g
    else if decide (i % 8 > toUInt8 (7 - (t.p_width : Int)))
        || decide (i / 8 > toUInt8 (7 - (t.p_height : Int))) then
      generateLoop rec current_piece_index placements piece t rest g
    else if shl64 piece i &&& placements != shl64 piece i then
      generateLoop rec current_piece_index placements piece t rest g
    else
      let g2 := rec { g with board := g.board.place piece (toUInt8 i) }
      let b3 := g2.board.pop
      generateLoop rec current_piece_index placements piece t rest
        { g2 with board := b3, visited := g2.visited ++ [b3] }

/-- The function `generateTasks`; the `uint8_t` depth reaches `goal_depth`
within 256 calls, which bounds the fuel. -/
def generateTasksAux : Nat → Nat → Nat → GenRun → GenRun
  | 0, _, _, g => { g with visited := g.visited ++ [g.board] }
  | fuel + 1, depth, goal_depth, g =>
    let g := { g with visited := g.visited ++ [g.board] }
    if depth == goal_depth || g.board.done then
      { g with task_queue := g.task_queue ++ [g.board] }
    else
      let current_piece_index := g.board.getPieceIndex
      let placements := g.board.placements
      let t := g.board.getCurrentPiece
      let piece := t.repr
      let start_pos :=
        if decide (current_piece_index > 0)
            && (g.board.getPiece current_piece_index).beq
                (g.board.getPiece (current_piece_index - 1)) then
          g.board.getLastPlacementPos + 1
        else 0
      generateLoop (generateTasksAux fuel (toUInt8 (depth + 1)) goal_depth)
        current_piece_index placements piece t
        (List.range' start_pos (64 - start_pos)) g

/-- The call `generateTasks(board, depth, goal_depth)` on an empty task queue. -/
def generateTasks (board : Board) (depth goal_depth : Nat) : GenRun :=
  generateTasksAux 256 depth goal_depth ⟨board, [], []⟩

/-! ## Rendering (`board.cpp`) -/

/-- The method `Board::getChar`. The `for` loop returns at the first placed
piece whose translated mask meets the cell; `'a'` is 97. -/
def Board.getChar (b : Board) (x y : Nat) : Char :=
  let mask := shl64 1 (y * 8 + x)
  if b.occ &&& mask = 0 then '.'
  else
    match (List.range b.piece_index).find?
        (fun i => shl64 (b.pieces.getD i default).repr (b.history.get i).pos &&& mask != 0) with
    | some i => Char.ofNat (97 + i % 26)
    | none => '?'

/-- The string `ANSI_RESET`. -/
def ANSI_RESET : List Char := "\x1b[0m".toList

/-- The table `ANSI_COLORS`. -/
def ANSI_COLORS : List (List Char) :=
  ["\x1b[31m", "\x1b[32m", "\x1b[33m", "\x1b[34m", "\x1b[35m", "\x1b[36m",
   "\x1b[91m", "\x1b[92m", "\x1b[93m", "\x1b[94m", "\x1b[95m", "\x1b[96m"].map String.toList

/-- The table `ANSI_BACKGROUND_COLORS`. -/
def ANSI_BACKGROUND_COLORS : List (List Char) :=
  ["\x1b[41m", "\x1b[42m", "\x1b[43m", "\x1b[44m", "\x1b[45m", "\x1b[46m",
   "\x1b[101m", "\x1b[102m", "\x1b[103m", "\x1b[104m", "\x1b[105m", "\x1b[106m"].map
    String.toList

def NUM_COLORS : Nat := 12

/-- The characters that the body of the `x` loop of `operator<<` appends to the
buffer for the cell `(x, y)`. The remainder by `NUM_COLORS` is taken on a value
in `[0, 25]`; the space is character 32. -/
def renderCell (b : Board) (use_ansi_colors use_block_characters use_flat_output : Bool)
    (x y : Nat) : List Char :=
  let piece_char := b.getChar x y
  (if use_ansi_colors && decide ('a' ≤ piece_char) && decide (piece_char ≤ 'z') then
    let color_idx := toUInt8 (toInt8 ((piece_char.toNat : Int) - 97) % (NUM_COLORS : Int))
    let color :=
      if use_block_characters then ANSI_BACKGROUND_COLORS.getD color_idx []
      else ANSI_COLORS.getD color_idx []
    color ++ (if use_block_characters then [Char.ofNat 32, Char.ofNat 32] else [piece_char])
      ++ ANSI_RESET
  else if use_block_characters && piece_char == '.' then [Char.ofNat 32, Char.ofNat 32]
  else [piece_char])
    ++ (if !use_block_characters && !use_flat_output then [Char.ofNat 32] else [])

/-- The characters that one iteration of the `y` loop of `operator<<` appends:
a tab (9), the eight cells, a newline (10). -/
def renderRow (b : Board) (use_ansi_colors use_block_characters use_flat_output : Bool)
    (y : Nat) : List Char :=
  (if !use_flat_output then [Char.ofNat 9] else [])
    ++ ((List.range 8).flatMap fun x =>
      renderCell b use_ansi_colors use_block_characters use_flat_output x y)
    ++ (if !use_flat_output then [Char.ofNat 10] else [])

/-- The characters that `operator<<` writes into `buffer` before the
terminating NUL; `ptr` ends as the length of this list. The writes are not
bounded by the size of the buffer. -/
def render (b : Board) (use_ansi_colors use_block_characters use_flat_output : Bool) :
    List Char :=
  (if !use_flat_output then "Board:\n".toList else [])
    ++ ((List.range 8).flatMap fun y =>
      renderRow b use_ansi_colors use_block_characters use_flat_output y)
    ++ (if use_flat_output then [Char.ofNat 10] else [])

end Tetromino

namespace Tetromino

/-! ## Reference notions used to state and prove the properties -/

/-- The tile at index `j` of the tile list. -/
def tileAt (tiles : List Tile) (j : Nat) : Tile := tiles.getD j default

/-- The mask of tile `j` translated to origin `pos`. -/
def stepMask (tiles : List Tile) (j pos : Nat) : Nat := shl64 (tileAt tiles j).repr pos

/-- The set of board cells (bit indices below 64) of a mask. -/
def cells (m : Nat) : Finset ℕ := (Finset.range 64).filter (fun k => m.testBit k = true)

/-- Black cells minus white cells of a mask under the checkerboard colouring. -/
def imbalance (m : Nat) : Int :=
  (BIT_COUNT (m &&& CHECKERBOARD_MASK) : Int) - (BIT_COUNT (m &&& not64 CHECKERBOARD_MASK) : Int)

/-- Occupancy after placing tiles `j, j+1, ...` at the origins of the list,
starting from occupancy `occ`. -/
def occFrom (tiles : List Tile) : Nat → Nat → List Nat → Nat
  | _, occ, [] => occ
  | j, occ, pos :: rest => occFrom tiles (j + 1) (occ ||| stepMask tiles j pos) rest

/-- Parity accumulator after placing tiles `j, j+1, ...` at the origins of the list. -/
def ciFrom (tiles : List Tile) : Nat → Int → List Nat → Int
  | _, ci, [] => ci
  | j, ci, pos :: rest => ciFrom tiles (j + 1) (ci + imbalance (stepMask tiles j pos)) rest

/-- History records written by placing tiles `j, j+1, ...` at the origins of the list. -/
def entriesFrom (tiles : List Tile) : Nat → Nat → List Nat → List Placement
  | _, _, [] => []
  | j, occ, pos :: rest =>
    ⟨occ, pos, imbalance (stepMask tiles j pos)⟩ ::
      entriesFrom tiles (j + 1) (occ ||| stepMask tiles j pos) rest

/-- The board `b` is the search state in which the tiles `0 .. os.length - 1` of
`tiles` sit at the origins `os`, in this order. -/
structure Rep (tiles : List Tile) (os : List Nat) (b : Board) : Prop where
  pieces : b.pieces = tiles
  smin : b.suffix_min_size = (Board.ctor tiles).suffix_min_size
  smax : b.suffix_max_imbalance = (Board.ctor tiles).suffix_max_imbalance
  gcd : b.tile_gcd = (Board.ctor tiles).tile_gcd
  idx : b.piece_index = os.length
  used : b.history.used = os.length
  slots : b.history.history.length = 64
  live : b.history.live = entriesFrom tiles 0 0 os
  occ : b.occ = occFrom tiles 0 0 os
  ci : b.current_imbalance = ciFrom tiles 0 0 os

end Tetromino

namespace Tetromino

/-- A board with the fields of the search state `os`; dead history slots are zero. -/
def aBoard (tiles : List Tile) (os : List Nat) : Board :=
  { occ := occFrom tiles 0 0 os
    history := ⟨entriesFrom tiles 0 0 os ++ List.replicate (64 - os.length) default, os.length⟩
    pieces := tiles
    suffix_min_size := (Board.ctor tiles).suffix_min_size
    suffix_max_imbalance := (Board.ctor tiles).suffix_max_imbalance
    piece_index := os.length
    tile_gcd := (Board.ctor tiles).tile_gcd
    current_imbalance := ciFrom tiles 0 0 os }

/-- Origin of the last placement of the state `os` (0 when nothing is placed). -/
def aLast (os : List Nat) : Nat := os.getLast?.getD 0

/-- First origin allowed for the next tile: the duplicate-ordering rule. -/
def aStart (tiles : List Tile) (os : List Nat) : Nat :=
  if decide (os.length > 0) && (tileAt tiles os.length).beq (tileAt tiles (os.length - 1)) then
    aLast os + 1
  else 0

/-- The origins the placement loops of `solve` run through in the state `os`. -/
def aOrigins (tiles : List Tile) (os : List Nat) : List Nat :=
  solveOrigins (aStart tiles os) (toUInt8 (7 - ((tileAt tiles os.length).p_width : Int)))
    (toUInt8 (7 - ((tileAt tiles os.length).p_height : Int)))

/-- The two `continue` tests of the loop body both fail: origin `i` is tried. -/
def aCandOk (tiles : List Tile) (os : List Nat) (i : Nat) : Bool :=
  !(!decide (os.length > 0) && outsideOctant i) &&
    !(shl64 (tileAt tiles os.length).repr i &&& not64 (occFrom tiles 0 0 os)
        != shl64 (tileAt tiles os.length).repr i)

/-- The origins at which `solve` places the next tile in the state `os`. -/
def aCands (tiles : List Tile) (os : List Nat) : List Nat :=
  (aOrigins tiles os).filter (aCandOk tiles os)

/-- The parity test of `solve` cuts the state `os`. -/
def aParityCut (tiles : List Tile) (os : List Nat) : Bool :=
  decide (|(aBoard tiles os).getCurrentImbalance| > (aBoard tiles os).getSuffixMaxImbalance)

/-- The gated region test of `solve` cuts the state `os`. -/
def aRegionCut (tiles : List Tile) (gate : Nat → Bool) (os : List Nat) : Bool :=
  gate ((aBoard tiles os).openSquares
      + (tileAt tiles os.length).p_height * (tileAt tiles os.length).p_width)
    && !(aBoard tiles os).hasSolvableRegions

/-- The state `os` is cut by one of the two pruning tests of `solve`. -/
def aPruned (tiles : List Tile) (gate : Nat → Bool) (os : List Nat) : Bool :=
  aParityCut tiles os || aRegionCut tiles gate os

/-- The complete states found below `os` by a depth-first search that places
the next tile at each candidate origin and skips the states cut by `prune`. -/
def aTree (tiles : List Tile) (prune : List Nat → Bool) : Nat → List Nat → List (List Nat)
  | 0, os => if os.length == tiles.length then [os] else []
  | fuel + 1, os =>
    if os.length == tiles.length then [os]
    else if prune os then []
    else (aCands tiles os).flatMap fun i => aTree tiles prune fuel (os ++ [i])

/-- The solutions reported: all of them, or the first one in one-solution mode. -/
def found (one_solution : Bool) (T : List (List Nat)) : List (List Nat) :=
  if one_solution then T.take 1 else T

/-- The state `os'` is reached from `os` by placing tiles, while fewer than `n`
are placed, at origins offered by `cands`. -/
inductive ReachBy (cands : List Nat → List Nat) (n : Nat) : List Nat → List Nat → Prop
  | refl (os : List Nat) : ReachBy cands n os os
  | step {os os' : List Nat} {i : Nat} :
      os.length < n → i ∈ cands os → ReachBy cands n (os ++ [i]) os' → ReachBy cands n os os'

/-- The state `os'` is reached from `os` by the placements of `solve`. -/
def aReach (tiles : List Tile) : List Nat → List Nat → Prop :=
  ReachBy (aCands tiles) tiles.length

/-- The three `continue` tests of the loop body of `generateTasks` all fail. -/
def gCandOk (tiles : List Tile) (os : List Nat) (i : Nat) : Bool :=
  !(os.length == 0 && outsideOctant i) &&
    !(decide (i % 8 > toUInt8 (7 - ((tileAt tiles os.length).p_width : Int)))
        || decide (i / 8 > toUInt8 (7 - ((tileAt tiles os.length).p_height : Int)))) &&
    !(shl64 (tileAt tiles os.length).repr i &&& not64 (occFrom tiles 0 0 os)
        != shl64 (tileAt tiles os.length).repr i)

/-- The origins at which `generateTasks` places the next tile in the state `os`. -/
def gCands (tiles : List Tile) (os : List Nat) : List Nat :=
  (List.range' (aStart tiles os) (64 - aStart tiles os)).filter (gCandOk tiles os)

/-- The states that `generateTasks` pushes to the task queue below `os`. -/
def aTasks (tiles : List Tile) : Nat → Nat → Nat → List Nat → List (List Nat)
  | 0, _, _, _ => []
  | fuel + 1, depth, goal_depth, os =>
    if depth == goal_depth || os.length == tiles.length then [os]
    else (gCands tiles os).flatMap fun i =>
      aTasks tiles fuel (toUInt8 (depth + 1)) goal_depth (os ++ [i])

/-- What a call of `generateTasks`, or a run of its loop, does to the run `g`
when `T` lists the task states below `os`. -/
structure GenSpec (tiles : List Tile) (os : List Nat) (T : List (List Nat)) (g res : GenRun) :
    Prop where
  tasks : ∃ new, res.task_queue = g.task_queue ++ new ∧ List.Forall₂ (Rep tiles) T new
  visited : ∃ vis, res.visited = g.visited ++ vis ∧
    ∀ b ∈ vis, ∃ os', Rep tiles os' b ∧ ReachBy (gCands tiles) tiles.length os os'
  board : Rep tiles os res.board

/-- What a call of `solve`, or a run of its placement loop with the flag `acc`,
does to the run `r` when `T` lists the complete states below `os`. -/
structure RunSpec (tiles : List Tile) (one_solution silent : Bool) (os : List Nat) (acc : Bool)
    (T : List (List Nat)) (r : Run) (res : Bool × Run) : Prop where
  result : res.1 = (acc || !(found one_solution T).isEmpty)
  count : res.2.solution_count = r.solution_count + (found one_solution T).length
  out : ∃ new, res.2.out = r.out ++ new ∧
    List.Forall₂ (Rep tiles) (if silent then [] else found one_solution T) new
  visited : ∃ vis, res.2.visited = r.visited ++ vis ∧
    ∀ b ∈ vis, ∃ os', Rep tiles os' b ∧ aReach tiles os os'
  board : Rep tiles (if one_solution then T.head?.getD os else os) res.2.board

/-- The extents of a tile bound the coordinates of its cells, as `Tile::Tile`
computes them. -/
def TileOK (t : Tile) : Prop :=
  t.p_width ≤ 7 ∧ t.p_height ≤ 7 ∧
    ∀ k, k < 64 → t.repr.testBit k = true → k % 8 ≤ t.p_width ∧ k / 8 ≤ t.p_height

/-- Every tile of the list has extents that bound its cells. -/
def GoodTiles (tiles : List Tile) : Prop := ∀ t ∈ tiles, TileOK t

/-- Placing tile `j` at origin `pos` on occupancy `occ`, after a placement at
`last`, respects every rule of the search: the tile exists, stays inside the
grid, overlaps nothing, the first tile is in the canonical octant, and a tile
equal to its predecessor lies at a larger origin. -/
def stepOK (tiles : List Tile) (j occ last pos : Nat) : Prop :=
  j < tiles.length ∧ pos ≤ 63 ∧
    pos % 8 + (tileAt tiles j).p_width ≤ 7 ∧ pos / 8 + (tileAt tiles j).p_height ≤ 7 ∧
    stepMask tiles j pos &&& occ = 0 ∧
    (j = 0 → outsideOctant pos = false) ∧
    (0 < j → (tileAt tiles j).beq (tileAt tiles (j - 1)) = true → last < pos)

/-- Every placement of the list respects the rules, for tiles `j, j+1, ...`. -/
def validFrom (tiles : List Tile) : Nat → Nat → Nat → List Nat → Prop
  | _, _, _, [] => True
  | j, occ, last, pos :: rest =>
    stepOK tiles j occ last pos ∧ validFrom tiles (j + 1) (occ ||| stepMask tiles j pos) pos rest

/-- The search state `os` respects the rules of the search. -/
def Valid (tiles : List Tile) (os : List Nat) : Prop := validFrom tiles 0 0 0 os

end Tetromino

namespace Tetromino

/-- The board `Board(tiles)` for the tiles built by `Tile::Tile` from the masks. -/
def boardOf (masks : List Nat) : Board := Board.ctor (masks.map Tile.ctor)

/-- The board `b` is reached from `Board(tiles)` through the `place`/`pop` calls
of `solve`, of `generateTasks`, or of `solve` started on a queued task, as the
workers do. -/
def Reachable (tiles : List Tile) (b : Board) : Prop :=
  (∃ one_solution silent, b ∈ (solve (Board.ctor tiles) 0 one_solution silent).2.visited) ∨
  (∃ goal_depth, b ∈ (generateTasks (Board.ctor tiles) 0 goal_depth).visited) ∨
  (∃ goal_depth t one_solution silent,
    t ∈ (generateTasks (Board.ctor tiles) 0 goal_depth).task_queue ∧
      b ∈ (solve t 0 one_solution silent).2.visited)

/-- The mask of the placed piece `j`: `pieces[j].repr << history[j].pos`. -/
def placedMask (b : Board) (j : Nat) : Nat :=
  shl64 (b.getPiece j).repr (b.history.get j).pos

end Tetromino

namespace Tetromino

/-- The state `os` extends to a complete state that respects the rules. -/
def Compl (tiles : List Tile) (os : List Nat) : Prop :=
  ∃ rest, Valid tiles (os ++ rest) ∧ (os ++ rest).length = tiles.length

/-- The test `prune` cuts no state that extends to a complete one. -/
def SoundPrune (tiles : List Tile) (prune : List Nat → Bool) : Prop :=
  ∀ os, Valid tiles os → prune os = true → ¬ Compl tiles os

end Tetromino

namespace Tetromino

/-- Sum of `|black − white|` over the tiles from index `i` on. -/
def sufImb (tiles : List Tile) (i : Nat) : Int :=
  ((tiles.drop i).map (fun t => |imbalance t.repr|)).sum

/-- Minimum of 64 and the popcounts of the tiles from index `i` on. -/
def sufMin (tiles : List Tile) (i : Nat) : Nat :=
  ((tiles.drop i).map (fun t => BIT_COUNT t.repr)).foldr min 64

end Tetromino

namespace Tetromino

/-- Two cells are king-adjacent: distinct, and their columns and rows differ
by at most one. -/
def kingAdj (u v : Nat) : Bool :=
  (u != v) && decide (u % 8 ≤ v % 8 + 1) && decide (v % 8 ≤ u % 8 + 1)
    && decide (u / 8 ≤ v / 8 + 1) && decide (v / 8 ≤ u / 8 + 1)

/-- The cells of `m` that are in `s` or king-adjacent to a cell of `s`. -/
def kingStep (m : Nat) (s : List Nat) : List Nat :=
  (List.range 64).filter fun v => m.testBit v && (s.contains v || s.any fun u => kingAdj u v)

/-- Iterated `kingStep`, until nothing is added or the fuel is used up. -/
def kingReach (m : Nat) : Nat → List Nat → List Nat
  | 0, s => s
  | n + 1, s =>
    if (kingStep m s).length == s.length then s else kingReach m n (kingStep m s)

/-- The cells of the mask are king-connected (8-connected): every cell is
reached from the lowest one through king moves inside the mask. -/
def kingConnected (m : Nat) : Bool :=
  (List.range 64).all fun v => !m.testBit v || (kingReach m 64 [LSB m]).contains v

/-- A set of cells is king-connected: a non-empty part with no king move to the
rest is the whole set. -/
def KConn (S : Finset ℕ) : Prop :=
  ∀ A : Finset ℕ, A ⊆ S → A.Nonempty → (∀ u ∈ A, ∀ v ∈ S \ A, kingAdj u v = false) → A = S

/-- The cell sets of the tiles `j, j+1, ...` placed at the origins of the list. -/
def maskCells (tiles : List Tile) : Nat → List Nat → List (Finset ℕ)
  | _, [] => []
  | j, pos :: rest => cells (stepMask tiles j pos) :: maskCells tiles (j + 1) rest

end Tetromino

namespace Tetromino

/-- The origins `os` place the tiles `masks` as an exact tiling of the board:
one in-grid origin per tile, no cell of a tile leaves the grid or wraps, the
translated tiles are pairwise disjoint, and every cell is covered. -/
def IsTiling (masks os : List Nat) : Prop :=
  os.length = masks.length ∧
  (∀ j, j < masks.length → os.getD j 0 ≤ 63 ∧
    ∀ k, k < 64 → (masks.getD j 0).testBit k = true →
      k % 8 + os.getD j 0 % 8 ≤ 7 ∧ k / 8 + os.getD j 0 / 8 ≤ 7) ∧
  (∀ k, k < masks.length → ∀ j, j < k →
    shl64 (masks.getD j 0) (os.getD j 0) &&& shl64 (masks.getD k 0) (os.getD k 0) = 0) ∧
  (∀ c, c < 64 → ∃ j, j < masks.length ∧
    (shl64 (masks.getD j 0) (os.getD j 0)).testBit c = true)

/-- The origins `os` obey the two symmetry rules of the search: the first tile
lies in the canonical octant, and a tile equal to its predecessor lies at a
strictly larger origin. -/
def Canonical (masks os : List Nat) : Prop :=
  outsideOctant (os.getD 0 0) = false ∧
  ∀ j, j < masks.length → 0 < j → masks.getD j 0 = masks.getD (j - 1) 0 →
    os.getD (j - 1) 0 < os.getD j 0

instance (masks os : List Nat) : Decidable (IsTiling masks os) := by
  unfold IsTiling; infer_instance

instance (masks os : List Nat) : Decidable (Canonical masks os) := by
  unfold Canonical; infer_instance

/-- The comparator of the `std::sort` call in `main`. -/
def tileBefore (a b : Tile) : Bool :=
  if toUInt8 (BIT_COUNT a.repr) != toUInt8 (BIT_COUNT b.repr) then
    decide (toUInt8 (BIT_COUNT a.repr) > toUInt8 (BIT_COUNT b.repr))
  else decide (a.repr > b.repr)

/-- The tile list is sorted as `main` leaves it: no tile comes before an
earlier one under the comparator. -/
def SortedTiles (tiles : List Tile) : Prop :=
  tiles.Pairwise fun a b => tileBefore b a = false

instance (tiles : List Tile) : Decidable (SortedTiles tiles) := by
  unfold SortedTiles; infer_instance

/-- The mask is anchored: a cell on row 0 and a cell on column 0. -/
def Anchored (m : Nat) : Prop := m &&& 0xFF ≠ 0 ∧ m &&& 0x0101010101010101 ≠ 0

instance (m : Nat) : Decidable (Anchored m) := by
  unfold Anchored; infer_instance

end Tetromino

namespace Tetromino

/-- The (tile mask, origin) pairs of the pieces placed on a board. -/
def boardPairs (b : Board) : List (Nat × Nat) :=
  (List.range b.piece_index).map fun j => ((b.getPiece j).repr, (b.history.get j).pos)

/-- The (tile mask, origin) pairs of a search state. -/
def pairsOf (tiles : List Tile) (o : List Nat) : List (Nat × Nat) :=
  (List.range o.length).map fun j => ((tileAt tiles j).repr, o.getD j 0)

end Tetromino

namespace Tetromino

/-- The mask `r` translated to origin `pos` stays inside the grid: the origin is
a board index, and no cell of the mask leaves the board to the right (which
would wrap into the next row) or at the bottom. -/
def InGrid (r pos : Nat) : Prop :=
  pos ≤ 63 ∧ ∀ k, k < 64 → r.testBit k = true → k % 8 + pos % 8 ≤ 7 ∧ k / 8 + pos / 8 ≤ 7

/-- Placing tile `j` at origin `pos` on occupancy `occ` is in-grid and overlaps
nothing. No symmetry rule of the search is asked for. -/
def freeOK (tiles : List Tile) (j occ pos : Nat) : Prop :=
  j < tiles.length ∧ InGrid (tileAt tiles j).repr pos ∧ stepMask tiles j pos &&& occ = 0

/-- The tiles `j, j+1, ...` are placed at the origins of the list, each in-grid
and overlapping nothing placed before. -/
def freeFrom (tiles : List Tile) : Nat → Nat → List Nat → Prop
  | _, _, [] => True
  | j, occ, pos :: rest =>
    freeOK tiles j occ pos ∧ freeFrom tiles (j + 1) (occ ||| stepMask tiles j pos) rest

/-- The remaining pieces `pieces[piece_index..]` of the board can be placed, in
order, in-grid and without overlap, so that all 64 cells end up covered. -/
def Coverable (b : Board) : Prop :=
  ∃ rest : List Nat, b.piece_index + rest.length = b.pieces.length ∧
    freeFrom b.pieces b.piece_index b.occ rest ∧
    occFrom b.pieces b.piece_index b.occ rest = 2 ^ 64 - 1

/-- The set `C` is a king-connected component of the cell set `E`: non-empty,
inside `E`, king-connected, and closed under king moves inside `E`. -/
def IsComponent (E C : Finset ℕ) : Prop :=
  C.Nonempty ∧ C ⊆ E ∧ KConn C ∧ ∀ u ∈ C, ∀ v ∈ E, kingAdj u v = true → v ∈ C

end Tetromino

namespace Tetromino

/-- The board `b2` has the search state of the board `b`: same occupancy,
piece index, parity accumulator, history size and live history entries, and
the same pieces. -/
def SameState (b b2 : Board) : Prop :=
  b2.occ = b.occ ∧ b2.piece_index = b.piece_index ∧
    b2.current_imbalance = b.current_imbalance ∧ b2.history.size = b.history.size ∧
    b2.history.live = b.history.live ∧ b2.pieces = b.pieces

end Tetromino

namespace Tetromino

/-- A stand-in for the recursive call of `solve` in its placement loop: it only
records, in `out`, the board it is called on, and reports no solution. -/
def logPlaced (r : Run) : Bool × Run := (false, { r with out := r.out ++ [r.board] })

/-- A stand-in for the recursive call of `generateTasks` in its placement loop:
it only records, in `task_queue`, the board it is called on. -/
def logPlacedGen (g : GenRun) : GenRun := { g with task_queue := g.task_queue ++ [g.board] }

end Tetromino

namespace Tetromino

/-- The fuel `fuel` is the number of pieces the board `b` has left to place, the
number of pieces fits `size_t`, and the history has room for all of them. -/
def FuelOK (b : Board) (fuel : Nat) : Prop :=
  b.piece_index + fuel = b.pieces.length ∧ b.pieces.length < 2 ^ 64 ∧
    b.history.used + fuel ≤ 64

/-- The board `b2` has the piece index, the history size and the pieces of `b`. -/
def SameFrame (b b2 : Board) : Prop :=
  b2.piece_index = b.piece_index ∧ b2.history.used = b.history.used ∧ b2.pieces = b.pieces

/-- What a call of `solve`, or a run of its placement loop with the flag `acc`,
does to the counter of the run `r`: the counter does not decrease, the result
tells whether it increased, one-solution mode adds at most one, the increase is
the number of done boards added to the log, and the board keeps its frame
unless the call stopped at a solution. -/
structure CountSpec (one_solution acc : Bool) (r : Run) (res : Bool × Run) : Prop where
  mono : r.solution_count ≤ res.2.solution_count
  result : res.1 = true ↔ (acc = true ∨ r.solution_count < res.2.solution_count)
  single : one_solution = true → acc = false → res.2.solution_count ≤ r.solution_count + 1
  dones : res.2.solution_count + r.visited.countP Board.done
    = r.solution_count + res.2.visited.countP Board.done
  frame : ¬ (res.1 = true ∧ one_solution = true) → SameFrame r.board res.2.board

end Tetromino

namespace Tetromino




theorem mem_cells {m k : Nat} : k ∈ cells m ↔ k < 64 ∧ m.testBit k = true := by
  simp [cells]

theorem BIT_COUNT_eq_card (m : Nat) : BIT_COUNT m = (cells m).card := by
  unfold BIT_COUNT cells
  rw [List.countP_eq_length_filter]
  simp only [Finset.card, Finset.filter, Finset.range, Multiset.range, Multiset.filter_coe,
    Multiset.coe_card]
  congr 1
  apply List.filter_congr
  intro k _
  simp

theorem testBit_shl64 (b i k : Nat) :
    (shl64 b i).testBit k = (decide (k < 64) && decide (i ≤ k) && b.testBit (k - i)) := by
  rw [shl64, Nat.testBit_mod_two_pow, Nat.testBit_shiftLeft]
  simp [Bool.and_assoc]

theorem testBit_not64 (b k : Nat) :
    (not64 b).testBit k = (decide (k < 64) && !b.testBit k) := by
  unfold not64
  rw [Nat.testBit_mod_two_pow, Nat.testBit_xor, Nat.testBit_two_pow_sub_one]
  by_cases h : k < 64 <;> simp [h]

theorem shl64_lt (b i : Nat) : shl64 b i < 2 ^ 64 := Nat.mod_lt _ (by decide)
theorem not64_lt (b : Nat) : not64 b < 2 ^ 64 := Nat.mod_lt _ (by decide)

theorem testBit_of_lt_two_pow64 {m k : Nat} (hm : m < 2 ^ 64) (hk : m.testBit k = true) : k < 64 := by
  by_contra h
  have : m < 2 ^ k := lt_of_lt_of_le hm (Nat.pow_le_pow_right (by decide) (by omega))
  rw [Nat.testBit_lt_two_pow this] at hk
  exact absurd hk (by simp)

theorem cells_eq_empty_iff {m : Nat} (hm : m < 2 ^ 64) : cells m = ∅ ↔ m = 0 := by
  constructor
  · intro h
    apply Nat.eq_of_testBit_eq
    intro k
    rw [Nat.zero_testBit]
    by_contra hk
    have hk1 : m.testBit k = true := by simpa using hk
    have : k ∈ cells m := mem_cells.2 ⟨testBit_of_lt_two_pow64 hm hk1, hk1⟩
    rw [h] at this
    exact absurd this (Finset.not_mem_empty k)
  · rintro rfl
    ext k
    simp [mem_cells]

theorem cells_or (a b : Nat) : cells (a ||| b) = cells a ∪ cells b := by
  ext k; simp [mem_cells, Nat.testBit_or]; tauto

theorem cells_and (a b : Nat) : cells (a &&& b) = cells a ∩ cells b := by
  ext k; simp [mem_cells, Nat.testBit_and]; tauto

theorem cells_not64 (a : Nat) : cells (not64 a) = Finset.range 64 \ cells a := by
  ext k; simp [mem_cells, testBit_not64]; tauto

theorem cells_subset_range (a : Nat) : cells a ⊆ Finset.range 64 := Finset.filter_subset _ _

theorem BIT_COUNT_le (m : Nat) : BIT_COUNT m ≤ 64 := by
  rw [BIT_COUNT_eq_card]
  simpa using Finset.card_le_card (cells_subset_range m)

theorem and_eq_zero_iff_disjoint {a b : Nat} (ha : a < 2 ^ 64) :
    a &&& b = 0 ↔ Disjoint (cells a) (cells b) := by
  rw [← cells_eq_empty_iff (lt_of_le_of_lt Nat.and_le_left ha), cells_and,
    Finset.disjoint_iff_inter_eq_empty]

end Tetromino

namespace Tetromino

theorem BIT_COUNT_or_of_disjoint {a b : Nat} (h : Disjoint (cells a) (cells b)) :
    BIT_COUNT (a ||| b) = BIT_COUNT a + BIT_COUNT b := by
  rw [BIT_COUNT_eq_card, BIT_COUNT_eq_card, BIT_COUNT_eq_card, cells_or,
    Finset.card_union_of_disjoint h]

theorem toUInt8_natCast {n : Nat} (h : n < 256) : toUInt8 (n : Int) = n := by
  unfold toUInt8; omega

theorem toInt8_of_bounds {z : Int} (h1 : -128 ≤ z) (h2 : z < 128) : toInt8 z = z := by
  unfold toInt8; omega

theorem toInt32_of_bounds {z : Int} (h1 : -2147483648 ≤ z) (h2 : z < 2147483648) :
    toInt32 z = z := by
  unfold toInt32; omega

theorem toSize_natCast {n : Nat} (h : n < 18446744073709551616) : toSize (n : Int) = n := by
  unfold toSize; omega

/-- The scan test of `Tile::Tile` is the bit test. -/
theorem scan_bit (r i : Nat) : ((r >>> i) &&& 1 != 0) = r.testBit i := by
  unfold Nat.testBit
  rw [Nat.and_comm]

theorem scanStep_spec (r : Nat) (m : Nat × Nat) (i : Nat) (hi : i < 64) :
    (Tile.scanStep r m i).1 = (if r.testBit i then max m.1 (i % 8) else m.1) ∧
    (Tile.scanStep r m i).2 = (if r.testBit i then max m.2 (i / 8) else m.2) := by
  unfold Tile.scanStep
  rw [scan_bit]
  have hx : toUInt8 ((i % 8 : Nat) : Int) = i % 8 := toUInt8_natCast (by omega)
  have hy : toUInt8 ((i / 8 : Nat) : Int) = i / 8 := toUInt8_natCast (by omega)
  by_cases hb : r.testBit i = true
  · simp only [hb, if_true]
    norm_cast
    rw [hx, hy]
    constructor
    · by_cases h : i % 8 > m.1
      · simp [h]; omega
      · simp [h]; omega
    · by_cases h : i / 8 > m.2
      · simp [h]; omega
      · simp [h]; omega
  · simp [hb]

theorem scan_fold_spec (r : Nat) (n : Nat) (hn : n ≤ 64) :
    let m := (List.range n).foldl (Tile.scanStep r) (0, 0)
    m.1 ≤ 7 ∧ m.2 ≤ 7 ∧ ∀ k, k < n → r.testBit k = true → k % 8 ≤ m.1 ∧ k / 8 ≤ m.2 := by
  induction n with
  | zero => simp
  | succ n ih =>
    have ih := ih (by omega)
    simp only [List.range_succ, List.foldl_append, List.foldl_cons, List.foldl_nil] at ih ⊢
    obtain ⟨h1, h2, h3⟩ := ih
    obtain ⟨e1, e2⟩ := scanStep_spec r ((List.range n).foldl (Tile.scanStep r) (0, 0)) n (by omega)
    rw [e1, e2]
    by_cases hb : r.testBit n = true
    · simp only [hb, if_true]
      refine ⟨by omega, by omega, ?_⟩
      intro k hk hkb
      by_cases hkn : k = n
      · subst hkn; omega
      · have := h3 k (by omega) hkb
        omega
    · simp only [hb]
      refine ⟨h1, h2, ?_⟩
      intro k hk hkb
      by_cases hkn : k = n
      · subst hkn; exact absurd hkb hb
      · exact h3 k (by omega) hkb

theorem Tile.ctor_repr (r : Nat) : (Tile.ctor r).repr = r := rfl

theorem Tile.ctor_extents (r : Nat) :
    (Tile.ctor r).p_width ≤ 7 ∧ (Tile.ctor r).p_height ≤ 7 ∧
    ∀ k, k < 64 → r.testBit k = true →
      k % 8 ≤ (Tile.ctor r).p_width ∧ k / 8 ≤ (Tile.ctor r).p_height :=
  scan_fold_spec r 64 (le_refl _)

end Tetromino

namespace Tetromino

theorem take_set_self {α : Type} (l : List α) (n : Nat) (a : α) : (l.set n a).take n = l.take n := by
  rw [List.set_take, List.set_eq_of_length_le]
  simp

theorem occFrom_append (tiles : List Tile) (l1 l2 : List Nat) (j occ : Nat) :
    occFrom tiles j occ (l1 ++ l2) = occFrom tiles (j + l1.length) (occFrom tiles j occ l1) l2 := by
  induction l1 generalizing j occ with
  | nil => simp [occFrom]
  | cons a l ih =>
    rw [List.cons_append]
    simp only [occFrom, List.length_cons]
    rw [ih]
    congr 1
    omega

theorem ciFrom_append (tiles : List Tile) (l1 l2 : List Nat) (j : Nat) (ci : Int) :
    ciFrom tiles j ci (l1 ++ l2) = ciFrom tiles (j + l1.length) (ciFrom tiles j ci l1) l2 := by
  induction l1 generalizing j ci with
  | nil => simp [ciFrom]
  | cons a l ih =>
    rw [List.cons_append]
    simp only [ciFrom, List.length_cons]
    rw [ih]
    congr 1
    omega

theorem entriesFrom_append (tiles : List Tile) (l1 l2 : List Nat) (j occ : Nat) :
    entriesFrom tiles j occ (l1 ++ l2) =
      entriesFrom tiles j occ l1 ++
        entriesFrom tiles (j + l1.length) (occFrom tiles j occ l1) l2 := by
  induction l1 generalizing j occ with
  | nil => simp [entriesFrom, occFrom]
  | cons a l ih =>
    rw [List.cons_append]
    simp only [entriesFrom, occFrom, List.length_cons]
    rw [ih]
    simp only [List.cons_append]
    congr 3
    omega

theorem entriesFrom_length (tiles : List Tile) (l : List Nat) (j occ : Nat) :
    (entriesFrom tiles j occ l).length = l.length := by
  induction l generalizing j occ with
  | nil => rfl
  | cons a l ih => simp [entriesFrom, ih]

theorem imbalance_bounds (m : Nat) : -64 ≤ imbalance m ∧ imbalance m ≤ 64 := by
  unfold imbalance
  have h1 := BIT_COUNT_le (m &&& CHECKERBOARD_MASK)
  have h2 := BIT_COUNT_le (m &&& not64 CHECKERBOARD_MASK)
  omega

/-- The `int8_t` delta computed by `place` is the exact difference. -/
theorem place_delta_exact (m : Nat) :
    toInt8 ((toUInt8 (BIT_COUNT (m &&& CHECKERBOARD_MASK)) : Int)
      - (toUInt8 (BIT_COUNT (m &&& not64 CHECKERBOARD_MASK)) : Int)) = imbalance m := by
  have h1 := BIT_COUNT_le (m &&& CHECKERBOARD_MASK)
  have h2 := BIT_COUNT_le (m &&& not64 CHECKERBOARD_MASK)
  rw [toUInt8_natCast (by omega), toUInt8_natCast (by omega)]
  exact toInt8_of_bounds (by omega) (by omega)

theorem ciFrom_bounds (tiles : List Tile) (l : List Nat) (j : Nat) (ci : Int) :
    ci - 64 * l.length ≤ ciFrom tiles j ci l ∧ ciFrom tiles j ci l ≤ ci + 64 * l.length := by
  induction l generalizing j ci with
  | nil => simp [ciFrom]
  | cons a l ih =>
    simp only [ciFrom, List.length_cons]
    have := ih (j + 1) (ci + imbalance (stepMask tiles j a))
    have hb := imbalance_bounds (stepMask tiles j a)
    push_cast
    omega

end Tetromino

namespace Tetromino

theorem take_succ_set {α : Type} (l : List α) (n : Nat) (a : α) (h : n < l.length) :
    (l.set n a).take (n + 1) = l.take n ++ [a] := by
  rw [List.take_succ, take_set_self]
  simp [h]

theorem of_take_succ_eq {α : Type} (l xs : List α) (n : Nat) (e d : α)
    (h : l.take (n + 1) = xs ++ [e]) (hx : xs.length = n) :
    l.getD n d = e ∧ l.take n = xs := by
  have hlen : n < l.length := by
    by_contra hc
    have : (l.take (n + 1)).length = l.length := by
      rw [List.length_take]; omega
    rw [h] at this
    simp at this
    omega
  rw [List.take_succ] at h
  have h2 : l[n]?.toList = [l[n]] := by simp [hlen]
  rw [h2] at h
  have h3 := List.append_inj h (by simp [hx, List.length_take]; omega)
  refine ⟨?_, h3.1⟩
  have := h3.2
  simp at this
  simp [hlen, this]

theorem Rep.ctor (tiles : List Tile) : Rep tiles [] (Board.ctor tiles) where
  pieces := rfl
  smin := rfl
  smax := rfl
  gcd := rfl
  idx := rfl
  used := rfl
  slots := by simp [Board.ctor, PushPopHistoryArray.ctor]
  live := by simp [Board.ctor, PushPopHistoryArray.ctor, PushPopHistoryArray.live, entriesFrom]
  occ := rfl
  ci := rfl

theorem Rep.place {tiles : List Tile} {os : List Nat} {b : Board} (h : Rep tiles os b)
    (hlen : os.length < 64) (i : Nat) :
    Rep tiles (os ++ [i]) (b.place (tileAt tiles os.length).repr i) where
  pieces := h.pieces
  smin := h.smin
  smax := h.smax
  gcd := h.gcd
  idx := by
    simp only [Board.place, h.idx, List.length_append, List.length_singleton]
    exact_mod_cast toSize_natCast (n := os.length + 1) (by omega)
  used := by
    simp only [Board.place, PushPopHistoryArray.emplace_back, h.used, List.length_append,
      List.length_singleton]
    exact_mod_cast toSize_natCast (n := os.length + 1) (by omega)
  slots := by
    simp only [Board.place, PushPopHistoryArray.emplace_back, List.length_set]
    exact h.slots
  live := by
    have hu : toSize ((os.length : Int) + 1) = os.length + 1 := by
      exact_mod_cast toSize_natCast (n := os.length + 1) (by omega)
    simp only [Board.place, PushPopHistoryArray.emplace_back, PushPopHistoryArray.live, h.used]
    rw [hu, take_succ_set _ _ _ (by rw [h.slots]; exact hlen), entriesFrom_append]
    have hl := h.live
    simp only [PushPopHistoryArray.live, h.used] at hl
    rw [hl, place_delta_exact, h.occ]
    simp [entriesFrom, stepMask]
  occ := by
    simp only [Board.place]
    rw [occFrom_append, h.occ]
    simp [occFrom, stepMask]
  ci := by
    simp only [Board.place]
    rw [ciFrom_append, place_delta_exact, h.ci]
    simp only [ciFrom, Nat.zero_add, stepMask]
    have hb := ciFrom_bounds tiles os 0 0
    have hi := imbalance_bounds (shl64 (tileAt tiles os.length).repr i)
    apply toInt32_of_bounds <;> omega

theorem Rep.pop {tiles : List Tile} {os : List Nat} {i : Nat} {b : Board}
    (h : Rep tiles (os ++ [i]) b) (hlen : os.length < 64) : Rep tiles os b.pop := by
  have hused : b.history.used = os.length + 1 := by simpa using h.used
  have hidx : b.piece_index = os.length + 1 := by simpa using h.idx
  have hne : b.history.empty = false := by simp [PushPopHistoryArray.empty, hused]
  have hl := h.live
  simp only [PushPopHistoryArray.live, hused, entriesFrom_append] at hl
  simp only [entriesFrom, Nat.zero_add] at hl
  obtain ⟨hback, htake⟩ := of_take_succ_eq _ _ _ _ default hl (entriesFrom_length _ _ _ _)
  have hb : b.history.back = ⟨occFrom tiles 0 0 os, i, imbalance (stepMask tiles os.length i)⟩ := by
    simp only [PushPopHistoryArray.back, PushPopHistoryArray.get, hused, Nat.add_sub_cancel]
    exact hback
  have hci : b.current_imbalance = ciFrom tiles 0 0 os + imbalance (stepMask tiles os.length i) := by
    rw [h.ci, ciFrom_append]; simp [ciFrom]
  refine ⟨?_, ?_, ?_, ?_, ?_, ?_, ?_, ?_, ?_, ?_⟩
  · simp [Board.pop, hne, h.pieces]
  · simp [Board.pop, hne, h.smin]
  · simp [Board.pop, hne, h.smax]
  · simp [Board.pop, hne, h.gcd]
  · simp only [Board.pop, hne, hidx]
    simp only [Bool.false_eq_true, if_false]
    have : ((os.length + 1 : Nat) : Int) - 1 = (os.length : Nat) := by push_cast; ring
    rw [this]
    exact toSize_natCast (by omega)
  · simp [Board.pop, hne, PushPopHistoryArray.pop_back, hused]
  · simp [Board.pop, hne, PushPopHistoryArray.pop_back, hused, h.slots]
  · simp [Board.pop, hne, PushPopHistoryArray.pop_back, hused, PushPopHistoryArray.live, htake]
  · simp [Board.pop, hne, hb]
  · simp only [Board.pop, hne, hb, hci]
    simp only [Bool.false_eq_true, if_false, add_sub_cancel_right]
    have hb2 := ciFrom_bounds tiles os 0 0
    apply toInt32_of_bounds <;> omega

end Tetromino

namespace Tetromino

theorem Rep.done_eq {tiles os b} (h : Rep tiles os b) : b.done = (os.length == tiles.length) := by
  simp [Board.done, h.idx, h.pieces]

theorem Rep.symmetryBroken_eq {tiles os b} (h : Rep tiles os b) :
    b.symmetryBroken = decide (os.length > 0) := by
  simp [Board.symmetryBroken, h.idx]

theorem Rep.placements_eq {tiles os b} (h : Rep tiles os b) :
    b.placements = not64 (occFrom tiles 0 0 os) := by
  simp [Board.placements, h.occ]

theorem Rep.getPiece_eq {tiles os b} (h : Rep tiles os b) (j : Nat) :
    b.getPiece j = tileAt tiles j := by
  simp [Board.getPiece, tileAt, h.pieces]

theorem Rep.getCurrentPiece_eq {tiles os b} (h : Rep tiles os b) :
    b.getCurrentPiece = tileAt tiles os.length := by
  simp [Board.getCurrentPiece, tileAt, h.pieces, h.idx]

theorem Rep.getLast_eq {tiles os b} (h : Rep tiles os b) : b.getLastPlacementPos = aLast os := by
  rcases List.eq_nil_or_concat os with rfl | ⟨os', i, rfl⟩
  · have := h.used
    simp [Board.getLastPlacementPos, PushPopHistoryArray.empty, aLast, this]
  · rw [List.concat_eq_append] at h ⊢
    have hused : b.history.used = os'.length + 1 := by simpa using h.used
    have hl := h.live
    simp only [PushPopHistoryArray.live, hused, entriesFrom_append] at hl
    simp only [entriesFrom, Nat.zero_add] at hl
    obtain ⟨hback, -⟩ := of_take_succ_eq _ _ _ _ default hl (entriesFrom_length _ _ _ _)
    simp only [Board.getLastPlacementPos, PushPopHistoryArray.empty, hused,
      PushPopHistoryArray.back, PushPopHistoryArray.get, Nat.add_sub_cancel, aLast, hback]
    simp

theorem Rep.parity_eq {tiles os b} (h : Rep tiles os b) :
    decide (|b.getCurrentImbalance| > b.getSuffixMaxImbalance) = aParityCut tiles os := by
  simp [aParityCut, Board.getCurrentImbalance, Board.getSuffixMaxImbalance, aBoard, h.ci, h.smax,
    h.idx]

theorem Rep.hsr_eq {tiles os b} (h : Rep tiles os b) :
    b.hasSolvableRegions = (aBoard tiles os).hasSolvableRegions := by
  simp [Board.hasSolvableRegions, aBoard, h.occ, h.smin, h.idx, h.gcd]

theorem Rep.open_eq {tiles os b} (h : Rep tiles os b) :
    b.openSquares = (aBoard tiles os).openSquares := by
  simp [Board.openSquares, aBoard, h.occ]

end Tetromino

namespace Tetromino

theorem found_append_cont {one : Bool} {T1 T2 : List (List Nat)} (h : one = false ∨ T1 = []) :
    found one (T1 ++ T2) = found one T1 ++ found one T2 := by
  rcases h with h | h
  · subst h; simp [found]
  · subst h; cases one <;> simp [found]

theorem found_append_stop {T1 T2 : List (List Nat)} (h : T1 ≠ []) :
    found true (T1 ++ T2) = found true T1 := by
  cases T1 with
  | nil => exact absurd rfl h
  | cons a l => simp [found]

theorem found_eq_nil {one : Bool} {T : List (List Nat)} : found one T = [] ↔ T = [] := by
  cases one <;> cases T <;> simp [found]

theorem isEmpty_append_eq {α : Type} (A B : List α) :
    (A ++ B).isEmpty = (A.isEmpty && B.isEmpty) := by
  cases A <;> cases B <;> rfl

theorem solveLoop_nil (rec : Run → Bool × Run) (one : Bool) (pl piece : Nat) (acc : Bool) (r : Run) :
    solveLoop rec one pl piece [] acc r = (acc, r) := rfl

theorem solveLoop_cons (rec : Run → Bool × Run) (one : Bool) (pl piece i : Nat) (rest : List Nat)
    (acc : Bool) (r : Run) :
    solveLoop rec one pl piece (i :: rest) acc r =
      if !r.board.symmetryBroken && outsideOctant i then
        solveLoop rec one pl piece rest acc r
      else if shl64 piece i &&& pl != shl64 piece i then
        solveLoop rec one pl piece rest acc r
      else
        if (rec { r with board := r.board.place piece i }).1 && one then
          (true, (rec { r with board := r.board.place piece i }).2)
        else
          solveLoop rec one pl piece rest
            (acc || (rec { r with board := r.board.place piece i }).1)
            { (rec { r with board := r.board.place piece i }).2 with
              board := (rec { r with board := r.board.place piece i }).2.board.pop,
              visited := (rec { r with board := r.board.place piece i }).2.visited
                ++ [(rec { r with board := r.board.place piece i }).2.board.pop] } := rfl

theorem solveLoop_spec (tiles : List Tile) (one silent : Bool) (os : List Nat)
    (rec : Run → Bool × Run) (sub : Nat → List (List Nat)) (hlen : os.length < 64)
    (hlt : os.length < tiles.length)
    (hrec : ∀ i r', i ∈ aCands tiles os → Rep tiles (os ++ [i]) r'.board →
      RunSpec tiles one silent (os ++ [i]) false (sub i) r' (rec r')) :
    ∀ (L : List Nat) (acc : Bool) (r : Run), Rep tiles os r.board →
      (∀ i ∈ L, i ∈ aOrigins tiles os) →
      RunSpec tiles one silent os acc ((L.filter (aCandOk tiles os)).flatMap sub) r
        (solveLoop rec one (not64 (occFrom tiles 0 0 os)) (tileAt tiles os.length).repr L acc r) := by
  intro L
  induction L with
  | nil =>
    intro acc r hr _
    rw [solveLoop_nil]
    refine ⟨by simp [found_eq_nil.2], by simp [found_eq_nil.2], ⟨[], by simp, ?_⟩,
      ⟨[], by simp, by simp⟩, ?_⟩
    · simp [found_eq_nil.2]
    · simpa using hr
  | cons i L ih =>
    intro acc r hr hL
    have hL' : ∀ j ∈ L, j ∈ aOrigins tiles os := fun j hj => hL j (List.mem_cons_of_mem _ hj)
    rw [solveLoop_cons, hr.symmetryBroken_eq]
    by_cases c1 : (!decide (os.length > 0) && outsideOctant i) = true
    · rw [if_pos c1]
      have hok : aCandOk tiles os i = false := by simp [aCandOk, c1]
      rw [List.filter_cons_of_neg (by simp [hok])]
      exact ih acc r hr hL'
    · rw [if_neg c1]
      by_cases c2 : (shl64 (tileAt tiles os.length).repr i &&& not64 (occFrom tiles 0 0 os)
          != shl64 (tileAt tiles os.length).repr i) = true
      · rw [if_pos c2]
        have hok : aCandOk tiles os i = false := by simp [aCandOk, c2]
        rw [List.filter_cons_of_neg (by simp [hok])]
        exact ih acc r hr hL'
      · rw [if_neg c2]
        have hok : aCandOk tiles os i = true := by
          simp only [aCandOk]
          simp only [Bool.not_eq_true] at c1 c2
          rw [c1, c2]; rfl
        have hcand : i ∈ aCands tiles os :=
          List.mem_filter.2 ⟨hL i (List.mem_cons_self _ _), hok⟩
        rw [List.filter_cons_of_pos hok, List.flatMap_cons]
        have hr1 : Rep tiles (os ++ [i])
            ({ r with board := r.board.place (tileAt tiles os.length).repr i } : Run).board :=
          hr.place hlen i
        have H1 := hrec i _ hcand hr1
        generalize rec { r with board := r.board.place (tileAt tiles os.length).repr i } = res1
          at H1 ⊢
        obtain ⟨new1, hout1, hfa1⟩ := H1.out
        obtain ⟨vis1, hvis1, hreach1⟩ := H1.visited
        have hreach1' : ∀ b ∈ vis1, ∃ os', Rep tiles os' b ∧ aReach tiles os os' := by
          intro b hb
          obtain ⟨os', h1, h2⟩ := hreach1 b hb
          exact ⟨os', h1, ReachBy.step hlt hcand h2⟩
        by_cases hstop : (res1.1 && one) = true
        · rw [if_pos hstop]
          simp only [Bool.and_eq_true] at hstop
          obtain ⟨hres, hone⟩ := hstop
          subst hone
          have hne : sub i ≠ [] := by
            intro hnil
            have := H1.result
            rw [hres, found_eq_nil.2 hnil] at this
            simp at this
          refine ⟨?_, ?_, ⟨new1, hout1, ?_⟩, ⟨vis1, hvis1, hreach1'⟩, ?_⟩
          · rw [found_append_stop hne]
            have := H1.result
            rw [hres] at this
            simp only [Bool.false_or] at this
            simp [← this]
          · rw [found_append_stop hne]; exact H1.count
          · rw [found_append_stop hne]; exact hfa1
          · have := H1.board
            simp only [if_true] at this ⊢
            rw [List.head?_append_of_ne_nil _ hne]
            cases hs : sub i with
            | nil => exact absurd hs hne
            | cons a l => rw [hs] at this; simpa using this
        · rw [if_neg hstop]
          have hcont : one = false ∨ sub i = [] := by
            cases hone : one with
            | false => exact Or.inl rfl
            | true =>
              right
              subst hone
              have hres : res1.1 = false := by simpa using hstop
              have := H1.result
              rw [hres] at this
              simp only [Bool.false_or] at this
              have h2 : (found true (sub i)).isEmpty = true := by
                cases h3 : (found true (sub i)).isEmpty
                · rw [h3] at this; exact absurd this (by decide)
                · rfl
              exact found_eq_nil.1 (List.isEmpty_iff.1 h2)
          have hb1 : Rep tiles (os ++ [i]) res1.2.board := by
            have := H1.board
            rcases hcont with h | h
            · subst h; simpa using this
            · rw [h] at this; simpa using this
          have hb3 : Rep tiles os res1.2.board.pop := hb1.pop hlen
          have IH := ih (acc || res1.1)
            { res1.2 with board := res1.2.board.pop,
                          visited := res1.2.visited ++ [res1.2.board.pop] } hb3 hL'
          obtain ⟨new2, hout2, hfa2⟩ := IH.out
          obtain ⟨vis2, hvis2, hreach2⟩ := IH.visited
          refine ⟨?_, ?_, ⟨new1 ++ new2, ?_, ?_⟩, ⟨vis1 ++ [res1.2.board.pop] ++ vis2, ?_, ?_⟩, ?_⟩
          · rw [IH.result, H1.result, found_append_cont hcont]
            rw [isEmpty_append_eq]
            cases (found one (sub i)).isEmpty <;> cases acc <;>
              cases (found one ((List.filter (aCandOk tiles os) L).flatMap sub)).isEmpty <;> rfl
          · rw [IH.count, found_append_cont hcont, List.length_append]
            simp only [H1.count]
            omega
          · rw [hout2]; simp only [hout1, List.append_assoc]
          · cases silent with
            | true =>
              simp only [if_true] at hfa1 hfa2 ⊢
              cases hfa1; cases hfa2; exact List.Forall₂.nil
            | false =>
              simp only [Bool.false_eq_true, if_false] at hfa1 hfa2 ⊢
              rw [found_append_cont hcont]
              exact List.rel_append hfa1 hfa2
          · rw [hvis2]; simp only [hvis1, List.append_assoc]
          · intro b hb
            simp only [List.mem_append, List.mem_singleton] at hb
            rcases hb with (hb | hb) | hb
            · exact hreach1' b hb
            · subst hb; exact ⟨os, hb3, ReachBy.refl os⟩
            · exact hreach2 b hb
          · have := IH.board
            rcases hcont with h | h
            · subst h; simpa using this
            · rw [h]; simpa using this

end Tetromino

namespace Tetromino

theorem found_singleton (one : Bool) (o : List Nat) : found one [o] = [o] := by
  cases one <;> simp [found]

theorem runSpec_done (tiles : List Tile) (one silent : Bool) (os : List Nat) (r : Run)
    (hr : Rep tiles os r.board) :
    RunSpec tiles one silent os false [os] r
      (solveDone silent { r with visited := r.visited ++ [r.board] }) := by
  refine ⟨by simp [solveDone, found_singleton], by simp [solveDone, found_singleton],
    ⟨if silent then [] else [r.board], ?_, ?_⟩, ⟨[r.board], rfl, ?_⟩, ?_⟩
  · cases silent <;> simp [solveDone]
  · cases silent
    · simpa [found_singleton] using hr
    · simp
  · intro b hb
    simp only [List.mem_singleton] at hb
    subst hb
    exact ⟨os, hr, ReachBy.refl os⟩
  · cases one <;> simpa [solveDone] using hr

theorem runSpec_cut (tiles : List Tile) (one silent : Bool) (os : List Nat) (r : Run)
    (hr : Rep tiles os r.board) :
    RunSpec tiles one silent os false [] r
      (false, { r with visited := r.visited ++ [r.board] }) := by
  refine ⟨by simp [found_eq_nil.2], by simp [found_eq_nil.2], ⟨[], by simp, ?_⟩,
    ⟨[r.board], rfl, ?_⟩, ?_⟩
  · simp [found_eq_nil.2]
  · intro b hb
    simp only [List.mem_singleton] at hb
    subst hb
    exact ⟨os, hr, ReachBy.refl os⟩
  · cases one <;> simpa using hr

theorem RunSpec.entry_run {tiles : List Tile} {one silent : Bool} {os : List Nat} {acc : Bool}
    {T : List (List Nat)} {r : Run} {res : Bool × Run} (hr : Rep tiles os r.board)
    (h : RunSpec tiles one silent os acc T { r with visited := r.visited ++ [r.board] } res) :
    RunSpec tiles one silent os acc T r res := by
  obtain ⟨vis, hvis, hreach⟩ := h.visited
  refine ⟨h.result, h.count, h.out, ⟨[r.board] ++ vis, ?_, ?_⟩, h.board⟩
  · rw [hvis]; simp
  · intro b hb
    simp only [List.mem_append, List.mem_singleton] at hb
    rcases hb with hb | hb
    · subst hb; exact ⟨os, hr, ReachBy.refl os⟩
    · exact hreach b hb

theorem solveGated_zero (gate : Nat → Bool) (one silent : Bool) (r : Run) :
    solveGated gate 0 one silent r =
      if r.board.done then solveDone silent { r with visited := r.visited ++ [r.board] }
      else (false, { r with visited := r.visited ++ [r.board] }) := rfl

theorem solveGated_succ (gate : Nat → Bool) (fuel : Nat) (one silent : Bool) (r : Run) :
    solveGated gate (fuel + 1) one silent r =
      if r.board.done then solveDone silent { r with visited := r.visited ++ [r.board] }
      else if |r.board.getCurrentImbalance| > r.board.getSuffixMaxImbalance then
        (false, { r with visited := r.visited ++ [r.board] })
      else if gate (r.board.openSquares
            + r.board.getCurrentPiece.p_height * r.board.getCurrentPiece.p_width)
          && !r.board.hasSolvableRegions then
        (false, { r with visited := r.visited ++ [r.board] })
      else
        solveLoop (solveGated gate fuel one silent) one r.board.placements
          r.board.getCurrentPiece.repr
          (solveOrigins
            (if decide (r.board.getPieceIndex > 0)
                && (r.board.getPiece r.board.getPieceIndex).beq
                    (r.board.getPiece (r.board.getPieceIndex - 1)) then
              r.board.getLastPlacementPos + 1
            else 0)
            (toUInt8 (7 - (r.board.getCurrentPiece.p_width : Int)))
            (toUInt8 (7 - (r.board.getCurrentPiece.p_height : Int))))
          false { r with visited := r.visited ++ [r.board] } := rfl

theorem solveGated_spec (tiles : List Tile) (gate : Nat → Bool) (one silent : Bool)
    (hlen : tiles.length ≤ 64) :
    ∀ (fuel : Nat) (os : List Nat) (r : Run), Rep tiles os r.board → os.length ≤ tiles.length →
      RunSpec tiles one silent os false (aTree tiles (aPruned tiles gate) fuel os) r
        (solveGated gate fuel one silent r) := by
  intro fuel
  induction fuel with
  | zero =>
    intro os r hr _
    rw [solveGated_zero, hr.done_eq]
    simp only [aTree]
    by_cases hd : (os.length == tiles.length) = true
    · rw [if_pos hd, if_pos hd]; exact runSpec_done tiles one silent os r hr
    · rw [if_neg hd, if_neg hd]; exact runSpec_cut tiles one silent os r hr
  | succ fuel ih =>
    intro os r hr hle
    rw [solveGated_succ, hr.done_eq]
    simp only [aTree]
    by_cases hd : (os.length == tiles.length) = true
    · rw [if_pos hd, if_pos hd]; exact runSpec_done tiles one silent os r hr
    · rw [if_neg hd, if_neg hd]
      have hlt : os.length < tiles.length := by
        simp only [beq_iff_eq] at hd
        omega
      by_cases hp : |r.board.getCurrentImbalance| > r.board.getSuffixMaxImbalance
      · rw [if_pos hp]
        have : aPruned tiles gate os = true := by
          have h1 := hr.parity_eq
          simp only [aPruned, ← h1, decide_eq_true hp, Bool.true_or]
        rw [if_pos this]
        exact runSpec_cut tiles one silent os r hr
      · rw [if_neg hp]
        have hpar : aParityCut tiles os = false := by
          rw [← hr.parity_eq]; exact decide_eq_false hp
        have hreg : (gate (r.board.openSquares
            + r.board.getCurrentPiece.p_height * r.board.getCurrentPiece.p_width)
            && !r.board.hasSolvableRegions) = aRegionCut tiles gate os := by
          simp only [aRegionCut, hr.open_eq, hr.hsr_eq, hr.getCurrentPiece_eq]
        rw [hreg]
        by_cases hg : aRegionCut tiles gate os = true
        · rw [if_pos hg]
          have : aPruned tiles gate os = true := by simp [aPruned, hg]
          rw [if_pos this]
          exact runSpec_cut tiles one silent os r hr
        · rw [if_neg hg]
          have : ¬ aPruned tiles gate os = true := by
            simp only [Bool.not_eq_true] at hg
            simp [aPruned, hg, hpar]
          rw [if_neg this]
          have horig : solveOrigins
              (if decide (r.board.getPieceIndex > 0)
                  && (r.board.getPiece r.board.getPieceIndex).beq
                      (r.board.getPiece (r.board.getPieceIndex - 1)) then
                r.board.getLastPlacementPos + 1
              else 0)
              (toUInt8 (7 - (r.board.getCurrentPiece.p_width : Int)))
              (toUInt8 (7 - (r.board.getCurrentPiece.p_height : Int))) = aOrigins tiles os := by
            simp only [aOrigins, aStart, Board.getPieceIndex, hr.idx, hr.getPiece_eq,
              hr.getLast_eq, hr.getCurrentPiece_eq]
          rw [horig, hr.placements_eq, hr.getCurrentPiece_eq]
          apply RunSpec.entry_run hr
          have := solveLoop_spec tiles one silent os (solveGated gate fuel one silent)
            (fun i => aTree tiles (aPruned tiles gate) fuel (os ++ [i])) (by omega) hlt
            (fun i r' _ hr' => ih (os ++ [i]) r' hr' (by simp; omega))
            (aOrigins tiles os) false { r with visited := r.visited ++ [r.board] } hr
            (fun i hi => hi)
          exact this

end Tetromino

namespace Tetromino

theorem generateLoop_nil (rec : GenRun → GenRun) (cpi pl piece : Nat) (t : Tile) (g : GenRun) :
    generateLoop rec cpi pl piece t [] g = g := rfl

theorem generateLoop_cons (rec : GenRun → GenRun) (cpi pl piece : Nat) (t : Tile) (i : Nat)
    (rest : List Nat) (g : GenRun) :
    generateLoop rec cpi pl piece t (i :: rest) g =
      if cpi == 0 && outsideOctant i then generateLoop rec cpi pl piece t rest g
      else if decide (i % 8 > toUInt8 (7 - (t.p_width : Int)))
          || decide (i / 8 > toUInt8 (7 - (t.p_height : Int))) then
        generateLoop rec cpi pl piece t rest g
      else if shl64 piece i &&& pl != shl64 piece i then generateLoop rec cpi pl piece t rest g
      else
        generateLoop rec cpi pl piece t rest
          { rec { g with board := g.board.place piece (toUInt8 i) } with
            board := (rec { g with board := g.board.place piece (toUInt8 i) }).board.pop,
            visited := (rec { g with board := g.board.place piece (toUInt8 i) }).visited
              ++ [(rec { g with board := g.board.place piece (toUInt8 i) }).board.pop] } := rfl

theorem generateLoop_spec (tiles : List Tile) (os : List Nat)
    (rec : GenRun → GenRun) (sub : Nat → List (List Nat)) (hlen : os.length < 64)
    (hlt : os.length < tiles.length)
    (hrec : ∀ i g', i ∈ gCands tiles os → Rep tiles (os ++ [i]) g'.board →
      GenSpec tiles (os ++ [i]) (sub i) g' (rec g')) :
    ∀ (L : List Nat) (g : GenRun), Rep tiles os g.board →
      (∀ i ∈ L, i ∈ List.range' (aStart tiles os) (64 - aStart tiles os)) →
      GenSpec tiles os ((L.filter (gCandOk tiles os)).flatMap sub) g
        (generateLoop rec os.length (not64 (occFrom tiles 0 0 os)) (tileAt tiles os.length).repr
          (tileAt tiles os.length) L g) := by
  intro L
  induction L with
  | nil =>
    intro g hg _
    rw [generateLoop_nil]
    exact ⟨⟨[], by simp, by simp⟩, ⟨[], by simp, by simp⟩, hg⟩
  | cons i L ih =>
    intro g hg hL
    have hL' : ∀ j ∈ L, j ∈ List.range' (aStart tiles os) (64 - aStart tiles os) :=
      fun j hj => hL j (List.mem_cons_of_mem _ hj)
    have hi64 : i < 64 := by
      have := hL i (List.mem_cons_self _ _)
      rw [List.mem_range'_1] at this
      omega
    rw [generateLoop_cons]
    by_cases c1 : (os.length == 0 && outsideOctant i) = true
    · rw [if_pos c1]
      have hok : gCandOk tiles os i = false := by simp [gCandOk, c1]
      rw [List.filter_cons_of_neg (by simp [hok])]
      exact ih g hg hL'
    · rw [if_neg c1]
      by_cases c2 : (decide (i % 8 > toUInt8 (7 - ((tileAt tiles os.length).p_width : Int)))
          || decide (i / 8 > toUInt8 (7 - ((tileAt tiles os.length).p_height : Int)))) = true
      · rw [if_pos c2]
        have hok : gCandOk tiles os i = false := by simp [gCandOk, c2]
        rw [List.filter_cons_of_neg (by simp [hok])]
        exact ih g hg hL'
      · rw [if_neg c2]
        by_cases c3 : (shl64 (tileAt tiles os.length).repr i &&& not64 (occFrom tiles 0 0 os)
            != shl64 (tileAt tiles os.length).repr i) = true
        · rw [if_pos c3]
          have hok : gCandOk tiles os i = false := by simp [gCandOk, c3]
          rw [List.filter_cons_of_neg (by simp [hok])]
          exact ih g hg hL'
        · rw [if_neg c3]
          have hok : gCandOk tiles os i = true := by
            simp only [gCandOk]
            simp only [Bool.not_eq_true] at c1 c2 c3
            rw [c1, c2, c3]; rfl
          have hcand : i ∈ gCands tiles os :=
            List.mem_filter.2 ⟨hL i (List.mem_cons_self _ _), hok⟩
          rw [List.filter_cons_of_pos hok, List.flatMap_cons]
          have hu : toUInt8 (i : Int) = i := toUInt8_natCast (by omega)
          rw [hu]
          have hg1 : Rep tiles (os ++ [i])
              ({ g with board := g.board.place (tileAt tiles os.length).repr i } : GenRun).board :=
            hg.place hlen i
          have H1 := hrec i _ hcand hg1
          generalize rec { g with board := g.board.place (tileAt tiles os.length).repr i } = res1
            at H1 ⊢
          obtain ⟨new1, hout1, hfa1⟩ := H1.tasks
          obtain ⟨vis1, hvis1, hreach1⟩ := H1.visited
          have hb3 : Rep tiles os res1.board.pop := H1.board.pop hlen
          have IH := ih { res1 with board := res1.board.pop,
                                    visited := res1.visited ++ [res1.board.pop] } hb3 hL'
          obtain ⟨new2, hout2, hfa2⟩ := IH.tasks
          obtain ⟨vis2, hvis2, hreach2⟩ := IH.visited
          refine ⟨⟨new1 ++ new2, ?_, List.rel_append hfa1 hfa2⟩,
            ⟨vis1 ++ [res1.board.pop] ++ vis2, ?_, ?_⟩, IH.board⟩
          · rw [hout2]; simp only [hout1, List.append_assoc]
          · rw [hvis2]; simp only [hvis1, List.append_assoc]
          · intro b hb
            simp only [List.mem_append, List.mem_singleton] at hb
            rcases hb with (hb | hb) | hb
            · obtain ⟨os', h1, h2⟩ := hreach1 b hb
              exact ⟨os', h1, ReachBy.step hlt hcand h2⟩
            · subst hb; exact ⟨os, hb3, ReachBy.refl os⟩
            · exact hreach2 b hb

theorem generateTasksAux_succ (fuel depth goal : Nat) (g : GenRun) :
    generateTasksAux (fuel + 1) depth goal g =
      if depth == goal || g.board.done then
        { g with visited := g.visited ++ [g.board], task_queue := g.task_queue ++ [g.board] }
      else
        generateLoop (generateTasksAux fuel (toUInt8 (depth + 1)) goal)
          g.board.getPieceIndex g.board.placements g.board.getCurrentPiece.repr
          g.board.getCurrentPiece
          (List.range'
            (if decide (g.board.getPieceIndex > 0)
                && (g.board.getPiece g.board.getPieceIndex).beq
                    (g.board.getPiece (g.board.getPieceIndex - 1)) then
              g.board.getLastPlacementPos + 1
            else 0)
            (64 - (if decide (g.board.getPieceIndex > 0)
                && (g.board.getPiece g.board.getPieceIndex).beq
                    (g.board.getPiece (g.board.getPieceIndex - 1)) then
              g.board.getLastPlacementPos + 1
            else 0)))
          { g with visited := g.visited ++ [g.board] } := rfl

theorem GenSpec.entry_gen {tiles : List Tile} {os : List Nat} {T : List (List Nat)} {g res : GenRun}
    (hg : Rep tiles os g.board)
    (h : GenSpec tiles os T { g with visited := g.visited ++ [g.board] } res) :
    GenSpec tiles os T g res := by
  obtain ⟨vis, hvis, hreach⟩ := h.visited
  refine ⟨h.tasks, ⟨[g.board] ++ vis, ?_, ?_⟩, h.board⟩
  · rw [hvis]; simp
  · intro b hb
    simp only [List.mem_append, List.mem_singleton] at hb
    rcases hb with hb | hb
    · subst hb; exact ⟨os, hg, ReachBy.refl os⟩
    · exact hreach b hb

theorem generateTasksAux_spec (tiles : List Tile) (goal : Nat) (hlen : tiles.length ≤ 64) :
    ∀ (fuel depth : Nat) (os : List Nat) (g : GenRun), Rep tiles os g.board →
      os.length ≤ tiles.length →
      GenSpec tiles os (aTasks tiles fuel depth goal os) g (generateTasksAux fuel depth goal g) := by
  intro fuel
  induction fuel with
  | zero =>
    intro depth os g hg _
    refine ⟨⟨[], by simp [generateTasksAux], by simp [aTasks]⟩, ⟨[g.board], rfl, ?_⟩, hg⟩
    intro b hb
    simp only [List.mem_singleton] at hb
    subst hb
    exact ⟨os, hg, ReachBy.refl os⟩
  | succ fuel ih =>
    intro depth os g hg hle
    rw [generateTasksAux_succ, hg.done_eq]
    simp only [aTasks]
    by_cases hd : (depth == goal || os.length == tiles.length) = true
    · rw [if_pos hd, if_pos hd]
      refine ⟨⟨[g.board], rfl, by simpa using hg⟩, ⟨[g.board], rfl, ?_⟩, hg⟩
      intro b hb
      simp only [List.mem_singleton] at hb
      subst hb
      exact ⟨os, hg, ReachBy.refl os⟩
    · rw [if_neg hd, if_neg hd]
      have hlt : os.length < tiles.length := by
        simp only [Bool.or_eq_true, beq_iff_eq, not_or] at hd
        omega
      have hstart : (if decide (g.board.getPieceIndex > 0)
                && (g.board.getPiece g.board.getPieceIndex).beq
                    (g.board.getPiece (g.board.getPieceIndex - 1)) then
              g.board.getLastPlacementPos + 1
            else 0) = aStart tiles os := by
        simp only [aStart, Board.getPieceIndex, hg.idx, hg.getPiece_eq, hg.getLast_eq]
      rw [hstart, hg.placements_eq, hg.getCurrentPiece_eq]
      simp only [Board.getPieceIndex, hg.idx]
      apply GenSpec.entry_gen hg
      exact generateLoop_spec tiles os (generateTasksAux fuel (toUInt8 (depth + 1)) goal)
        (fun i => aTasks tiles fuel (toUInt8 (depth + 1)) goal (os ++ [i])) (by omega) hlt
        (fun i g' _ hg' => ih (toUInt8 (depth + 1)) (os ++ [i]) g' hg' (by simp; omega))
        _ { g with visited := g.visited ++ [g.board] } hg (fun i hi => hi)

end Tetromino

namespace Tetromino

theorem toUInt8_div8 (n : Nat) (h : n ≤ 64) : toUInt8 ((n : Int) / 8) = n / 8 := by
  unfold toUInt8; omega

theorem toUInt8_mod8 (n : Nat) : toUInt8 ((n : Int) % 8) = n % 8 := by
  unfold toUInt8; omega

theorem toUInt8_row (y x : Nat) (hy : y ≤ 7) (hx : x ≤ 7) :
    toUInt8 ((y : Int) * 8 + (x : Int)) = y * 8 + x := by
  unfold toUInt8; omega

theorem solveOrigins_unfold (start mx my : Nat) (hs : start ≤ 64) :
    solveOrigins start mx my =
      (List.range' (start / 8) (my + 1 - start / 8)).flatMap fun (y : Nat) =>
        (List.range' (if y = start / 8 then start % 8 else 0)
          (mx + 1 - (if y = start / 8 then start % 8 else 0))).map
            fun (x : Nat) => toUInt8 ((y : Int) * 8 + (x : Int)) := by
  unfold solveOrigins
  simp only [toUInt8_div8 start hs, toUInt8_mod8]

theorem mem_solveOrigins {start mx my i : Nat} (hs : start ≤ 64) (hx : mx ≤ 7) (hy : my ≤ 7) :
    i ∈ solveOrigins start mx my ↔ start ≤ i ∧ i ≤ 63 ∧ i % 8 ≤ mx ∧ i / 8 ≤ my := by
  rw [solveOrigins_unfold start mx my hs]
  simp only [List.mem_flatMap, List.mem_map, List.mem_range'_1]
  constructor
  · rintro ⟨y, ⟨hy1, hy2⟩, x, ⟨hx1, hx2⟩, rfl⟩
    have hy3 : y ≤ 7 := by omega
    have hx3 : x ≤ 7 := by split_ifs at hx2 <;> omega
    rw [toUInt8_row y x hy3 hx3]
    split_ifs at hx1 hx2 <;> omega
  · rintro ⟨h1, h2, h3, h4⟩
    refine ⟨i / 8, ⟨by omega, by omega⟩, i % 8, ⟨?_, ?_⟩, ?_⟩
    · split_ifs <;> omega
    · split_ifs <;> omega
    · rw [toUInt8_row _ _ (by omega) (by omega)]; omega

/-- The nested loops of `solve` produce their origins in increasing order. -/
theorem solveOrigins_sorted (start mx my : Nat) (hs : start ≤ 64) (hx : mx ≤ 7) (hy : my ≤ 7) :
    (solveOrigins start mx my).Pairwise (· < ·) := by
  rw [solveOrigins_unfold start mx my hs, List.pairwise_flatMap]
  constructor
  · intro y hy1
    rw [List.mem_range'_1] at hy1
    rw [List.pairwise_map]
    refine List.Pairwise.imp_of_mem ?_ (List.pairwise_lt_range' _ _)
    intro a b ha hb hab
    rw [List.mem_range'_1] at ha hb
    rw [toUInt8_row y a (by omega) (by split_ifs at ha <;> omega),
      toUInt8_row y b (by omega) (by split_ifs at hb <;> omega)]
    omega
  · refine List.Pairwise.imp_of_mem ?_ (List.pairwise_lt_range' _ _)
    intro y1 y2 h1 h2 hlt a ha b hb
    rw [List.mem_range'_1] at h1 h2
    rw [List.mem_map] at ha hb
    obtain ⟨x1, hx1, rfl⟩ := ha
    obtain ⟨x2, hx2, rfl⟩ := hb
    rw [List.mem_range'_1] at hx1 hx2
    rw [toUInt8_row y1 x1 (by omega) (by split_ifs at hx1 <;> omega),
      toUInt8_row y2 x2 (by omega) (by split_ifs at hx2 <;> omega)]
    have : x1 ≤ 7 := by split_ifs at hx1 <;> omega
    omega

theorem solveOrigins_eq_filter {start mx my : Nat} (hs : start ≤ 64) (hx : mx ≤ 7) (hy : my ≤ 7) :
    solveOrigins start mx my =
      (List.range' start (64 - start)).filter (fun i => decide (i % 8 ≤ mx) && decide (i / 8 ≤ my)) := by
  apply List.eq_of_perm_of_sorted (r := (· < ·)) ?_ (solveOrigins_sorted start mx my hs hx hy)
    ((List.pairwise_lt_range' _ _).filter _)
  apply (List.perm_ext_iff_of_nodup (solveOrigins_sorted start mx my hs hx hy).nodup
    ((List.nodup_range' _ _).filter _)).2
  intro i
  rw [mem_solveOrigins hs hx hy, List.mem_filter, List.mem_range'_1]
  simp only [Bool.and_eq_true, decide_eq_true_eq]
  omega

theorem collision_iff {pp occ : Nat} (hpp : pp < 2 ^ 64) :
    (pp &&& not64 occ != pp) = false ↔ pp &&& occ = 0 := by
  simp only [bne_eq_false_iff_eq]
  constructor
  · intro h
    apply Nat.eq_of_testBit_eq
    intro k
    have hk := congrArg (fun m => m.testBit k) h
    simp only [Nat.testBit_and, testBit_not64] at hk
    rw [Nat.testBit_and, Nat.zero_testBit]
    cases h1 : pp.testBit k <;> cases h2 : occ.testBit k <;> simp_all
  · intro h
    apply Nat.eq_of_testBit_eq
    intro k
    have hk := congrArg (fun m => m.testBit k) h
    simp only [Nat.testBit_and, Nat.zero_testBit] at hk
    rw [Nat.testBit_and, testBit_not64]
    cases h1 : pp.testBit k
    · simp
    · have h64 : k < 64 := testBit_of_lt_two_pow64 hpp h1
      cases h2 : occ.testBit k <;> simp_all

theorem getLast?_getD_cons {α : Type} (a : α) (l : List α) (x y : α) :
    (a :: l).getLast?.getD x = (a :: l).getLast?.getD y := by
  have hne : (a :: l).getLast? ≠ none := by simp
  cases h : (a :: l).getLast? with
  | none => exact absurd h hne
  | some v => rfl

theorem validFrom_append (tiles : List Tile) (l1 l2 : List Nat) (j occ last : Nat) :
    validFrom tiles j occ last (l1 ++ l2) ↔
      validFrom tiles j occ last l1 ∧
        validFrom tiles (j + l1.length) (occFrom tiles j occ l1) (l1.getLast?.getD last) l2 := by
  induction l1 generalizing j occ last with
  | nil => simp [validFrom, occFrom]
  | cons a l ih =>
    rw [List.cons_append]
    simp only [validFrom, occFrom, List.length_cons]
    rw [ih, and_assoc]
    have e1 : j + 1 + l.length = j + (l.length + 1) := by omega
    have e2 : (a :: l).getLast?.getD last = l.getLast?.getD a := by
      cases l with
      | nil => rfl
      | cons b l' => rw [List.getLast?_cons_cons]; exact getLast?_getD_cons b l' last a
    rw [e1, e2]

theorem Valid.snoc_iff (tiles : List Tile) (os : List Nat) (i : Nat) :
    Valid tiles (os ++ [i]) ↔
      Valid tiles os ∧ stepOK tiles os.length (occFrom tiles 0 0 os) (aLast os) i := by
  unfold Valid
  rw [validFrom_append]
  simp [validFrom, aLast]

theorem validFrom_pos_le (tiles : List Tile) (l : List Nat) (j occ last : Nat)
    (h : validFrom tiles j occ last l) : ∀ p ∈ l, p ≤ 63 := by
  induction l generalizing j occ last with
  | nil => simp
  | cons a l ih =>
    intro p hp
    simp only [validFrom] at h
    rcases List.mem_cons.1 hp with rfl | hp'
    · exact h.1.2.1
    · exact ih _ _ _ h.2 p hp'

theorem validFrom_length (tiles : List Tile) (l : List Nat) (j occ last : Nat)
    (h : validFrom tiles j occ last l) : l = [] ∨ j + l.length ≤ tiles.length := by
  induction l generalizing j occ last with
  | nil => simp
  | cons a l ih =>
    right
    simp only [validFrom] at h
    rcases ih _ _ _ h.2 with h1 | h1
    · subst h1
      have := h.1.1
      simp; omega
    · simp only [List.length_cons]; omega

theorem Valid.length_le {tiles : List Tile} {os : List Nat} (h : Valid tiles os) :
    os.length ≤ tiles.length := by
  rcases validFrom_length tiles os 0 0 0 h with h1 | h1
  · subst h1; simp
  · omega

theorem Valid.aLast_le {tiles : List Tile} {os : List Nat} (h : Valid tiles os) : aLast os ≤ 63 := by
  unfold aLast
  cases hl : os.getLast? with
  | none => simp
  | some p =>
    simp only [Option.getD_some]
    exact validFrom_pos_le tiles os 0 0 0 h p (List.mem_of_getLast?_eq_some hl)

theorem aStart_le {tiles : List Tile} {os : List Nat} (h : Valid tiles os) : aStart tiles os ≤ 64 := by
  unfold aStart
  have := h.aLast_le
  split <;> omega

theorem toUInt8_seven_sub {w : Nat} (h : w ≤ 7) : toUInt8 (7 - (w : Int)) = 7 - w := by
  unfold toUInt8; omega

theorem mem_aCands_iff {tiles : List Tile} {os : List Nat} (hv : Valid tiles os)
    (hlt : os.length < tiles.length) (ht : TileOK (tileAt tiles os.length)) (i : Nat) :
    i ∈ aCands tiles os ↔ stepOK tiles os.length (occFrom tiles 0 0 os) (aLast os) i := by
  obtain ⟨hw, hh, -⟩ := ht
  unfold aCands aOrigins
  rw [List.mem_filter, mem_solveOrigins (aStart_le hv) (by rw [toUInt8_seven_sub hw]; omega)
    (by rw [toUInt8_seven_sub hh]; omega), toUInt8_seven_sub hw, toUInt8_seven_sub hh]
  unfold aCandOk stepOK
  simp only [Bool.and_eq_true, Bool.not_eq_true', Bool.and_eq_false_imp, Bool.not_eq_eq_eq_not,
    Bool.not_true, decide_eq_false_iff_not, Bool.not_false]
  rw [collision_iff (shl64_lt _ _)]
  simp only [stepMask]
  unfold aStart
  constructor
  · rintro ⟨⟨h1, h2, h3, h4⟩, h5, h6⟩
    refine ⟨hlt, h2, by omega, by omega, h6, ?_, ?_⟩
    · intro h0
      exact h5 (by omega)
    · intro hpos hbeq
      rw [if_pos (by simp [hpos, hbeq])] at h1
      omega
  · rintro ⟨-, h2, h3, h4, h5, h6, h7⟩
    refine ⟨⟨?_, h2, by omega, by omega⟩, ?_, h5⟩
    · split
      · rename_i hc
        simp only [Bool.and_eq_true, decide_eq_true_eq] at hc
        have := h7 hc.1 hc.2
        omega
      · omega
    · intro h0
      exact h6 (by omega)

end Tetromino

namespace Tetromino

theorem gCands_eq_aCands {tiles : List Tile} {os : List Nat} (hv : Valid tiles os)
    (ht : TileOK (tileAt tiles os.length)) : gCands tiles os = aCands tiles os := by
  obtain ⟨hw, hh, -⟩ := ht
  unfold gCands aCands aOrigins
  rw [solveOrigins_eq_filter (aStart_le hv) (by rw [toUInt8_seven_sub hw]; omega)
    (by rw [toUInt8_seven_sub hh]; omega), List.filter_filter]
  apply List.filter_congr
  intro i _
  unfold gCandOk aCandOk
  rw [toUInt8_seven_sub hw, toUInt8_seven_sub hh]
  have e1 : (os.length == 0) = !decide (os.length > 0) := by
    cases h : os.length <;> simp
  have e2 : decide (i % 8 > 7 - (tileAt tiles os.length).p_width)
      = !decide (i % 8 ≤ 7 - (tileAt tiles os.length).p_width) := by
    by_cases h : i % 8 ≤ 7 - (tileAt tiles os.length).p_width <;> simp [h] <;> omega
  have e3 : decide (i / 8 > 7 - (tileAt tiles os.length).p_height)
      = !decide (i / 8 ≤ 7 - (tileAt tiles os.length).p_height) := by
    by_cases h : i / 8 ≤ 7 - (tileAt tiles os.length).p_height <;> simp [h] <;> omega
  rw [e1, e2, e3]
  cases decide (os.length > 0) <;> cases outsideOctant i <;>
    cases decide (i % 8 ≤ 7 - (tileAt tiles os.length).p_width) <;>
    cases decide (i / 8 ≤ 7 - (tileAt tiles os.length).p_height) <;>
    cases (shl64 (tileAt tiles os.length).repr i &&& not64 (occFrom tiles 0 0 os)
        != shl64 (tileAt tiles os.length).repr i) <;> rfl

theorem cells_shl64_of_fit {p pos : Nat} (h : ∀ k ∈ cells p, k + pos < 64) :
    cells (shl64 p pos) = (cells p).image (· + pos) := by
  ext k
  simp only [mem_cells, testBit_shl64, Finset.mem_image, Bool.and_eq_true, decide_eq_true_eq]
  constructor
  · rintro ⟨hk, ⟨-, hle⟩, hb⟩
    exact ⟨k - pos, ⟨by omega, hb⟩, by omega⟩
  · rintro ⟨u, ⟨hu, hb⟩, rfl⟩
    have := h u (mem_cells.2 ⟨hu, hb⟩)
    refine ⟨this, ⟨this, by omega⟩, ?_⟩
    simpa using hb

theorem fit_of_extents {t : Tile} (ht : TileOK t) {pos : Nat}
    (hx : pos % 8 + t.p_width ≤ 7) (hy : pos / 8 + t.p_height ≤ 7) :
    ∀ k ∈ cells t.repr, k + pos < 64 ∧ (k + pos) % 8 = k % 8 + pos % 8 ∧
      (k + pos) / 8 = k / 8 + pos / 8 := by
  intro k hk
  obtain ⟨hk64, hb⟩ := mem_cells.1 hk
  obtain ⟨h1, h2⟩ := ht.2.2 k hk64 hb
  omega

theorem BIT_COUNT_shl64_of_fit {p pos : Nat} (h : ∀ k ∈ cells p, k + pos < 64) :
    BIT_COUNT (shl64 p pos) = BIT_COUNT p := by
  rw [BIT_COUNT_eq_card, BIT_COUNT_eq_card, cells_shl64_of_fit h]
  exact Finset.card_image_of_injective _ (fun a b hab => by simpa using hab)

theorem BIT_COUNT_and_or_of_disjoint {a b : Nat} (m : Nat) (h : Disjoint (cells a) (cells b)) :
    BIT_COUNT ((a ||| b) &&& m) = BIT_COUNT (a &&& m) + BIT_COUNT (b &&& m) := by
  rw [BIT_COUNT_eq_card, BIT_COUNT_eq_card, BIT_COUNT_eq_card, cells_and, cells_or, cells_and,
    cells_and, Finset.union_inter_distrib_right]
  exact Finset.card_union_of_disjoint
    (Finset.disjoint_of_subset_left Finset.inter_subset_left
      (Finset.disjoint_of_subset_right Finset.inter_subset_left h))

theorem imbalance_or_of_disjoint {a b : Nat} (h : Disjoint (cells a) (cells b)) :
    imbalance (a ||| b) = imbalance a + imbalance b := by
  unfold imbalance
  rw [BIT_COUNT_and_or_of_disjoint _ h, BIT_COUNT_and_or_of_disjoint _ h]
  push_cast
  ring

theorem BIT_COUNT_zero : BIT_COUNT 0 = 0 := by decide

theorem imbalance_zero : imbalance 0 = 0 := by decide

theorem GoodTiles.of_map (masks : List Nat) : GoodTiles (masks.map Tile.ctor) := by
  intro t ht
  obtain ⟨m, -, rfl⟩ := List.mem_map.1 ht
  exact Tile.ctor_extents m

theorem GoodTiles.tileAt {tiles : List Tile} (h : GoodTiles tiles) {j : Nat}
    (hj : j < tiles.length) : TileOK (tileAt tiles j) := by
  unfold Tetromino.tileAt
  rw [List.getD_eq_getElem _ _ hj]
  exact h _ (List.getElem_mem hj)

theorem stepOK.disjoint {tiles : List Tile} {j occ last pos : Nat}
    (h : stepOK tiles j occ last pos) : Disjoint (cells occ) (cells (stepMask tiles j pos)) := by
  have := (and_eq_zero_iff_disjoint (b := occ) (shl64_lt _ _)).1 h.2.2.2.2.1
  exact this.symm

theorem stepOK.fit {tiles : List Tile} (hg : GoodTiles tiles) {j occ last pos : Nat}
    (h : stepOK tiles j occ last pos) :
    ∀ k ∈ cells (tileAt tiles j).repr, k + pos < 64 ∧ (k + pos) % 8 = k % 8 + pos % 8 ∧
      (k + pos) / 8 = k / 8 + pos / 8 :=
  fit_of_extents (hg.tileAt h.1) h.2.2.1 h.2.2.2.1

theorem stepOK.count {tiles : List Tile} (hg : GoodTiles tiles) {j occ last pos : Nat}
    (h : stepOK tiles j occ last pos) :
    BIT_COUNT (stepMask tiles j pos) = BIT_COUNT (tileAt tiles j).repr :=
  BIT_COUNT_shl64_of_fit (fun k hk => (h.fit hg k hk).1)

theorem validFrom_count {tiles : List Tile} (hg : GoodTiles tiles) (l : List Nat)
    (j occ last : Nat) (h : validFrom tiles j occ last l) :
    BIT_COUNT (occFrom tiles j occ l) =
      BIT_COUNT occ + (((tiles.drop j).take l.length).map (fun t => BIT_COUNT t.repr)).sum := by
  induction l generalizing j occ last with
  | nil => simp [occFrom]
  | cons a l ih =>
    simp only [validFrom] at h
    obtain ⟨hs, hrest⟩ := h
    simp only [occFrom, List.length_cons]
    rw [ih _ _ _ hrest, BIT_COUNT_or_of_disjoint hs.disjoint, hs.count hg]
    have hj := hs.1
    rw [List.drop_eq_getElem_cons hj, List.take_succ_cons, List.map_cons, List.sum_cons]
    have : tileAt tiles j = tiles[j] := by
      unfold tileAt; exact List.getD_eq_getElem _ _ hj
    rw [this]
    omega

theorem validFrom_imbalance {tiles : List Tile} (l : List Nat)
    (j occ last : Nat) (h : validFrom tiles j occ last l) :
    ciFrom tiles j (imbalance occ) l = imbalance (occFrom tiles j occ l) := by
  induction l generalizing j occ last with
  | nil => simp [occFrom, ciFrom]
  | cons a l ih =>
    simp only [validFrom] at h
    obtain ⟨hs, hrest⟩ := h
    simp only [occFrom, ciFrom]
    rw [← imbalance_or_of_disjoint hs.disjoint]
    exact ih _ _ _ hrest

theorem ciFrom_eq_sum (tiles : List Tile) (l : List Nat) (j occ : Nat) (ci : Int) :
    ciFrom tiles j ci l = ci + ((entriesFrom tiles j occ l).map (fun e => e.balance_delta)).sum := by
  induction l generalizing j occ ci with
  | nil => simp [ciFrom, entriesFrom]
  | cons a l ih =>
    simp only [ciFrom, entriesFrom, List.map_cons, List.sum_cons]
    rw [ih (j + 1) (occ ||| stepMask tiles j a)]
    ring

theorem ReachBy.valid {tiles : List Tile} (hg : GoodTiles tiles) {os os' : List Nat}
    (h : ReachBy (aCands tiles) tiles.length os os') (hv : Valid tiles os) : Valid tiles os' := by
  induction h with
  | refl os => exact hv
  | step hlt hc _ ih =>
    apply ih
    rw [Valid.snoc_iff]
    exact ⟨hv, (mem_aCands_iff hv hlt (hg.tileAt hlt) _).1 hc⟩

theorem ReachBy.valid_gen {tiles : List Tile} (hg : GoodTiles tiles) {os os' : List Nat}
    (h : ReachBy (gCands tiles) tiles.length os os') (hv : Valid tiles os) : Valid tiles os' := by
  induction h with
  | refl os => exact hv
  | step hlt hc _ ih =>
    apply ih
    rw [Valid.snoc_iff]
    rw [gCands_eq_aCands hv (hg.tileAt hlt)] at hc
    exact ⟨hv, (mem_aCands_iff hv hlt (hg.tileAt hlt) _).1 hc⟩

theorem Valid.nil (tiles : List Tile) : Valid tiles [] := trivial

end Tetromino

namespace Tetromino

theorem entriesFrom_getElem? (tiles : List Tile) (l : List Nat) (j0 occ d : Nat)
    (hd : d < l.length) :
    (entriesFrom tiles j0 occ l)[d]? =
      some ⟨occFrom tiles j0 occ (l.take d), l[d], imbalance (stepMask tiles (j0 + d) l[d])⟩ := by
  induction l generalizing j0 occ d with
  | nil => simp at hd
  | cons a l ih =>
    cases d with
    | zero => simp [entriesFrom, occFrom]
    | succ d =>
      simp only [List.length_cons, Nat.add_lt_add_iff_right] at hd
      simp only [entriesFrom, List.getElem?_cons_succ, List.take_succ_cons, occFrom,
        List.getElem_cons_succ]
      rw [ih (j0 + 1) _ d hd]
      have : j0 + 1 + d = j0 + (d + 1) := by omega
      rw [this]

theorem Rep.get_eq {tiles : List Tile} {os : List Nat} {b : Board} (h : Rep tiles os b)
    {j : Nat} (hj : j < os.length) :
    b.history.get j =
      ⟨occFrom tiles 0 0 (os.take j), os[j], imbalance (stepMask tiles j os[j])⟩ := by
  have hl := h.live
  simp only [PushPopHistoryArray.live, h.used] at hl
  have h1 : (b.history.history.take os.length)[j]? = b.history.history[j]? := by
    rw [List.getElem?_take]; simp [hj]
  rw [hl, entriesFrom_getElem? tiles os 0 0 j hj] at h1
  simp only [PushPopHistoryArray.get, List.getD_eq_getElem?_getD, ← h1, Option.getD_some,
    Nat.zero_add]

theorem Rep.pos_eq {tiles : List Tile} {os : List Nat} {b : Board} (h : Rep tiles os b)
    {j : Nat} (hj : j < os.length) : (b.history.get j).pos = os[j] := by
  rw [h.get_eq hj]

theorem Valid.take {tiles : List Tile} {os : List Nat} (h : Valid tiles os) (n : Nat) :
    Valid tiles (os.take n) := by
  have := (validFrom_append tiles (os.take n) (os.drop n) 0 0 0).1
    (by rw [List.take_append_drop]; exact h)
  exact this.1

theorem take_succ_eq_snoc {α : Type} (l : List α) (j : Nat) (hj : j < l.length) :
    l.take (j + 1) = l.take j ++ [l[j]] := by
  rw [List.take_succ]; simp [hj]

theorem Valid.stepOK_at {tiles : List Tile} {os : List Nat} (h : Valid tiles os) {j : Nat}
    (hj : j < os.length) :
    stepOK tiles j (occFrom tiles 0 0 (os.take j)) (aLast (os.take j)) os[j] := by
  have h1 := h.take (j + 1)
  rw [take_succ_eq_snoc os j hj, Valid.snoc_iff] at h1
  have hlen : (os.take j).length = j := by rw [List.length_take]; omega
  rw [hlen] at h1
  exact h1.2

theorem cells_occFrom_base (tiles : List Tile) (l : List Nat) (j0 occ : Nat) :
    cells occ ⊆ cells (occFrom tiles j0 occ l) := by
  induction l generalizing j0 occ with
  | nil => simp [occFrom]
  | cons a l ih =>
    simp only [occFrom]
    refine Finset.Subset.trans ?_ (ih (j0 + 1) _)
    rw [cells_or]
    exact Finset.subset_union_left

theorem cells_occFrom_step (tiles : List Tile) (l : List Nat) (j0 occ d : Nat)
    (hd : d < l.length) :
    cells (stepMask tiles (j0 + d) l[d]) ⊆ cells (occFrom tiles j0 occ l) := by
  induction l generalizing j0 occ d with
  | nil => simp at hd
  | cons a l ih =>
    cases d with
    | zero =>
      simp only [occFrom, List.getElem_cons_zero, Nat.add_zero]
      refine Finset.Subset.trans ?_ (cells_occFrom_base tiles l (j0 + 1) _)
      rw [cells_or]
      exact Finset.subset_union_right
    | succ d =>
      simp only [List.length_cons, Nat.add_lt_add_iff_right] at hd
      simp only [occFrom, List.getElem_cons_succ]
      have := ih (j0 + 1) (occ ||| stepMask tiles j0 a) d hd
      have e : j0 + 1 + d = j0 + (d + 1) := by omega
      rw [e] at this
      exact this

theorem mem_cells_occFrom (tiles : List Tile) (l : List Nat) (j0 occ c : Nat)
    (hc : c ∈ cells (occFrom tiles j0 occ l)) :
    c ∈ cells occ ∨ ∃ d, ∃ hd : d < l.length, c ∈ cells (stepMask tiles (j0 + d) l[d]) := by
  induction l generalizing j0 occ with
  | nil => left; simpa [occFrom] using hc
  | cons a l ih =>
    simp only [occFrom] at hc
    rcases ih (j0 + 1) _ hc with h | ⟨d, hd, h⟩
    · rw [cells_or, Finset.mem_union] at h
      rcases h with h | h
      · exact Or.inl h
      · exact Or.inr ⟨0, by simp, by simpa using h⟩
    · refine Or.inr ⟨d + 1, by simpa using hd, ?_⟩
      have e : j0 + 1 + d = j0 + (d + 1) := by omega
      rw [e] at h
      simpa using h

theorem occFrom_lt (tiles : List Tile) (l : List Nat) (j0 occ : Nat) (h : occ < 2 ^ 64) :
    occFrom tiles j0 occ l < 2 ^ 64 := by
  induction l generalizing j0 occ with
  | nil => simpa [occFrom] using h
  | cons a l ih =>
    simp only [occFrom]
    exact ih _ _ (Nat.or_lt_two_pow h (shl64_lt _ _))

theorem stepMask_lt (tiles : List Tile) (j pos : Nat) : stepMask tiles j pos < 2 ^ 64 :=
  shl64_lt _ _

theorem Valid.disjoint_at {tiles : List Tile} {os : List Nat} (h : Valid tiles os) {j j2 : Nat}
    (hj : j < os.length) (hj2 : j2 < os.length) (hjj : j2 < j) :
    stepMask tiles j2 os[j2] &&& stepMask tiles j os[j] = 0 := by
  have hs := (h.stepOK_at hj).disjoint
  have hlen : (os.take j).length = j := by rw [List.length_take]; omega
  have hj3 : j2 < (os.take j).length := by omega
  have hsub := cells_occFrom_step tiles (os.take j) 0 0 j2 hj3
  have e : (os.take j)[j2] = os[j2] := by simp
  rw [e, Nat.zero_add] at hsub
  rw [and_eq_zero_iff_disjoint (stepMask_lt _ _ _)]
  exact Finset.disjoint_of_subset_left hsub hs

theorem aLast_take {os : List Nat} {j : Nat} (hj : j < os.length) (h0 : 0 < j)
    (hj1 : j - 1 < os.length) : aLast (os.take j) = os[j - 1] := by
  unfold aLast
  have e : os.take j = os.take (j - 1) ++ [os[j - 1]] := by
    have := take_succ_eq_snoc os (j - 1) hj1
    rwa [Nat.sub_add_cancel h0] at this
  rw [e, List.getLast?_concat]
  rfl

theorem BIT_COUNT_eq_64 {m : Nat} (hm : m < 2 ^ 64) (h : BIT_COUNT m = 64) : m = 2 ^ 64 - 1 := by
  rw [BIT_COUNT_eq_card] at h
  have hfull : cells m = Finset.range 64 :=
    Finset.eq_of_subset_of_card_le (cells_subset_range m) (by simp [h])
  apply Nat.eq_of_testBit_eq
  intro k
  rw [Nat.testBit_two_pow_sub_one]
  by_cases hk : k < 64
  · have : k ∈ cells m := by rw [hfull]; simpa using hk
    simp [hk, (mem_cells.1 this).2]
  · simp only [hk, decide_False]
    by_contra hb
    exact hk (testBit_of_lt_two_pow64 hm (by simpa using hb))

end Tetromino

namespace Tetromino

theorem forall₂_mem_right {α β : Type} {R : α → β → Prop} {l1 : List α} {l2 : List β}
    (h : List.Forall₂ R l1 l2) {y : β} (hy : y ∈ l2) : ∃ x ∈ l1, R x y := by
  induction h with
  | nil => simp at hy
  | cons hr _ ih =>
    rcases List.mem_cons.1 hy with rfl | hy'
    · exact ⟨_, List.mem_cons_self _ _, hr⟩
    · obtain ⟨x, hx, hxy⟩ := ih hy'
      exact ⟨x, List.mem_cons_of_mem _ hx, hxy⟩

theorem aTasks_reach (tiles : List Tile) (goal : Nat) :
    ∀ (fuel depth : Nat) (os o : List Nat), os.length ≤ tiles.length →
      o ∈ aTasks tiles fuel depth goal os → ReachBy (gCands tiles) tiles.length os o := by
  intro fuel
  induction fuel with
  | zero => intro depth os o _ h; simp [aTasks] at h
  | succ fuel ih =>
    intro depth os o hle h
    simp only [aTasks] at h
    by_cases hd : (depth == goal || os.length == tiles.length) = true
    · rw [if_pos hd] at h
      simp only [List.mem_singleton] at h
      subst h
      exact ReachBy.refl _
    · rw [if_neg hd] at h
      have hlt : os.length < tiles.length := by
        simp only [Bool.or_eq_true, beq_iff_eq, not_or] at hd
        omega
      obtain ⟨i, hi, ho⟩ := List.mem_flatMap.1 h
      exact ReachBy.step hlt hi (ih _ _ _ (by simp; omega) ho)

theorem solve_visited_rep {tiles : List Tile} (hlen : tiles.length ≤ 64) (hg : GoodTiles tiles)
    {os : List Nat} {t : Board} (ht : Rep tiles os t) (hv : Valid tiles os)
    (c : Nat) (one silent : Bool) {b : Board} (hb : b ∈ (solve t c one silent).2.visited) :
    ∃ os', Rep tiles os' b ∧ Valid tiles os' := by
  have hspec := solveGated_spec tiles codedGate one silent hlen
    (t.pieces.length - t.piece_index) os ⟨t, c, [], []⟩ ht hv.length_le
  obtain ⟨vis, hvis, hreach⟩ := hspec.visited
  unfold solve at hb
  rw [hvis] at hb
  simp only [List.nil_append] at hb
  obtain ⟨os', h1, h2⟩ := hreach b hb
  exact ⟨os', h1, ReachBy.valid hg h2 hv⟩

theorem reachable_rep {tiles : List Tile} (hlen : tiles.length ≤ 64) (hg : GoodTiles tiles)
    {b : Board} (hb : Reachable tiles b) : ∃ os, Rep tiles os b ∧ Valid tiles os := by
  rcases hb with ⟨one, silent, hb⟩ | ⟨goal, hb⟩ | ⟨goal, t, one, silent, ht, hb⟩
  · exact solve_visited_rep hlen hg (Rep.ctor tiles) (Valid.nil tiles) 0 one silent hb
  · have hspec := generateTasksAux_spec tiles goal hlen 256 0 [] ⟨Board.ctor tiles, [], []⟩
      (Rep.ctor tiles) (by simp)
    obtain ⟨vis, hvis, hreach⟩ := hspec.visited
    unfold generateTasks at hb
    rw [hvis] at hb
    simp only [List.nil_append] at hb
    obtain ⟨os', h1, h2⟩ := hreach b hb
    exact ⟨os', h1, ReachBy.valid_gen hg h2 (Valid.nil tiles)⟩
  · have hspec := generateTasksAux_spec tiles goal hlen 256 0 [] ⟨Board.ctor tiles, [], []⟩
      (Rep.ctor tiles) (by simp)
    obtain ⟨new, hnew, hfa⟩ := hspec.tasks
    unfold generateTasks at ht
    rw [hnew] at ht
    simp only [List.nil_append] at ht
    obtain ⟨o, ho, hrep⟩ := forall₂_mem_right hfa ht
    have hval : Valid tiles o :=
      ReachBy.valid_gen hg (aTasks_reach tiles goal 256 0 [] o (by simp) ho) (Valid.nil tiles)
    exact solve_visited_rep hlen hg hrep hval 0 one silent hb

theorem Rep.placedMask_eq {tiles : List Tile} {os : List Nat} {b : Board} (h : Rep tiles os b)
    {j : Nat} (hj : j < os.length) : placedMask b j = stepMask tiles j os[j] := by
  simp only [placedMask, h.getPiece_eq, h.pos_eq hj, stepMask]

end Tetromino

namespace Tetromino

theorem BIT_COUNT_pos_of_ne_zero {m : Nat} (h0 : m ≠ 0) (hm : m < 2 ^ 64) : 0 < BIT_COUNT m := by
  rw [BIT_COUNT_eq_card]
  apply Finset.card_pos.2
  rw [Finset.nonempty_iff_ne_empty]
  intro h
  exact h0 ((cells_eq_empty_iff hm).1 h)

theorem length_le_sum_of_pos (l : List Nat) (h : ∀ x ∈ l, 0 < x) : l.length ≤ l.sum := by
  induction l with
  | nil => simp
  | cons a l ih =>
    have ha := h a (List.mem_cons_self _ _)
    have := ih (fun x hx => h x (List.mem_cons_of_mem _ hx))
    simp only [List.length_cons, List.sum_cons]
    omega

theorem masks_length_le {masks : List Nat} (hnz : ∀ m ∈ masks, m ≠ 0 ∧ m < 2 ^ 64)
    (hsum : (masks.map BIT_COUNT).sum ≤ 64) : (masks.map Tile.ctor).length ≤ 64 := by
  have := length_le_sum_of_pos (masks.map BIT_COUNT) (by
    intro x hx
    obtain ⟨m, hm, rfl⟩ := List.mem_map.1 hx
    exact BIT_COUNT_pos_of_ne_zero (hnz m hm).1 (hnz m hm).2)
  simp only [List.length_map] at this ⊢
  omega

theorem map_ctor_count (masks : List Nat) :
    (masks.map Tile.ctor).map (fun t => BIT_COUNT t.repr) = masks.map BIT_COUNT := by
  simp [List.map_map, Function.comp_def, Tile.ctor_repr]

/-- Facts about a board that represents a valid search state. -/
theorem Rep.count_eq {tiles : List Tile} (hg : GoodTiles tiles) {os : List Nat} {b : Board}
    (h : Rep tiles os b) (hv : Valid tiles os) :
    BIT_COUNT b.occ = ((b.pieces.take b.piece_index).map (fun t => BIT_COUNT t.repr)).sum := by
  rw [h.occ, h.pieces, h.idx, validFrom_count hg os 0 0 0 hv, BIT_COUNT_zero]
  simp

theorem Rep.done_full {tiles : List Tile} (hg : GoodTiles tiles) {os : List Nat} {b : Board}
    (h : Rep tiles os b) (hv : Valid tiles os) (hd : b.done = true)
    (hsum : (tiles.map (fun t => BIT_COUNT t.repr)).sum = 64) : b.occ = 2 ^ 64 - 1 := by
  apply BIT_COUNT_eq_64
  · rw [h.occ]; exact occFrom_lt _ _ _ _ (by decide)
  · rw [h.count_eq hg hv]
    have : b.piece_index = b.pieces.length := by simpa [Board.done] using hd
    rw [this, List.take_length, h.pieces, hsum]

end Tetromino

namespace Tetromino

theorem Valid.cand {tiles : List Tile} (hg : GoodTiles tiles) {os : List Nat}
    (hv : Valid tiles os) (hlt : os.length < tiles.length) {i : Nat}
    (hi : i ∈ aCands tiles os) : Valid tiles (os ++ [i]) := by
  rw [Valid.snoc_iff]
  exact ⟨hv, (mem_aCands_iff hv hlt (hg.tileAt hlt) _).1 hi⟩

theorem aTree_complete {tiles : List Tile} (hg : GoodTiles tiles) (prune : List Nat → Bool) :
    ∀ (fuel : Nat) (os o : List Nat), Valid tiles os → os.length ≤ tiles.length →
      o ∈ aTree tiles prune fuel os →
      (∃ rest, o = os ++ rest) ∧ Valid tiles o ∧ o.length = tiles.length := by
  intro fuel
  induction fuel with
  | zero =>
    intro os o hv _ h
    simp only [aTree] at h
    split at h
    · rename_i hd
      simp only [List.mem_singleton] at h
      subst h
      exact ⟨⟨[], by simp⟩, hv, by simpa using hd⟩
    · simp at h
  | succ fuel ih =>
    intro os o hv hle h
    simp only [aTree] at h
    split at h
    · rename_i hd
      simp only [List.mem_singleton] at h
      subst h
      exact ⟨⟨[], by simp⟩, hv, by simpa using hd⟩
    · rename_i hd
      have hlt : os.length < tiles.length := by
        simp only [beq_iff_eq] at hd
        omega
      split at h
      · simp at h
      · obtain ⟨i, hi, ho⟩ := List.mem_flatMap.1 h
        obtain ⟨⟨rest, hr⟩, h2, h3⟩ :=
          ih (os ++ [i]) o (hv.cand hg hlt hi) (by simp; omega) ho
        exact ⟨⟨i :: rest, by rw [hr]; simp⟩, h2, h3⟩

end Tetromino

namespace Tetromino

theorem aTree_eq_nil_of_not_compl {tiles : List Tile} (hg : GoodTiles tiles)
    (prune : List Nat → Bool) (fuel : Nat) {os : List Nat} (hv : Valid tiles os)
    (hle : os.length ≤ tiles.length) (hc : ¬ Compl tiles os) : aTree tiles prune fuel os = [] := by
  apply List.eq_nil_iff_forall_not_mem.2
  intro o ho
  obtain ⟨⟨rest, hr⟩, h2, h3⟩ := aTree_complete hg prune fuel os o hv hle ho
  exact hc ⟨rest, by rw [← hr]; exact h2, by rw [← hr]; exact h3⟩

theorem aTree_prune_indep {tiles : List Tile} (hg : GoodTiles tiles) {p1 p2 : List Nat → Bool}
    (h1 : SoundPrune tiles p1) (h2 : SoundPrune tiles p2) :
    ∀ (fuel : Nat) (os : List Nat), Valid tiles os → os.length ≤ tiles.length →
      aTree tiles p1 fuel os = aTree tiles p2 fuel os := by
  intro fuel
  induction fuel with
  | zero => intro os _ _; simp [aTree]
  | succ fuel ih =>
    intro os hv hle
    by_cases hd : (os.length == tiles.length) = true
    · simp [aTree, hd]
    · have hlt : os.length < tiles.length := by
        simp only [beq_iff_eq] at hd
        omega
      by_cases hc : Compl tiles os
      · have hp1 : ¬ p1 os = true := fun h => h1 os hv h hc
        have hp2 : ¬ p2 os = true := fun h => h2 os hv h hc
        simp only [aTree, hd, hp1, hp2, if_false, Bool.false_eq_true]
        apply List.flatMap_congr
        intro i hi
        exact ih (os ++ [i]) (hv.cand hg hlt hi) (by simp; omega)
      · rw [aTree_eq_nil_of_not_compl hg p1 _ hv hle hc,
          aTree_eq_nil_of_not_compl hg p2 _ hv hle hc]

theorem soundPrune_never (tiles : List Tile) : SoundPrune tiles (fun _ => false) := by
  intro os _ h
  exact absurd h (by simp)

theorem mem_aTree_of_valid {tiles : List Tile} (hg : GoodTiles tiles) :
    ∀ (rest os : List Nat), Valid tiles (os ++ rest) → (os ++ rest).length = tiles.length →
      os ++ rest ∈ aTree tiles (fun _ => false) rest.length os := by
  intro rest
  induction rest with
  | nil =>
    intro os _ hl
    simp only [List.append_nil] at hl ⊢
    simp [aTree, hl]
  | cons i rest ih =>
    intro os hv hl
    have hlt : os.length < tiles.length := by
      simp only [List.length_append, List.length_cons] at hl
      omega
    have hne : ¬ (os.length == tiles.length) = true := by
      simp only [beq_iff_eq]; omega
    have e : os ++ i :: rest = (os ++ [i]) ++ rest := by simp
    have hv1 : Valid tiles (os ++ [i]) := by
      have := (validFrom_append tiles (os ++ [i]) rest 0 0 0).1 (by rw [← e]; exact hv)
      exact this.1
    have hvos : Valid tiles os := ((Valid.snoc_iff tiles os i).1 hv1).1
    have hi : i ∈ aCands tiles os :=
      (mem_aCands_iff hvos hlt (hg.tileAt hlt) i).2 ((Valid.snoc_iff tiles os i).1 hv1).2
    simp only [List.length_cons, aTree, hne, if_false, Bool.false_eq_true]
    apply List.mem_flatMap.2
    refine ⟨i, hi, ?_⟩
    rw [e]
    exact ih (os ++ [i]) (by rw [← e]; exact hv) (by rw [← e]; exact hl)

end Tetromino

namespace Tetromino

theorem sufImb_succ (tiles : List Tile) (n : Nat) (hn : n < tiles.length) :
    sufImb tiles n = |imbalance (tiles.getD n default).repr| + sufImb tiles (n + 1) := by
  unfold sufImb
  rw [List.drop_eq_getElem_cons hn, List.map_cons, List.sum_cons, List.getD_eq_getElem _ _ hn]

theorem sufImb_nonneg (tiles : List Tile) (n : Nat) : 0 ≤ sufImb tiles n := by
  unfold sufImb
  apply List.sum_nonneg
  intro x hx
  obtain ⟨t, -, rfl⟩ := List.mem_map.1 hx
  exact abs_nonneg _

theorem sufImb_le_zero (tiles : List Tile) (n : Nat) : sufImb tiles n ≤ sufImb tiles 0 := by
  induction n with
  | zero => exact le_refl _
  | succ n ih =>
    by_cases hn : n < tiles.length
    · rw [sufImb_succ tiles n hn] at ih
      have := abs_nonneg (imbalance (tiles.getD n default).repr)
      omega
    · have : sufImb tiles (n + 1) = 0 := by
        unfold sufImb
        rw [List.drop_eq_nil_of_le (by omega)]
        rfl
      rw [this]
      exact sufImb_nonneg tiles 0

theorem toInt8_BIT_COUNT (m : Nat) : toInt8 (BIT_COUNT m : Int) = BIT_COUNT m := by
  have := BIT_COUNT_le m
  exact toInt8_of_bounds (by omega) (by omega)

theorem getD_set_int (l : List Int) (n i : Nat) (a : Int) (hn : n < l.length) :
    (l.set n a).getD i 0 = if i = n then a else l.getD i 0 := by
  simp only [List.getD_eq_getElem?_getD, List.getElem?_set]
  by_cases h : n = i
  · subst h; simp [hn]
  · have h2 : ¬ i = n := fun e => h e.symm
    simp [h, h2]

theorem getD_set_nat (l : List Nat) (n i : Nat) (a : Nat) (hn : n < l.length) :
    (l.set n a).getD i 0 = if i = n then a else l.getD i 0 := by
  simp only [List.getD_eq_getElem?_getD, List.getElem?_set]
  by_cases h : n = i
  · subst h; simp [hn]
  · have h2 : ¬ i = n := fun e => h e.symm
    simp [h, h2]

theorem suffixImbLoop_spec (pieces : List Tile) (hsum : sufImb pieces 0 ≤ 127) :
    ∀ (n : Nat) (rm : Int) (tbl : List Int), n ≤ pieces.length → rm = sufImb pieces n →
      pieces.length < tbl.length →
      (∀ i, n ≤ i → i < pieces.length → tbl.getD i 0 = sufImb pieces i) →
      (suffixImbLoop pieces n rm tbl).length = tbl.length ∧
      (∀ i, i < pieces.length → (suffixImbLoop pieces n rm tbl).getD i 0 = sufImb pieces i) ∧
      (∀ i, pieces.length ≤ i → (suffixImbLoop pieces n rm tbl).getD i 0 = tbl.getD i 0) := by
  intro n
  induction n with
  | zero =>
    intro rm tbl _ _ _ htbl
    have e : suffixImbLoop pieces 0 rm tbl = tbl := rfl
    rw [e]
    exact ⟨rfl, fun i hi => htbl i (Nat.zero_le _) hi, fun i _ => rfl⟩
  | succ n ih =>
    intro rm tbl hn hrm hlen htbl
    simp only [suffixImbLoop]
    rw [toInt8_BIT_COUNT, toInt8_BIT_COUNT]
    have hstep := sufImb_succ pieces n (by omega)
    have hle := sufImb_le_zero pieces n
    have hnn := sufImb_nonneg pieces (n + 1)
    have hnn2 := sufImb_nonneg pieces n
    have hrm1 : toInt8 (rm + |(BIT_COUNT ((pieces.getD n default).repr &&& CHECKERBOARD_MASK) : Int)
        - (BIT_COUNT ((pieces.getD n default).repr &&& not64 CHECKERBOARD_MASK) : Int)|)
        = sufImb pieces n := by
      have e : |(BIT_COUNT ((pieces.getD n default).repr &&& CHECKERBOARD_MASK) : Int)
        - (BIT_COUNT ((pieces.getD n default).repr &&& not64 CHECKERBOARD_MASK) : Int)|
          = |imbalance (pieces.getD n default).repr| := rfl
      rw [e, hrm, toInt8_of_bounds (by omega) (by omega)]
      omega
    rw [hrm1]
    have := ih (sufImb pieces n) (tbl.set n (sufImb pieces n)) (by omega) rfl
      (by rw [List.length_set]; exact hlen) (by
        intro i hi1 hi2
        rw [getD_set_int _ _ _ _ (by omega)]
        by_cases hin : i = n
        · simp [hin]
        · simp only [hin, if_false]
          exact htbl i (by omega) hi2)
    obtain ⟨h1, h2, h3⟩ := this
    refine ⟨by rw [h1, List.length_set], h2, ?_⟩
    intro i hi
    rw [h3 i hi, getD_set_int _ _ _ _ (by omega)]
    have : ¬ i = n := by omega
    simp [this]

theorem int8LoopCount_eq {n : Nat} (h1 : 1 ≤ n) (h2 : n ≤ 128) : int8LoopCount n = n := by
  unfold int8LoopCount toInt8
  omega

theorem sufImb_length (tiles : List Tile) : sufImb tiles tiles.length = 0 := by
  unfold sufImb
  rw [List.drop_length]
  rfl

/-- The table `suffix_max_imbalance` built by `Board::Board`, when the `int8_t`
accumulator stays in range. -/
theorem suffix_max_imbalance_spec (tiles : List Tile) (hlen : tiles.length ≤ 128)
    (hsum : sufImb tiles 0 ≤ 127) (i : Nat) (hi : i ≤ tiles.length) :
    (Board.ctor tiles).suffix_max_imbalance.getD i 0 = sufImb tiles i := by
  simp only [Board.ctor]
  by_cases he : tiles = []
  · subst he
    simp only [List.length_nil, Nat.le_zero_eq] at hi
    subst hi
    rfl
  · have hpos : 1 ≤ tiles.length := by
      cases tiles with
      | nil => exact absurd rfl he
      | cons a l => simp
    have hemp : tiles.isEmpty = false := by
      cases tiles with
      | nil => exact absurd rfl he
      | cons a l => rfl
    rw [hemp]
    simp only [Bool.false_eq_true, if_false]
    rw [int8LoopCount_eq hpos hlen]
    obtain ⟨h1, h2, h3⟩ := suffixImbLoop_spec tiles hsum tiles.length 0
      (List.replicate (tiles.length + 1) 0) (le_refl _) (sufImb_length tiles).symm
      (by simp) (by intro i h1 h2; omega)
    rw [getD_set_int _ _ _ _ (by rw [h1]; simp)]
    by_cases hil : i = tiles.length
    · subst hil; simp [sufImb_length]
    · simp only [hil, if_false]
      exact h2 i (by omega)

end Tetromino

namespace Tetromino

theorem sufMin_succ (tiles : List Tile) (n : Nat) (hn : n < tiles.length) :
    sufMin tiles n = min (BIT_COUNT (tiles.getD n default).repr) (sufMin tiles (n + 1)) := by
  unfold sufMin
  rw [List.drop_eq_getElem_cons hn, List.map_cons, List.foldr_cons, List.getD_eq_getElem _ _ hn]

theorem sufMin_le_64 (tiles : List Tile) (n : Nat) : sufMin tiles n ≤ 64 := by
  unfold sufMin
  induction tiles.drop n with
  | nil => simp
  | cons a l ih => simp only [List.map_cons, List.foldr_cons]; omega

theorem sufMin_length (tiles : List Tile) : sufMin tiles tiles.length = 64 := by
  unfold sufMin
  rw [List.drop_length]
  rfl

theorem sufMin_le (tiles : List Tile) (i j : Nat) (hij : i ≤ j) (hj : j < tiles.length) :
    sufMin tiles i ≤ BIT_COUNT (tiles.getD j default).repr := by
  induction j, hij using Nat.le_induction with
  | base => rw [sufMin_succ tiles i hj]; exact Nat.min_le_left _ _
  | succ k hk ih =>
    have h1 := ih (by omega)
    have h2 : sufMin tiles i ≤ sufMin tiles (k + 1) := by
      clear h1 ih
      induction k, hk using Nat.le_induction with
      | base => rw [sufMin_succ tiles i (by omega)]; exact Nat.min_le_right _ _
      | succ m _ ih2 =>
        have := ih2 (by omega)
        rw [sufMin_succ tiles (m + 1) (by omega)] at this
        omega
    rw [sufMin_succ tiles (k + 1) hj] at h2
    omega

theorem suffixMinLoop_spec (pieces : List Tile) :
    ∀ (n : Nat) (mn : Int) (tbl : List Nat), n ≤ pieces.length → mn = sufMin pieces n →
      pieces.length < tbl.length →
      (∀ i, n ≤ i → i < pieces.length → tbl.getD i 0 = sufMin pieces i) →
      (suffixMinLoop pieces n mn tbl).length = tbl.length ∧
      (∀ i, i < pieces.length → (suffixMinLoop pieces n mn tbl).getD i 0 = sufMin pieces i) ∧
      (∀ i, pieces.length ≤ i → (suffixMinLoop pieces n mn tbl).getD i 0 = tbl.getD i 0) := by
  intro n
  induction n with
  | zero =>
    intro mn tbl _ _ _ htbl
    have e : suffixMinLoop pieces 0 mn tbl = tbl := rfl
    rw [e]
    exact ⟨rfl, fun i hi => htbl i (Nat.zero_le _) hi, fun i _ => rfl⟩
  | succ n ih =>
    intro mn tbl hn hmn hlen htbl
    simp only [suffixMinLoop]
    rw [toInt8_BIT_COUNT]
    have hstep := sufMin_succ pieces n (by omega)
    have h64 := sufMin_le_64 pieces (n + 1)
    have hmn1 : (if (BIT_COUNT (pieces.getD n default).repr : Int) < mn
        then (BIT_COUNT (pieces.getD n default).repr : Int) else mn) = (sufMin pieces n : Int) := by
      rw [hmn, hstep]
      split <;> omega
    rw [hmn1, toUInt8_natCast (by have := sufMin_le_64 pieces n; omega)]
    have := ih (sufMin pieces n) (tbl.set n (sufMin pieces n)) (by omega) rfl
      (by rw [List.length_set]; exact hlen) (by
        intro i hi1 hi2
        rw [getD_set_nat _ _ _ _ (by omega)]
        by_cases hin : i = n
        · simp [hin]
        · simp only [hin, if_false]
          exact htbl i (by omega) hi2)
    obtain ⟨h1, h2, h3⟩ := this
    refine ⟨by rw [h1, List.length_set], h2, ?_⟩
    intro i hi
    rw [h3 i hi, getD_set_nat _ _ _ _ (by omega)]
    have : ¬ i = n := by omega
    simp [this]

/-- The table `suffix_min_size` built by `Board::Board`, below the sentinel slot. -/
theorem suffix_min_size_spec (tiles : List Tile) (hlen : tiles.length ≤ 128) (i : Nat)
    (hi : i < tiles.length) : (Board.ctor tiles).suffix_min_size.getD i 0 = sufMin tiles i := by
  simp only [Board.ctor]
  have hpos : 1 ≤ tiles.length := by omega
  have hemp : tiles.isEmpty = false := by
    cases tiles with
    | nil => simp at hi
    | cons a l => rfl
  rw [hemp]
  simp only [Bool.false_eq_true, if_false]
  rw [int8LoopCount_eq hpos hlen]
  obtain ⟨-, h2, -⟩ := suffixMinLoop_spec tiles tiles.length 64
    (List.replicate (tiles.length + 1) 0) (le_refl _) (by rw [sufMin_length]; rfl)
    (by simp) (by intro i h1 h2; omega)
  exact h2 i hi

theorem toUInt8_BIT_COUNT (m : Nat) : toUInt8 (BIT_COUNT m : Int) = BIT_COUNT m :=
  toUInt8_natCast (by have := BIT_COUNT_le m; omega)

theorem foldl_gcd_dvd (l : List Tile) (g0 : Nat) :
    (l.foldl (fun g u => Nat.gcd g (toUInt8 (BIT_COUNT u.repr))) g0) ∣ g0 ∧
    ∀ u ∈ l, (l.foldl (fun g u => Nat.gcd g (toUInt8 (BIT_COUNT u.repr))) g0)
      ∣ BIT_COUNT u.repr := by
  induction l generalizing g0 with
  | nil => simp
  | cons a l ih =>
    simp only [List.foldl_cons]
    obtain ⟨h1, h2⟩ := ih (Nat.gcd g0 (toUInt8 (BIT_COUNT a.repr)))
    refine ⟨Nat.dvd_trans h1 (Nat.gcd_dvd_left _ _), ?_⟩
    intro u hu
    rcases List.mem_cons.1 hu with rfl | hu'
    · exact Nat.dvd_trans h1 (Nat.dvd_trans (Nat.gcd_dvd_right g0 _)
        (dvd_of_eq (toUInt8_BIT_COUNT u.repr)))
    · exact h2 u hu'

/-- The value `tile_gcd` divides the popcount of every tile. -/
theorem ListGCD_dvd (tiles : List Tile) (t : Tile) (ht : t ∈ tiles) :
    ListGCD tiles ∣ BIT_COUNT t.repr := by
  cases tiles with
  | nil => simp at ht
  | cons a l =>
    simp only [ListGCD]
    obtain ⟨h1, h2⟩ := foldl_gcd_dvd l (toUInt8 (BIT_COUNT a.repr))
    rcases List.mem_cons.1 ht with rfl | ht'
    · exact Nat.dvd_trans h1 (dvd_of_eq (toUInt8_BIT_COUNT t.repr))
    · exact h2 t ht'

end Tetromino

namespace Tetromino

theorem cb_bit_fin : ∀ k : Fin 64,
    CHECKERBOARD_MASK.testBit k.1 = decide ((k.1 / 8 + k.1 % 8) % 2 = 0) := by decide

theorem cb_bit {k : Nat} (hk : k < 64) :
    CHECKERBOARD_MASK.testBit k = decide ((k / 8 + k % 8) % 2 = 0) := cb_bit_fin ⟨k, hk⟩

theorem BIT_COUNT_shl_and {p pos M M2 : Nat} (hfit : ∀ k ∈ cells p, k + pos < 64)
    (h : ∀ u ∈ cells p, M.testBit (u + pos) = M2.testBit u) :
    BIT_COUNT (shl64 p pos &&& M) = BIT_COUNT (p &&& M2) := by
  rw [BIT_COUNT_eq_card, BIT_COUNT_eq_card]
  have : cells (shl64 p pos &&& M) = (cells (p &&& M2)).image (· + pos) := by
    rw [cells_and, cells_and, cells_shl64_of_fit hfit]
    ext k
    simp only [Finset.mem_inter, Finset.mem_image]
    constructor
    · rintro ⟨⟨u, hu, rfl⟩, hk⟩
      refine ⟨u, ⟨hu, ?_⟩, rfl⟩
      have hM := (mem_cells.1 hk).2
      rw [h u hu] at hM
      exact mem_cells.2 ⟨(mem_cells.1 hu).1, hM⟩
    · rintro ⟨u, ⟨hu, hu2⟩, rfl⟩
      refine ⟨⟨u, hu, rfl⟩, ?_⟩
      have hM := (mem_cells.1 hu2).2
      rw [← h u hu] at hM
      exact mem_cells.2 ⟨hfit u hu, hM⟩
  rw [this]
  exact Finset.card_image_of_injective _ (fun a b hab => by simpa using hab)

theorem abs_imbalance_shl {t : Tile} (ht : TileOK t) {pos : Nat}
    (hx : pos % 8 + t.p_width ≤ 7) (hy : pos / 8 + t.p_height ≤ 7) :
    |imbalance (shl64 t.repr pos)| = |imbalance t.repr| := by
  have hfit := fit_of_extents ht hx hy
  have hfit1 : ∀ k ∈ cells t.repr, k + pos < 64 := fun k hk => (hfit k hk).1
  by_cases hpar : (pos / 8 + pos % 8) % 2 = 0
  · have h1 : ∀ u ∈ cells t.repr,
        CHECKERBOARD_MASK.testBit (u + pos) = CHECKERBOARD_MASK.testBit u := by
      intro u hu
      obtain ⟨h64, h8, hd⟩ := hfit u hu
      rw [cb_bit h64, cb_bit (mem_cells.1 hu).1, h8, hd]
      congr 1
      apply propext
      omega
    have h2 : ∀ u ∈ cells t.repr,
        (not64 CHECKERBOARD_MASK).testBit (u + pos) = (not64 CHECKERBOARD_MASK).testBit u := by
      intro u hu
      rw [testBit_not64, testBit_not64, h1 u hu]
      simp [(hfit u hu).1, (mem_cells.1 hu).1]
    unfold imbalance
    rw [BIT_COUNT_shl_and hfit1 h1, BIT_COUNT_shl_and hfit1 h2]
  · have h1 : ∀ u ∈ cells t.repr,
        CHECKERBOARD_MASK.testBit (u + pos) = (not64 CHECKERBOARD_MASK).testBit u := by
      intro u hu
      obtain ⟨h64, h8, hd⟩ := hfit u hu
      rw [testBit_not64, cb_bit h64, cb_bit (mem_cells.1 hu).1, h8, hd]
      simp only [(mem_cells.1 hu).1, decide_True, Bool.true_and]
      by_cases hu2 : (u / 8 + u % 8) % 2 = 0
      · simp only [hu2, decide_True, Bool.not_true, decide_eq_false_iff_not]; omega
      · simp only [hu2, decide_False, Bool.not_false, decide_eq_true_eq]; omega
    have h2 : ∀ u ∈ cells t.repr,
        (not64 CHECKERBOARD_MASK).testBit (u + pos) = CHECKERBOARD_MASK.testBit u := by
      intro u hu
      rw [testBit_not64, h1 u hu, testBit_not64]
      simp [(hfit u hu).1, (mem_cells.1 hu).1]
    unfold imbalance
    rw [BIT_COUNT_shl_and hfit1 h1, BIT_COUNT_shl_and hfit1 h2]
    rw [← abs_neg]
    congr 1
    ring

theorem BIT_COUNT_split (m : Nat) :
    BIT_COUNT (m &&& CHECKERBOARD_MASK) + BIT_COUNT (m &&& not64 CHECKERBOARD_MASK)
      = BIT_COUNT m := by
  rw [BIT_COUNT_eq_card, BIT_COUNT_eq_card, BIT_COUNT_eq_card, cells_and, cells_and, cells_not64,
    ← Finset.card_union_of_disjoint]
  · congr 1
    ext k
    simp only [Finset.mem_union, Finset.mem_inter, Finset.mem_sdiff, Finset.mem_range]
    constructor
    · rintro (h | h) <;> exact h.1
    · intro h
      by_cases hc : k ∈ cells CHECKERBOARD_MASK
      · exact Or.inl ⟨h, hc⟩
      · exact Or.inr ⟨h, (mem_cells.1 h).1, hc⟩
  · rw [Finset.disjoint_left]
    intro k h1 h2
    simp only [Finset.mem_inter, Finset.mem_sdiff] at h1 h2
    exact h2.2.2 h1.2

theorem abs_imbalance_le (m : Nat) : |imbalance m| ≤ BIT_COUNT m := by
  have := BIT_COUNT_split m
  unfold imbalance
  rw [abs_le]
  omega

end Tetromino

namespace Tetromino

theorem stepOK.abs_imbalance {tiles : List Tile} (hg : GoodTiles tiles) {j occ last pos : Nat}
    (h : stepOK tiles j occ last pos) :
    |imbalance (stepMask tiles j pos)| = |imbalance (tileAt tiles j).repr| :=
  abs_imbalance_shl (hg.tileAt h.1) h.2.2.1 h.2.2.2.1

theorem validFrom_ci_bound {tiles : List Tile} (hg : GoodTiles tiles) (l : List Nat)
    (j occ last : Nat) (ci : Int) (h : validFrom tiles j occ last l) :
    |ciFrom tiles j ci l - ci| ≤
      (((tiles.drop j).take l.length).map (fun t => |imbalance t.repr|)).sum := by
  induction l generalizing j occ last ci with
  | nil => simp [ciFrom]
  | cons a l ih =>
    simp only [validFrom] at h
    obtain ⟨hs, hrest⟩ := h
    have hj := hs.1
    simp only [ciFrom, List.length_cons]
    rw [List.drop_eq_getElem_cons hj, List.take_succ_cons, List.map_cons, List.sum_cons]
    have h1 := ih (j + 1) _ _ (ci + imbalance (stepMask tiles j a)) hrest
    have h2 := hs.abs_imbalance hg
    have e : tileAt tiles j = tiles[j] := by
      unfold tileAt; exact List.getD_eq_getElem _ _ hj
    rw [e] at h2
    rw [← h2]
    have h3 := abs_add ((ciFrom tiles (j + 1) (ci + imbalance (stepMask tiles j a)) l
      - (ci + imbalance (stepMask tiles j a)))) (imbalance (stepMask tiles j a))
    have e2 : ciFrom tiles (j + 1) (ci + imbalance (stepMask tiles j a)) l - ci =
        (ciFrom tiles (j + 1) (ci + imbalance (stepMask tiles j a)) l
          - (ci + imbalance (stepMask tiles j a))) + imbalance (stepMask tiles j a) := by ring
    rw [e2]
    omega

theorem sufImb_zero_le (tiles : List Tile) :
    sufImb tiles 0 ≤ ((tiles.map (fun t => BIT_COUNT t.repr)).sum : Nat) := by
  unfold sufImb
  rw [List.drop_zero]
  induction tiles with
  | nil => simp
  | cons a l ih =>
    simp only [List.map_cons, List.sum_cons]
    have := abs_imbalance_le a.repr
    rw [Nat.cast_add]
    omega

theorem imbalance_full : imbalance (2 ^ 64 - 1) = 0 := by decide

/-- A complete state of tiles whose popcounts sum to 64 fills the board. -/
theorem Valid.full {tiles : List Tile} (hg : GoodTiles tiles) {o : List Nat}
    (hv : Valid tiles o) (hl : o.length = tiles.length)
    (hsum : (tiles.map (fun t => BIT_COUNT t.repr)).sum = 64) :
    occFrom tiles 0 0 o = 2 ^ 64 - 1 := by
  apply BIT_COUNT_eq_64 (occFrom_lt _ _ _ _ (by decide))
  rw [validFrom_count hg o 0 0 0 hv, BIT_COUNT_zero, hl]
  simpa using hsum

/-- The parity test cuts no state that extends to a complete one. -/
theorem parity_sound {tiles : List Tile} (hg : GoodTiles tiles) (hlen : tiles.length ≤ 64)
    (hsum : (tiles.map (fun t => BIT_COUNT t.repr)).sum = 64) {os : List Nat}
    (hc : Compl tiles os) : aParityCut tiles os = false := by
  obtain ⟨rest, hv, hl⟩ := hc
  have hfull := hv.full hg hl hsum
  have hci : ciFrom tiles 0 0 (os ++ rest) = 0 := by
    have := validFrom_imbalance (os ++ rest) 0 0 0 hv
    rw [imbalance_zero] at this
    rw [this, hfull, imbalance_full]
  rw [ciFrom_append] at hci
  have hv2 := ((validFrom_append tiles os rest 0 0 0).1 hv).2
  have hb := validFrom_ci_bound hg rest (0 + os.length) _ _ (ciFrom tiles 0 0 os) hv2
  rw [hci] at hb
  have hrl : rest.length = tiles.length - os.length := by
    simp only [List.length_append] at hl; omega
  have e : ((tiles.drop (0 + os.length)).take rest.length) = tiles.drop os.length := by
    rw [Nat.zero_add, hrl]
    apply List.take_of_length_le
    rw [List.length_drop]
  rw [e] at hb
  have hle : os.length ≤ tiles.length := by
    simp only [List.length_append] at hl; omega
  have hs0 : sufImb tiles 0 ≤ 127 := by
    have := sufImb_zero_le tiles
    rw [hsum] at this
    omega
  have htab := suffix_max_imbalance_spec tiles (by omega) hs0 os.length hle
  unfold aParityCut
  simp only [Board.getCurrentImbalance, Board.getSuffixMaxImbalance, aBoard, htab,
    decide_eq_false_iff_not, not_lt]
  unfold sufImb
  have : |0 - ciFrom tiles 0 0 os| = |ciFrom tiles 0 0 os| := by
    rw [zero_sub, abs_neg]
  rw [this] at hb
  exact hb

end Tetromino

namespace Tetromino

theorem kingAdj_iff (u v : Nat) :
    kingAdj u v = true ↔
      u ≠ v ∧ u % 8 ≤ v % 8 + 1 ∧ v % 8 ≤ u % 8 + 1 ∧ u / 8 ≤ v / 8 + 1 ∧ v / 8 ≤ u / 8 + 1 := by
  simp [kingAdj, and_assoc]

theorem kingAdj_symm (u v : Nat) : kingAdj u v = kingAdj v u := by
  rw [Bool.eq_iff_iff, kingAdj_iff, kingAdj_iff]
  constructor <;> rintro ⟨h1, h2, h3, h4, h5⟩ <;> exact ⟨fun e => h1 e.symm, h3, h2, h5, h4⟩

theorem ctzFrom_spec (b : Nat) :
    ∀ (fuel k j : Nat), k ≤ j → j < k + fuel → b.testBit j = true →
      b.testBit (ctzFrom b fuel k) = true ∧ ctzFrom b fuel k ≤ j := by
  intro fuel
  induction fuel with
  | zero => intro k j h1 h2 _; omega
  | succ fuel ih =>
    intro k j h1 h2 hb
    simp only [ctzFrom]
    by_cases hk : b.testBit k = true
    · simp only [hk, if_true]; exact ⟨trivial, h1⟩
    · simp only [hk, if_false, Bool.false_eq_true]
      have hne : k ≠ j := by rintro rfl; exact hk hb
      exact ih (k + 1) j (by omega) (by omega) hb

theorem LSB_mem {m : Nat} (h : (cells m).Nonempty) : LSB m ∈ cells m := by
  obtain ⟨j, hj⟩ := h
  obtain ⟨hj64, hb⟩ := mem_cells.1 hj
  obtain ⟨h1, h2⟩ := ctzFrom_spec m 64 0 j (Nat.zero_le _) (by omega) hb
  exact mem_cells.2 ⟨by unfold LSB; omega, h1⟩

theorem mem_kingStep {m : Nat} {s : List Nat} {v : Nat} (hv : v ∈ kingStep m s) :
    v ∈ cells m ∧ (v ∈ s ∨ ∃ u ∈ s, kingAdj u v = true) := by
  unfold kingStep at hv
  rw [List.mem_filter, List.mem_range] at hv
  obtain ⟨h64, h⟩ := hv
  simp only [Bool.and_eq_true, Bool.or_eq_true, List.any_eq_true] at h
  refine ⟨mem_cells.2 ⟨h64, h.1⟩, ?_⟩
  rcases h.2 with h2 | h2
  · exact Or.inl (by simpa using h2)
  · exact Or.inr h2

theorem kingReach_closed {m : Nat} {A : Finset ℕ}
    (hA : ∀ u ∈ A, ∀ v ∈ cells m, kingAdj u v = true → v ∈ A) :
    ∀ (n : Nat) (s : List Nat), (∀ x ∈ s, x ∈ A) → ∀ x ∈ kingReach m n s, x ∈ A := by
  intro n
  induction n with
  | zero => intro s hs x hx; exact hs x hx
  | succ n ih =>
    intro s hs x hx
    simp only [kingReach] at hx
    split at hx
    · exact hs x hx
    · apply ih (kingStep m s) _ x hx
      intro y hy
      obtain ⟨hym, h | ⟨u, hu, hadj⟩⟩ := mem_kingStep hy
      · exact hs y h
      · exact hA u (hs u hu) y hym hadj

theorem kingConnected_all {m : Nat} (h : kingConnected m = true) :
    ∀ v ∈ cells m, v ∈ kingReach m 64 [LSB m] := by
  intro v hv
  obtain ⟨h64, hb⟩ := mem_cells.1 hv
  unfold kingConnected at h
  rw [List.all_eq_true] at h
  have := h v (List.mem_range.2 h64)
  simpa [hb] using this

/-- The computed test implies the cut form of king-connectedness. -/
theorem KConn_of_kingConnected {m : Nat} (h : kingConnected m = true) : KConn (cells m) := by
  intro A hAS hne hcl
  have hall := kingConnected_all h
  have hnS : (cells m).Nonempty := hne.mono hAS
  have hl := LSB_mem hnS
  by_cases hlA : LSB m ∈ A
  · apply Finset.Subset.antisymm hAS
    intro v hv
    apply kingReach_closed (A := A) ?_ 64 [LSB m] (by simpa using hlA) v (hall v hv)
    intro u hu w hw hadj
    by_contra hwA
    have := hcl u hu w (Finset.mem_sdiff.2 ⟨hw, hwA⟩)
    rw [this] at hadj
    exact absurd hadj (by decide)
  · exfalso
    obtain ⟨a, ha⟩ := hne
    have : a ∈ cells m \ A := by
      apply kingReach_closed (A := cells m \ A) ?_ 64 [LSB m]
        (by simpa using Finset.mem_sdiff.2 ⟨hl, hlA⟩) a (hall a (hAS ha))
      intro u hu w hw hadj
      rw [Finset.mem_sdiff] at hu ⊢
      refine ⟨hw, fun hwA => ?_⟩
      have := hcl w hwA u (Finset.mem_sdiff.2 hu)
      rw [kingAdj_symm, this] at hadj
      exact absurd hadj (by decide)
    exact (Finset.mem_sdiff.1 this).2 ha

theorem KConn_shift {t : Tile} (ht : TileOK t) {pos : Nat}
    (hx : pos % 8 + t.p_width ≤ 7) (hy : pos / 8 + t.p_height ≤ 7)
    (hk : KConn (cells t.repr)) : KConn (cells (shl64 t.repr pos)) := by
  have hfit := fit_of_extents ht hx hy
  rw [cells_shl64_of_fit (fun k hk => (hfit k hk).1)]
  intro A hAS hne hcl
  have hA0 := hk ((cells t.repr).filter (fun u => u + pos ∈ A)) (Finset.filter_subset _ _) (by
      obtain ⟨a, ha⟩ := hne
      obtain ⟨u, hu, rfl⟩ := Finset.mem_image.1 (hAS ha)
      exact ⟨u, Finset.mem_filter.2 ⟨hu, ha⟩⟩) (by
      intro u hu v hv
      rw [Finset.mem_filter] at hu
      rw [Finset.mem_sdiff, Finset.mem_filter] at hv
      have hv' : v + pos ∉ A := fun h => hv.2 ⟨hv.1, h⟩
      have := hcl (u + pos) hu.2 (v + pos)
        (Finset.mem_sdiff.2 ⟨Finset.mem_image_of_mem _ hv.1, hv'⟩)
      rw [← this, Bool.eq_iff_iff, kingAdj_iff, kingAdj_iff]
      obtain ⟨-, h1, h2⟩ := hfit u hu.1
      obtain ⟨-, h3, h4⟩ := hfit v hv.1
      rw [h1, h2, h3, h4]
      omega)
  apply Finset.Subset.antisymm hAS
  intro k hk2
  obtain ⟨u, hu, rfl⟩ := Finset.mem_image.1 hk2
  rw [← hA0] at hu
  exact (Finset.mem_filter.1 hu).2

end Tetromino

namespace Tetromino

theorem notH_bit_fin : ∀ k : Fin 64, NOT_H_FILE.testBit k.1 = decide (k.1 % 8 ≠ 7) := by decide

theorem notA_bit_fin : ∀ k : Fin 64, NOT_A_FILE.testBit k.1 = decide (k.1 % 8 ≠ 0) := by decide

theorem notH_bit {k : Nat} (hk : k < 64) (h : k % 8 ≠ 7) : NOT_H_FILE.testBit k = true := by
  rw [notH_bit_fin ⟨k, hk⟩]; simpa using h

theorem notA_bit {k : Nat} (hk : k < 64) (h : k % 8 ≠ 0) : NOT_A_FILE.testBit k = true := by
  rw [notA_bit_fin ⟨k, hk⟩]; simpa using h

theorem kingAdj_cases {u v : Nat} (hu : u < 64) (hv : v < 64) (h : kingAdj u v = true) :
    (u + 1 = v ∧ u % 8 ≠ 7) ∨ (u = v + 1 ∧ u % 8 ≠ 0) ∨ u + 8 = v ∨ u = v + 8 ∨
    (u + 9 = v ∧ u % 8 ≠ 7) ∨ (u + 7 = v ∧ u % 8 ≠ 0) ∨ (u = v + 7 ∧ u % 8 ≠ 7) ∨
    (u = v + 9 ∧ u % 8 ≠ 0) := by
  rw [kingAdj_iff] at h
  omega

theorem testBit_shl64_add {b i u : Nat} (h : u + i < 64) :
    (shl64 b i).testBit (u + i) = b.testBit u := by
  rw [testBit_shl64]
  simp [h]

theorem testBit_shr_sub {b i v : Nat} : (b >>> i).testBit v = b.testBit (v + i) := by
  rw [Nat.testBit_shiftRight, Nat.add_comm]

/-- The eight shifts of the flood fill reach every king neighbour. -/
theorem grow8_adj {c u v : Nat} (hu : u ∈ cells c) (hv : v < 64) (h : kingAdj u v = true) :
    v ∈ cells (grow8 c) := by
  obtain ⟨hu64, hub⟩ := mem_cells.1 hu
  refine mem_cells.2 ⟨hv, ?_⟩
  unfold grow8
  simp only [Nat.testBit_or, Bool.or_eq_true]
  rcases kingAdj_cases hu64 hv h with ⟨rfl, h1⟩ | ⟨rfl, h1⟩ | rfl | rfl | ⟨rfl, h1⟩ | ⟨rfl, h1⟩ |
    ⟨rfl, h1⟩ | ⟨rfl, h1⟩
  · have : (shl64 (c &&& NOT_H_FILE) 1).testBit (u + 1) = true := by
      rw [testBit_shl64_add hv, Nat.testBit_and, hub, notH_bit hu64 h1]; rfl
    simp only [this]; tauto
  · have : ((c &&& NOT_A_FILE) >>> 1).testBit v = true := by
      rw [testBit_shr_sub, Nat.testBit_and, hub, notA_bit hu64 h1]; rfl
    simp only [this]; tauto
  · have : (shl64 c 8).testBit (u + 8) = true := by
      rw [testBit_shl64_add hv, hub]
    simp only [this]; tauto
  · have : (c >>> 8).testBit v = true := by
      rw [testBit_shr_sub, hub]
    simp only [this]; tauto
  · have : (shl64 (c &&& NOT_H_FILE) 9).testBit (u + 9) = true := by
      rw [testBit_shl64_add hv, Nat.testBit_and, hub, notH_bit hu64 h1]; rfl
    simp only [this]; tauto
  · have : (shl64 (c &&& NOT_A_FILE) 7).testBit (u + 7) = true := by
      rw [testBit_shl64_add hv, Nat.testBit_and, hub, notA_bit hu64 h1]; rfl
    simp only [this]; tauto
  · have : ((c &&& NOT_H_FILE) >>> 7).testBit v = true := by
      rw [testBit_shr_sub, Nat.testBit_and, hub, notH_bit hu64 h1]; rfl
    simp only [this]; tauto
  · have : ((c &&& NOT_A_FILE) >>> 9).testBit v = true := by
      rw [testBit_shr_sub, Nat.testBit_and, hub, notA_bit hu64 h1]; rfl
    simp only [this]; tauto

end Tetromino

namespace Tetromino

theorem floodLoop_succ (fuel c e : Nat) :
    floodLoop (fuel + 1) c e =
      if grow8 c &&& e = 0 then (c, e)
      else floodLoop fuel (c ||| (grow8 c &&& e)) (e &&& not64 (grow8 c &&& e)) := rfl

/-- The inner flood loop: with more fuel than empty cells it leaves through
`break`, and then the component has no king neighbour left among the empty
cells. -/
theorem floodLoop_spec :
    ∀ (fuel c e : Nat), c < 2 ^ 64 → e < 2 ^ 64 → Disjoint (cells c) (cells e) →
      (cells e).card < fuel →
      (floodLoop fuel c e).1 < 2 ^ 64 ∧ (floodLoop fuel c e).2 < 2 ^ 64 ∧
      cells (floodLoop fuel c e).1 ∪ cells (floodLoop fuel c e).2 = cells c ∪ cells e ∧
      Disjoint (cells (floodLoop fuel c e).1) (cells (floodLoop fuel c e).2) ∧
      cells c ⊆ cells (floodLoop fuel c e).1 ∧
      grow8 (floodLoop fuel c e).1 &&& (floodLoop fuel c e).2 = 0 := by
  intro fuel
  induction fuel with
  | zero => intro c e _ _ _ h; omega
  | succ fuel ih =>
    intro c e hc he hd hcard
    rw [floodLoop_succ]
    by_cases hn : grow8 c &&& e = 0
    · rw [if_pos hn]
      exact ⟨hc, he, rfl, hd, Finset.Subset.refl _, hn⟩
    · rw [if_neg hn]
      have hnew_lt : grow8 c &&& e < 2 ^ 64 := lt_of_le_of_lt Nat.and_le_right he
      have hnew_ne : (cells (grow8 c &&& e)).Nonempty := by
        rw [Finset.nonempty_iff_ne_empty]
        intro h0
        exact hn ((cells_eq_empty_iff hnew_lt).1 h0)
      have hnew_sub : cells (grow8 c &&& e) ⊆ cells e := by
        rw [cells_and]; exact Finset.inter_subset_right
      have he' : e &&& not64 (grow8 c &&& e) < 2 ^ 64 := lt_of_le_of_lt Nat.and_le_left he
      have hc' : c ||| (grow8 c &&& e) < 2 ^ 64 := Nat.or_lt_two_pow hc hnew_lt
      have hce : cells (e &&& not64 (grow8 c &&& e)) = cells e \ cells (grow8 c &&& e) := by
        rw [cells_and, cells_not64]
        ext k
        simp only [Finset.mem_inter, Finset.mem_sdiff, Finset.mem_range]
        constructor
        · rintro ⟨h1, -, h3⟩; exact ⟨h1, h3⟩
        · rintro ⟨h1, h3⟩; exact ⟨h1, (mem_cells.1 h1).1, h3⟩
      have hd' : Disjoint (cells (c ||| (grow8 c &&& e)))
          (cells (e &&& not64 (grow8 c &&& e))) := by
        rw [hce, cells_or, Finset.disjoint_union_left]
        exact ⟨Finset.disjoint_of_subset_right Finset.sdiff_subset hd, Finset.disjoint_sdiff⟩
      have hcard' : (cells (e &&& not64 (grow8 c &&& e))).card < fuel := by
        rw [hce]
        have := Finset.card_sdiff_add_card_eq_card hnew_sub
        have hpos := Finset.card_pos.2 hnew_ne
        omega
      obtain ⟨r1, r2, r3, r4, r5, r6⟩ := ih _ _ hc' he' hd' hcard'
      refine ⟨r1, r2, ?_, r4, ?_, r6⟩
      · rw [r3, hce, cells_or, Finset.union_assoc]
        congr 1
        exact Finset.union_sdiff_of_subset hnew_sub
      · refine Finset.Subset.trans ?_ r5
        rw [cells_or]
        exact Finset.subset_union_left

end Tetromino

namespace Tetromino

theorem regionLoop_succ (min_sz : Int) (g fuel E : Nat) :
    regionLoop min_sz g (fuel + 1) E =
      if E = 0 then true
      else if (BIT_COUNT (floodLoop 64 (shl64 1 (LSB E)) (E &&& not64 (shl64 1 (LSB E)))).1 : Int)
            < min_sz
          || BIT_COUNT (floodLoop 64 (shl64 1 (LSB E)) (E &&& not64 (shl64 1 (LSB E)))).1 % g
            != 0 then false
      else regionLoop min_sz g fuel
        (floodLoop 64 (shl64 1 (LSB E)) (E &&& not64 (shl64 1 (LSB E)))).2 := rfl

theorem cells_bit {i : Nat} (hi : i < 64) : cells (shl64 1 i) = {i} := by
  ext k
  rw [mem_cells, testBit_shl64, Finset.mem_singleton]
  constructor
  · rintro ⟨-, h⟩
    simp only [Bool.and_eq_true, decide_eq_true_eq] at h
    obtain ⟨⟨-, h1⟩, h2⟩ := h
    by_contra hne
    have : k - i = (k - i - 1) + 1 := by omega
    rw [this, Nat.testBit_succ] at h2
    simp at h2
  · rintro rfl
    simp [hi]

theorem sdiff_cells_and_not (E s : Nat) : cells (E &&& not64 s) = cells E \ cells s := by
  rw [cells_and, cells_not64]
  ext k
  simp only [Finset.mem_inter, Finset.mem_sdiff, Finset.mem_range]
  constructor
  · rintro ⟨h1, -, h3⟩; exact ⟨h1, h3⟩
  · rintro ⟨h1, h3⟩; exact ⟨h1, (mem_cells.1 h1).1, h3⟩

/-- When the outer loop of `hasSolvableRegions` answers `false`, it has found a
non-empty set of empty cells, closed under king moves inside the empty cells,
whose size fails one of the two tests. -/
theorem regionLoop_false (E0 : Nat) (min_sz : Int) (g : Nat) :
    ∀ (fuel E : Nat), E < 2 ^ 64 → cells E ⊆ cells E0 →
      (∀ u ∈ cells E0 \ cells E, ∀ v ∈ cells E, kingAdj u v = false) →
      regionLoop min_sz g fuel E = false →
      ∃ C : Nat, (cells C).Nonempty ∧ cells C ⊆ cells E0 ∧
        (∀ u ∈ cells C, ∀ v ∈ cells E0, kingAdj u v = true → v ∈ cells C) ∧
        ((BIT_COUNT C : Int) < min_sz ∨ BIT_COUNT C % g ≠ 0) := by
  intro fuel
  induction fuel with
  | zero => intro E _ _ _ h; simp [regionLoop] at h
  | succ fuel ih =>
    intro E hE hsub hinv h
    rw [regionLoop_succ] at h
    by_cases h0 : E = 0
    · rw [if_pos h0] at h; exact absurd h (by decide)
    · rw [if_neg h0] at h
      have hEne : (cells E).Nonempty := by
        rw [Finset.nonempty_iff_ne_empty]
        intro hc
        exact h0 ((cells_eq_empty_iff hE).1 hc)
      have hl := LSB_mem hEne
      have hl64 := (mem_cells.1 hl).1
      have hstart := cells_bit hl64
      have hd0 : Disjoint (cells (shl64 1 (LSB E))) (cells (E &&& not64 (shl64 1 (LSB E)))) := by
        rw [sdiff_cells_and_not]
        exact Finset.disjoint_sdiff
      have hcard0 : (cells (E &&& not64 (shl64 1 (LSB E)))).card < 64 := by
        rw [sdiff_cells_and_not, hstart]
        have h1 := Finset.card_sdiff_add_card_eq_card (Finset.singleton_subset_iff.2 hl)
        have h2 := Finset.card_le_card (cells_subset_range E)
        simp only [Finset.card_singleton, Finset.card_range] at h1 h2
        omega
      obtain ⟨r1, r2, r3, r4, r5, r6⟩ := floodLoop_spec 64 (shl64 1 (LSB E))
        (E &&& not64 (shl64 1 (LSB E))) (shl64_lt _ _)
        (lt_of_le_of_lt Nat.and_le_left hE) hd0 hcard0
      generalize floodLoop 64 (shl64 1 (LSB E)) (E &&& not64 (shl64 1 (LSB E))) = ce
        at h r1 r2 r3 r4 r5 r6
      have hunion : cells ce.1 ∪ cells ce.2 = cells E := by
        rw [r3, sdiff_cells_and_not, hstart]
        exact Finset.union_sdiff_of_subset (Finset.singleton_subset_iff.2 hl)
      have hC_E : cells ce.1 ⊆ cells E := by
        rw [← hunion]; exact Finset.subset_union_left
      have hE2 : cells ce.2 ⊆ cells E := by
        rw [← hunion]; exact Finset.subset_union_right
      have hclosed : ∀ u ∈ cells ce.1, ∀ v ∈ cells ce.2, kingAdj u v = false := by
        intro u hu v hv
        by_contra hadj
        have hadj' : kingAdj u v = true := by simpa using hadj
        have hg := grow8_adj hu (mem_cells.1 hv).1 hadj'
        have : v ∈ cells (grow8 ce.1 &&& ce.2) := by
          rw [cells_and]; exact Finset.mem_inter.2 ⟨hg, hv⟩
        rw [r6] at this
        simp [mem_cells] at this
      by_cases htest : ((BIT_COUNT ce.1 : Int) < min_sz || BIT_COUNT ce.1 % g != 0) = true
      · refine ⟨ce.1, ?_, Finset.Subset.trans hC_E hsub, ?_, ?_⟩
        · exact ⟨LSB E, r5 (by rw [hstart]; exact Finset.mem_singleton_self _)⟩
        · intro u hu v hv hadj
          by_cases hvE : v ∈ cells E
          · rw [← hunion, Finset.mem_union] at hvE
            rcases hvE with hvC | hv2
            · exact hvC
            · rw [hclosed u hu v hv2] at hadj
              exact absurd hadj (by decide)
          · have := hinv v (Finset.mem_sdiff.2 ⟨hv, hvE⟩) u (hC_E hu)
            rw [kingAdj_symm, this] at hadj
            exact absurd hadj (by decide)
        · simp only [Bool.or_eq_true, decide_eq_true_eq, bne_iff_ne] at htest
          exact htest
      · rw [if_neg htest] at h
        apply ih ce.2 r2 (Finset.Subset.trans hE2 hsub) ?_ h
        intro u hu v hv
        rw [Finset.mem_sdiff] at hu
        by_cases huE : u ∈ cells E
        · have huC : u ∈ cells ce.1 := by
            rw [← hunion, Finset.mem_union] at huE
            rcases huE with h1 | h1
            · exact h1
            · exact absurd h1 hu.2
          exact hclosed u huC v hv
        · exact hinv u (Finset.mem_sdiff.2 ⟨hu.1, huE⟩) v (hE2 hv)

end Tetromino

namespace Tetromino

theorem KConn_sub_or_disjoint {P C E0 : Finset ℕ} (hk : KConn P) (hP : P ⊆ E0)
    (hcl : ∀ u ∈ C, ∀ v ∈ E0, kingAdj u v = true → v ∈ C) : P ⊆ C ∨ Disjoint P C := by
  by_cases hne : (P ∩ C).Nonempty
  · left
    have := hk (P ∩ C) Finset.inter_subset_left hne (by
      intro u hu v hv
      rw [Finset.mem_inter] at hu
      rw [Finset.mem_sdiff, Finset.mem_inter] at hv
      by_contra hadj
      have hadj' : kingAdj u v = true := by simpa using hadj
      exact hv.2 ⟨hv.1, hcl u hu.2 v (hP hv.1) hadj'⟩)
    rw [← this]
    exact Finset.inter_subset_right
  · right
    rw [Finset.not_nonempty_iff_eq_empty] at hne
    exact Finset.disjoint_iff_inter_eq_empty.2 hne

theorem card_inter_union_list (C : Finset ℕ) (Ps : List (Finset ℕ))
    (hpd : Ps.Pairwise Disjoint) :
    (C ∩ Ps.foldr (· ∪ ·) ∅).card = (Ps.map (fun P => (C ∩ P).card)).sum := by
  induction Ps with
  | nil => simp
  | cons P Ps ih =>
    rw [List.pairwise_cons] at hpd
    simp only [List.foldr_cons, List.map_cons, List.sum_cons]
    rw [Finset.inter_union_distrib_left, Finset.card_union_of_disjoint, ih hpd.2]
    apply Finset.disjoint_of_subset_left Finset.inter_subset_right
    apply Finset.disjoint_of_subset_right Finset.inter_subset_right
    clear ih
    induction Ps with
    | nil => simp
    | cons Q Qs ih2 =>
      simp only [List.foldr_cons, Finset.disjoint_union_right]
      refine ⟨hpd.1 Q (List.mem_cons_self _ _), ih2 ⟨fun a ha => hpd.1 a (List.mem_cons_of_mem _ ha), ?_⟩⟩
      exact (List.pairwise_cons.1 hpd.2).2

/-- A closed, non-empty set of empty cells that is tiled by king-connected
pieces passes both size tests of the region check. -/
theorem component_ok {g : Nat} {mn : Int} {E0 C : Finset ℕ} {Ps : List (Finset ℕ)}
    (hcover : E0 ⊆ Ps.foldr (· ∪ ·) ∅) (hpd : Ps.Pairwise Disjoint)
    (hP : ∀ P ∈ Ps, P ⊆ E0 ∧ KConn P ∧ g ∣ P.card ∧ mn ≤ (P.card : Int))
    (hne : C.Nonempty) (hsub : C ⊆ E0)
    (hcl : ∀ u ∈ C, ∀ v ∈ E0, kingAdj u v = true → v ∈ C) :
    mn ≤ (C.card : Int) ∧ g ∣ C.card := by
  have hdich : ∀ P ∈ Ps, P ⊆ C ∨ Disjoint P C :=
    fun P hPm => KConn_sub_or_disjoint (hP P hPm).2.1 (hP P hPm).1 hcl
  have hcard : C.card = (Ps.map (fun P => (C ∩ P).card)).sum := by
    rw [← card_inter_union_list C Ps hpd,
      Finset.inter_eq_left.2 (Finset.Subset.trans hsub hcover)]
  constructor
  · obtain ⟨x, hx⟩ := hne
    have hxU := hcover (hsub hx)
    have : ∃ P ∈ Ps, x ∈ P := by
      clear hcard hdich hP hpd hcover
      induction Ps with
      | nil => simp at hxU
      | cons Q Qs ih =>
        simp only [List.foldr_cons, Finset.mem_union] at hxU
        rcases hxU with h | h
        · exact ⟨Q, List.mem_cons_self _ _, h⟩
        · obtain ⟨P, hP1, hP2⟩ := ih h
          exact ⟨P, List.mem_cons_of_mem _ hP1, hP2⟩
    obtain ⟨P, hPm, hxP⟩ := this
    have hPC : P ⊆ C := by
      rcases hdich P hPm with h | h
      · exact h
      · exact absurd hx (Finset.disjoint_left.1 h hxP)
    have h1 := (hP P hPm).2.2.2
    have h2 := Finset.card_le_card hPC
    omega
  · rw [hcard]
    apply List.dvd_sum
    intro n hn
    obtain ⟨P, hPm, rfl⟩ := List.mem_map.1 hn
    rcases hdich P hPm with h | h
    · rw [Finset.inter_eq_right.2 h]
      exact (hP P hPm).2.2.1
    · rw [Finset.disjoint_iff_inter_eq_empty, Finset.inter_comm] at h
      rw [h]
      simp

theorem validFrom_maskCells {tiles : List Tile} (l : List Nat) (j occ last : Nat)
    (h : validFrom tiles j occ last l) :
    cells (occFrom tiles j occ l) = cells occ ∪ (maskCells tiles j l).foldr (· ∪ ·) ∅ ∧
    (maskCells tiles j l).Pairwise Disjoint ∧
    (∀ P ∈ maskCells tiles j l, Disjoint (cells occ) P) ∧
    (∀ P ∈ maskCells tiles j l, ∃ j2 pos, j ≤ j2 ∧ j2 < tiles.length ∧
      P = cells (stepMask tiles j2 pos) ∧ pos % 8 + (tileAt tiles j2).p_width ≤ 7 ∧
      pos / 8 + (tileAt tiles j2).p_height ≤ 7) := by
  induction l generalizing j occ last with
  | nil => simp [occFrom, maskCells]
  | cons a l ih =>
    simp only [validFrom] at h
    obtain ⟨hs, hrest⟩ := h
    obtain ⟨i1, i2, i3, i4⟩ := ih _ _ _ hrest
    simp only [occFrom, maskCells, List.foldr_cons, List.pairwise_cons, List.mem_cons,
      forall_eq_or_imp]
    refine ⟨?_, ⟨?_, i2⟩, ⟨hs.disjoint, ?_⟩, ⟨?_, ?_⟩⟩
    · rw [i1, cells_or, Finset.union_assoc]
    · intro P hP
      have := i3 P hP
      rw [cells_or, Finset.disjoint_union_left] at this
      exact this.2
    · intro P hP
      have := i3 P hP
      rw [cells_or, Finset.disjoint_union_left] at this
      exact this.1
    · exact ⟨j, a, le_refl _, hs.1, rfl, hs.2.2.1, hs.2.2.2.1⟩
    · intro P hP
      obtain ⟨j2, pos, h1, h2, h3, h4, h5⟩ := i4 P hP
      exact ⟨j2, pos, by omega, h2, h3, h4, h5⟩

end Tetromino

namespace Tetromino

theorem hsr_unfold (tiles : List Tile) (os : List Nat) :
    (aBoard tiles os).hasSolvableRegions =
      if not64 (occFrom tiles 0 0 os) = 0 then true
      else if toInt8 (((Board.ctor tiles).suffix_min_size.getD os.length 0 : Nat) : Int) = 0 then
        true
      else regionLoop (toInt8 (((Board.ctor tiles).suffix_min_size.getD os.length 0 : Nat) : Int))
        (Board.ctor tiles).tile_gcd 65 (not64 (occFrom tiles 0 0 os)) := rfl

theorem not64_full : not64 (2 ^ 64 - 1) = 0 := by decide

/-- The region test cuts no state that extends to a complete one, when every
tile is king-connected. -/
theorem region_sound {tiles : List Tile} (hg : GoodTiles tiles) (hlen : tiles.length ≤ 64)
    (hsum : (tiles.map (fun t => BIT_COUNT t.repr)).sum = 64)
    (hk : ∀ t ∈ tiles, KConn (cells t.repr)) {os : List Nat} (hc : Compl tiles os) :
    (aBoard tiles os).hasSolvableRegions = true := by
  obtain ⟨rest, hv, hl⟩ := hc
  have hfull := hv.full hg hl hsum
  rw [hsr_unfold]
  by_cases hE : not64 (occFrom tiles 0 0 os) = 0
  · rw [if_pos hE]
  · rw [if_neg hE]
    by_cases hm : toInt8 (((Board.ctor tiles).suffix_min_size.getD os.length 0 : Nat) : Int) = 0
    · rw [if_pos hm]
    · rw [if_neg hm]
      have hlt : os.length < tiles.length := by
        by_contra hge
        have hr : rest = [] := by
          simp only [List.length_append] at hl
          apply List.eq_nil_of_length_eq_zero
          omega
        rw [hr, List.append_nil] at hfull
        rw [hfull] at hE
        exact hE not64_full
      have hmin : toInt8 (((Board.ctor tiles).suffix_min_size.getD os.length 0 : Nat) : Int)
          = (sufMin tiles os.length : Int) := by
        rw [suffix_min_size_spec tiles (by omega) os.length hlt]
        have := sufMin_le_64 tiles os.length
        exact toInt8_of_bounds (by omega) (by omega)
      rw [hmin]
      by_contra hfalse
      have hfalse' : regionLoop (sufMin tiles os.length) (Board.ctor tiles).tile_gcd 65
          (not64 (occFrom tiles 0 0 os)) = false := by simpa using hfalse
      obtain ⟨C, hCne, hCsub, hCcl, hCtest⟩ := regionLoop_false (not64 (occFrom tiles 0 0 os))
        (sufMin tiles os.length) (Board.ctor tiles).tile_gcd 65 (not64 (occFrom tiles 0 0 os))
        (not64_lt _) (Finset.Subset.refl _) (by
          intro u hu
          simp at hu) hfalse'
      have hv2 := ((validFrom_append tiles os rest 0 0 0).1 hv).2
      obtain ⟨m1, m2, m3, m4⟩ := validFrom_maskCells rest (0 + os.length)
        (occFrom tiles 0 0 os) _ hv2
      rw [← occFrom_append, hfull] at m1
      have hcover : cells (not64 (occFrom tiles 0 0 os))
          ⊆ (maskCells tiles (0 + os.length) rest).foldr (· ∪ ·) ∅ := by
        intro k hk2
        rw [cells_not64, Finset.mem_sdiff] at hk2
        have : k ∈ cells (2 ^ 64 - 1) := by
          rw [mem_cells, Nat.testBit_two_pow_sub_one]
          exact ⟨Finset.mem_range.1 hk2.1, by simpa using Finset.mem_range.1 hk2.1⟩
        rw [m1, Finset.mem_union] at this
        rcases this with h | h
        · exact absurd h hk2.2
        · exact h
      have hP : ∀ P ∈ maskCells tiles (0 + os.length) rest,
          P ⊆ cells (not64 (occFrom tiles 0 0 os)) ∧ KConn P ∧
          (Board.ctor tiles).tile_gcd ∣ P.card ∧ ((sufMin tiles os.length : Nat) : Int) ≤ (P.card : Int) := by
        intro P hPm
        obtain ⟨j2, pos, h1, h2, rfl, h4, h5⟩ := m4 P hPm
        have htile := hg.tileAt h2
        have hmem : tileAt tiles j2 ∈ tiles := by
          unfold tileAt
          rw [List.getD_eq_getElem _ _ h2]
          exact List.getElem_mem _
        have hcard : (cells (stepMask tiles j2 pos)).card = BIT_COUNT (tileAt tiles j2).repr := by
          rw [← BIT_COUNT_eq_card]
          exact BIT_COUNT_shl64_of_fit (fun k hk => (fit_of_extents htile h4 h5 k hk).1)
        refine ⟨?_, KConn_shift htile h4 h5 (hk _ hmem), ?_, ?_⟩
        · intro k hk2
          rw [cells_not64, Finset.mem_sdiff]
          refine ⟨cells_subset_range _ hk2, fun hocc => ?_⟩
          exact Finset.disjoint_left.1 (m3 _ hPm) hocc hk2
        · rw [hcard]
          exact ListGCD_dvd tiles _ hmem
        · rw [hcard]
          have := sufMin_le tiles os.length j2 (by omega) h2
          unfold tileAt
          exact_mod_cast this
      obtain ⟨r1, r2⟩ := component_ok hcover m2 hP hCne hCsub hCcl
      rw [← BIT_COUNT_eq_card] at r1 r2
      rcases hCtest with h | h
      · omega
      · exact h (Nat.mod_eq_zero_of_dvd r2)

/-- The two pruning tests of `solve`, with any gate, cut no state that extends
to a complete one. -/
theorem soundPrune_aPruned {tiles : List Tile} (hg : GoodTiles tiles) (hlen : tiles.length ≤ 64)
    (hsum : (tiles.map (fun t => BIT_COUNT t.repr)).sum = 64)
    (hk : ∀ t ∈ tiles, KConn (cells t.repr)) (gate : Nat → Bool) :
    SoundPrune tiles (aPruned tiles gate) := by
  intro os _ hp hc
  unfold aPruned at hp
  rw [parity_sound hg hlen hsum hc] at hp
  unfold aRegionCut at hp
  rw [region_sound hg hlen hsum hk hc] at hp
  simp at hp

end Tetromino

namespace Tetromino

theorem scan_fold_attained (r : Nat) (n : Nat) (hn : n ≤ 64) :
    let m := (List.range n).foldl (Tile.scanStep r) (0, 0)
    (m.1 = 0 ∨ ∃ k, k < n ∧ r.testBit k = true ∧ k % 8 = m.1) ∧
    (m.2 = 0 ∨ ∃ k, k < n ∧ r.testBit k = true ∧ k / 8 = m.2) := by
  induction n with
  | zero => simp
  | succ n ih =>
    have ih := ih (by omega)
    simp only [List.range_succ, List.foldl_append, List.foldl_cons, List.foldl_nil] at ih ⊢
    obtain ⟨h1, h2⟩ := ih
    obtain ⟨e1, e2⟩ := scanStep_spec r ((List.range n).foldl (Tile.scanStep r) (0, 0)) n (by omega)
    rw [e1, e2]
    by_cases hb : r.testBit n = true
    · simp only [hb, if_true]
      constructor
      · rcases Nat.le_total ((List.range n).foldl (Tile.scanStep r) (0, 0)).1 (n % 8) with h | h
        · rw [Nat.max_eq_right h]
          exact Or.inr ⟨n, by omega, hb, rfl⟩
        · rw [Nat.max_eq_left h]
          rcases h1 with h1 | ⟨k, hk, hkb, hke⟩
          · exact Or.inl h1
          · exact Or.inr ⟨k, by omega, hkb, hke⟩
      · rcases Nat.le_total ((List.range n).foldl (Tile.scanStep r) (0, 0)).2 (n / 8) with h | h
        · rw [Nat.max_eq_right h]
          exact Or.inr ⟨n, by omega, hb, rfl⟩
        · rw [Nat.max_eq_left h]
          rcases h2 with h2 | ⟨k, hk, hkb, hke⟩
          · exact Or.inl h2
          · exact Or.inr ⟨k, by omega, hkb, hke⟩
    · simp only [hb]
      constructor
      · rcases h1 with h1 | ⟨k, hk, hkb, hke⟩
        · exact Or.inl h1
        · exact Or.inr ⟨k, by omega, hkb, hke⟩
      · rcases h2 with h2 | ⟨k, hk, hkb, hke⟩
        · exact Or.inl h2
        · exact Or.inr ⟨k, by omega, hkb, hke⟩

/-- The extents computed by `Tile::Tile` are coordinates of cells of the tile. -/
theorem ctor_extents_attained (r : Nat) :
    ((Tile.ctor r).p_width = 0 ∨ ∃ k, k < 64 ∧ r.testBit k = true ∧ k % 8 = (Tile.ctor r).p_width) ∧
    ((Tile.ctor r).p_height = 0 ∨
      ∃ k, k < 64 ∧ r.testBit k = true ∧ k / 8 = (Tile.ctor r).p_height) :=
  scan_fold_attained r 64 (le_refl _)

theorem valid_of_steps {tiles : List Tile} :
    ∀ (os : List Nat), (∀ j (hj : j < os.length),
      stepOK tiles j (occFrom tiles 0 0 (os.take j)) (aLast (os.take j)) os[j]) →
      Valid tiles os := by
  intro os
  induction os using List.reverseRecOn with
  | nil => intro _; exact Valid.nil tiles
  | append_singleton l a ih =>
    intro h
    rw [Valid.snoc_iff]
    constructor
    · apply ih
      intro j hj
      have hj2 : j < (l ++ [a]).length := by simp; omega
      have := h j hj2
      have e1 : (l ++ [a]).take j = l.take j := by
        rw [List.take_append_of_le_length (by omega)]
      have e2 : (l ++ [a])[j] = l[j] := by
        rw [List.getElem_append_left hj]
      rw [e1, e2] at this
      exact this
    · have hl2 : l.length < (l ++ [a]).length := by simp
      have := h l.length hl2
      have e1 : (l ++ [a]).take l.length = l := by simp
      have e2 : (l ++ [a])[l.length] = a := by simp
      rw [e1, e2] at this
      exact this

end Tetromino

namespace Tetromino

theorem tileAt_map (masks : List Nat) {j : Nat} (hj : j < masks.length) :
    tileAt (masks.map Tile.ctor) j = Tile.ctor (masks.getD j 0) := by
  unfold tileAt
  rw [List.getD_eq_getElem _ _ (by simpa using hj), List.getD_eq_getElem _ _ hj]
  simp

theorem stepMask_map (masks : List Nat) {j : Nat} (hj : j < masks.length) (pos : Nat) :
    stepMask (masks.map Tile.ctor) j pos = shl64 (masks.getD j 0) pos := by
  unfold stepMask
  rw [tileAt_map masks hj]
  rfl

/-- An exact tiling that obeys the symmetry rules of the search is a valid complete
search state. -/
theorem valid_of_tiling {masks os : List Nat} (ht : IsTiling masks os)
    (hc : Canonical masks os) : Valid (masks.map Tile.ctor) os := by
  obtain ⟨hlen, hgrid, hdis, -⟩ := ht
  apply valid_of_steps
  intro j hj
  have hjm : j < masks.length := by omega
  have hget : os.getD j 0 = os[j] := List.getD_eq_getElem _ _ hj
  obtain ⟨h63, hcells⟩ := hgrid j hjm
  rw [hget] at h63 hcells
  obtain ⟨hw, hh⟩ := ctor_extents_attained (masks.getD j 0)
  refine ⟨by simpa using hjm, h63, ?_, ?_, ?_, ?_, ?_⟩
  · rw [tileAt_map masks hjm]
    rcases hw with h0 | ⟨k, hk, hkb, hke⟩
    · rw [h0]; omega
    · have := (hcells k hk hkb).1
      omega
  · rw [tileAt_map masks hjm]
    rcases hh with h0 | ⟨k, hk, hkb, hke⟩
    · rw [h0]; omega
    · have := (hcells k hk hkb).2
      omega
  · rw [and_eq_zero_iff_disjoint (stepMask_lt _ _ _), Finset.disjoint_left]
    intro c hc1 hc2
    have hlt : (os.take j).length = j := by rw [List.length_take]; omega
    rcases mem_cells_occFrom _ (os.take j) 0 0 c hc2 with h0 | ⟨d, hd, hcd⟩
    · simp [mem_cells] at h0
    · rw [hlt] at hd
      have hdm : d < masks.length := by omega
      have hdo : d < os.length := by omega
      have e : (os.take j)[d] = os[d] := by simp
      rw [Nat.zero_add, e, stepMask_map masks hdm] at hcd
      rw [stepMask_map masks hjm] at hc1
      have := hdis j hjm d hd
      rw [List.getD_eq_getElem _ _ hdo, hget] at this
      have h2 := congrArg (fun m => m.testBit c) this
      simp only [Nat.testBit_and, (mem_cells.1 hcd).2, (mem_cells.1 hc1).2,
        Nat.zero_testBit] at h2
      exact absurd h2 (by decide)
  · intro h0
    subst h0
    have := hc.1
    rwa [hget] at this
  · intro h0 hbeq
    have hj1 : j - 1 < os.length := by omega
    rw [aLast_take hj h0 hj1]
    have hjm1 : j - 1 < masks.length := by omega
    rw [tileAt_map masks hjm, tileAt_map masks hjm1] at hbeq
    have heq : masks.getD j 0 = masks.getD (j - 1) 0 := by
      simpa [Tile.beq, Tile.ctor_repr] using hbeq
    have := hc.2 j hjm h0 heq
    rwa [hget, List.getD_eq_getElem _ _ hj1] at this

/-- The popcounts of the tiles of an exact tiling sum to 64. -/
theorem tiling_sum {masks os : List Nat} (ht : IsTiling masks os)
    (hv : Valid (masks.map Tile.ctor) os) : (masks.map BIT_COUNT).sum = 64 := by
  have hg := GoodTiles.of_map masks
  have hcount := validFrom_count hg os 0 0 0 hv
  rw [BIT_COUNT_zero, Nat.zero_add, List.drop_zero, ht.1] at hcount
  have e : (List.take masks.length (masks.map Tile.ctor)) = masks.map Tile.ctor := by
    apply List.take_of_length_le; simp
  rw [e, map_ctor_count] at hcount
  rw [← hcount, BIT_COUNT_eq_card]
  have : cells (occFrom (masks.map Tile.ctor) 0 0 os) = Finset.range 64 := by
    apply Finset.Subset.antisymm (cells_subset_range _)
    intro c hc
    obtain ⟨j, hj, hb⟩ := ht.2.2.2 c (Finset.mem_range.1 hc)
    have hjo : j < os.length := by rw [ht.1]; exact hj
    have := cells_occFrom_step (masks.map Tile.ctor) os 0 0 j hjo
    apply this
    rw [Nat.zero_add, stepMask_map masks hj, ← List.getD_eq_getElem os 0 hjo]
    exact mem_cells.2 ⟨Finset.mem_range.1 hc, hb⟩
  rw [this]
  simp

theorem kconn_tiles {masks : List Nat} (hk : ∀ m ∈ masks, kingConnected m = true) :
    ∀ t ∈ masks.map Tile.ctor, KConn (cells t.repr) := by
  intro t ht
  obtain ⟨m, hm, rfl⟩ := List.mem_map.1 ht
  exact KConn_of_kingConnected (hk m hm)

theorem solve_count_eq {tiles : List Tile} (hlen : tiles.length ≤ 64) (gate : Nat → Bool)
    (silent : Bool) {os : List Nat} {t : Board} (ht : Rep tiles os t)
    (hle : os.length ≤ tiles.length) (c fuel : Nat) :
    (solveGated gate fuel false silent ⟨t, c, [], []⟩).2.solution_count =
      c + (aTree tiles (aPruned tiles gate) fuel os).length := by
  have := (solveGated_spec tiles gate false silent hlen fuel os ⟨t, c, [], []⟩ ht hle).count
  simpa [found] using this

theorem solve_result_eq {tiles : List Tile} (hlen : tiles.length ≤ 64) (gate : Nat → Bool)
    (one silent : Bool) {os : List Nat} {t : Board} (ht : Rep tiles os t)
    (hle : os.length ≤ tiles.length) (c fuel : Nat) :
    (solveGated gate fuel one silent ⟨t, c, [], []⟩).1 =
      !(aTree tiles (aPruned tiles gate) fuel os).isEmpty := by
  have := (solveGated_spec tiles gate one silent hlen fuel os ⟨t, c, [], []⟩ ht hle).result
  rw [this]
  cases one <;> cases h : aTree tiles (aPruned tiles gate) fuel os <;> simp [found]

end Tetromino

namespace Tetromino

theorem sum_map_flatMap {α β : Type} (L : List α) (f : α → List β) (g : β → Nat) :
    ((L.flatMap f).map g).sum = (L.map (fun i => ((f i).map g).sum)).sum := by
  induction L with
  | nil => simp
  | cons a l ih => simp [List.flatMap_cons, ih]

theorem length_flatMap_sum {α β : Type} (L : List α) (f : α → List β) :
    (L.flatMap f).length = (L.map (fun i => (f i).length)).sum := by
  induction L with
  | nil => simp
  | cons a l ih => simp [List.flatMap_cons, ih]

theorem map_sum_congr {α : Type} (L : List α) (f g : α → Nat) (h : ∀ a ∈ L, f a = g a) :
    (L.map f).sum = (L.map g).sum := by
  rw [List.map_congr_left h]

/-- The task states split the unpruned search below `os`: the complete states
below the tasks add up to the complete states below `os`. -/
theorem aTasks_frontier {tiles : List Tile} (hg : GoodTiles tiles) (prune : List Nat → Bool)
    (hp : SoundPrune tiles prune) (goal : Nat) (hgoal : goal < 256) :
    ∀ (fuel depth : Nat) (os : List Nat), Valid tiles os → os.length ≤ tiles.length →
      depth ≤ goal → goal - depth < fuel →
      ((aTasks tiles fuel depth goal os).map
          (fun o => (aTree tiles prune (tiles.length - o.length) o).length)).sum
        = (aTree tiles prune (tiles.length - os.length) os).length := by
  intro fuel
  induction fuel with
  | zero => intro depth os _ _ _ h; omega
  | succ fuel ih =>
    intro depth os hv hle hd hf
    simp only [aTasks]
    by_cases hstop : (depth == goal || os.length == tiles.length) = true
    · rw [if_pos hstop]; simp
    · rw [if_neg hstop]
      simp only [Bool.or_eq_true, beq_iff_eq, not_or] at hstop
      have hlt : os.length < tiles.length := by omega
      have hdlt : depth < goal := by omega
      have hu : toUInt8 ((depth : Int) + 1) = depth + 1 := by
        exact_mod_cast toUInt8_natCast (n := depth + 1) (by omega)
      rw [gCands_eq_aCands hv (hg.tileAt hlt), sum_map_flatMap, hu]
      have hrhs : aTree tiles prune (tiles.length - os.length) os =
          aTree tiles (fun _ => false) (tiles.length - os.length) os :=
        aTree_prune_indep hg hp (soundPrune_never tiles) _ os hv hle
      have hfl : tiles.length - os.length = (tiles.length - os.length - 1) + 1 := by omega
      rw [hrhs, hfl]
      have hne : ¬ (os.length == tiles.length) = true := by
        simp only [beq_iff_eq]; omega
      simp only [aTree, hne, if_false, Bool.false_eq_true]
      rw [length_flatMap_sum]
      apply map_sum_congr
      intro i hi
      have hvi := hv.cand hg hlt hi
      have hlei : (os ++ [i]).length ≤ tiles.length := by simp; omega
      rw [ih (depth + 1) (os ++ [i]) hvi hlei (by omega) (by omega),
        aTree_prune_indep hg hp (soundPrune_never tiles) _ (os ++ [i]) hvi hlei]
      congr 2
      simp
      omega

theorem forall₂_sum_eq {α β : Type} {R : α → β → Prop} {l1 : List α} {l2 : List β}
    (h : List.Forall₂ R l1 l2) (f : α → Nat) (g : β → Nat)
    (hfg : ∀ a b, a ∈ l1 → R a b → f a = g b) : (l1.map f).sum = (l2.map g).sum := by
  induction h with
  | nil => rfl
  | cons hr _ ih =>
    simp only [List.map_cons, List.sum_cons]
    rw [hfg _ _ (List.mem_cons_self _ _) hr,
      ih (fun a b ha hab => hfg a b (List.mem_cons_of_mem _ ha) hab)]

/-- C7, amended: thread-count independence, stated sequentially. For non-zero
king-connected tiles whose popcounts sum to 64, the solutions counted by
`solve` (enumerate-all) on the boards that `generateTasks(Board(tiles), 0, 2)`
queues add up to the solutions counted by `solve` on `Board(tiles)`. -/
theorem tasks_count_eq (masks : List Nat) (hnz : ∀ m ∈ masks, m ≠ 0 ∧ m < 2 ^ 64)
    (hsum : (masks.map BIT_COUNT).sum = 64) (hk : ∀ m ∈ masks, kingConnected m = true)
    (silent : Bool) :
    (((generateTasks (boardOf masks) 0 2).task_queue).map
        (fun t => (solve t 0 false silent).2.solution_count)).sum =
      (solve (boardOf masks) 0 false silent).2.solution_count := by
  have hg := GoodTiles.of_map masks
  have hlen := masks_length_le hnz (le_of_eq hsum)
  have hsum' : ((masks.map Tile.ctor).map (fun t => BIT_COUNT t.repr)).sum = 64 := by
    rw [map_ctor_count]; exact hsum
  have hsound := soundPrune_aPruned hg hlen hsum' (kconn_tiles hk) codedGate
  have hspec := generateTasksAux_spec (masks.map Tile.ctor) 2 hlen 256 0 []
    ⟨Board.ctor (masks.map Tile.ctor), [], []⟩ (Rep.ctor _) (by simp)
  obtain ⟨new, hnew, hfa⟩ := hspec.tasks
  have hq : (generateTasks (boardOf masks) 0 2).task_queue = new := by
    unfold generateTasks boardOf
    rw [hnew]; rfl
  rw [hq]
  have hfront := aTasks_frontier hg (aPruned (masks.map Tile.ctor) codedGate) hsound 2
    (by decide) 256 0 [] (Valid.nil _) (by simp) (by decide) (by decide)
  have hroot : (solve (boardOf masks) 0 false silent).2.solution_count =
      (aTree (masks.map Tile.ctor) (aPruned (masks.map Tile.ctor) codedGate)
        ((masks.map Tile.ctor).length - ([] : List Nat).length) []).length := by
    unfold solve boardOf
    rw [solve_count_eq hlen codedGate silent (Rep.ctor _) (by simp) 0]
    simp [Board.ctor]
  rw [hroot, ← hfront]
  symm
  apply forall₂_sum_eq hfa
  intro o t ho hrep
  have hval : Valid (masks.map Tile.ctor) o :=
    ReachBy.valid_gen hg (aTasks_reach _ 2 256 0 [] o (by simp) ho) (Valid.nil _)
  unfold solve
  rw [solve_count_eq hlen codedGate silent hrep hval.length_le 0, hrep.pieces, hrep.idx]
  simp

set_option maxRecDepth 100000 in
/-- Two half-board tiles: one task is queued and it carries the one solution. -/
theorem tasks_count_eq_witness :
    (((generateTasks (boardOf [0x0F0F0F0F0F0F0F0F, 0x0F0F0F0F0F0F0F0F]) 0 2).task_queue).map
        (fun t => (solve t 0 false true).2.solution_count)).sum = 1 :=
  (tasks_count_eq [0x0F0F0F0F0F0F0F0F, 0x0F0F0F0F0F0F0F0F] (by decide) (by decide) (by decide)
    true).trans (by decide)

set_option maxRecDepth 100000 in
/-- C7 as stated fails: for the sorted list of two copies of the even-columns
tile, `generateTasks` queues one board on which `solve` counts one solution,
while `solve` on `Board(tiles)` counts none. -/
theorem tasks_count_eq_counterexample :
    SortedTiles ([0x5555555555555555, 0x5555555555555555].map Tile.ctor) ∧
    (((generateTasks (boardOf [0x5555555555555555, 0x5555555555555555]) 0 2).task_queue).map
        (fun t => (solve t 0 false true).2.solution_count)).sum = 1 ∧
    (solve (boardOf [0x5555555555555555, 0x5555555555555555]) 0 false true).2.solution_count = 0 := by
  refine ⟨by decide, by decide, by decide⟩

end Tetromino

namespace Tetromino

/-- An in-grid translation satisfies the extents test of the search, for the
extents that `Tile::Tile` computes. -/
theorem ingrid_extents {r pos : Nat} (h : InGrid r pos) :
    pos % 8 + (Tile.ctor r).p_width ≤ 7 ∧ pos / 8 + (Tile.ctor r).p_height ≤ 7 := by
  obtain ⟨hpos, hcells⟩ := h
  obtain ⟨hw, hh⟩ := ctor_extents_attained r
  constructor
  · rcases hw with h0 | ⟨k, hk, hb, he⟩
    · rw [h0]; omega
    · have := (hcells k hk hb).1; omega
  · rcases hh with h0 | ⟨k, hk, hb, he⟩
    · rw [h0]; omega
    · have := (hcells k hk hb).2; omega

theorem tileOK_ctor (r : Nat) : TileOK (Tile.ctor r) :=
  GoodTiles.of_map [r] _ (by simp)

theorem ingrid_fit {r pos : Nat} (h : InGrid r pos) : ∀ k ∈ cells r, k + pos < 64 := by
  intro k hk
  obtain ⟨hk64, hb⟩ := mem_cells.1 hk
  have := h.2 k hk64 hb
  omega

theorem ingrid_count {r pos : Nat} (h : InGrid r pos) : BIT_COUNT (shl64 r pos) = BIT_COUNT r :=
  BIT_COUNT_shl64_of_fit (ingrid_fit h)

/-- An in-grid translation of a mask keeps the absolute value of its black
minus white count. -/
theorem ingrid_abs_imbalance {r pos : Nat} (h : InGrid r pos) :
    |imbalance (shl64 r pos)| = |imbalance r| :=
  abs_imbalance_shl (tileOK_ctor r) (ingrid_extents h).1 (ingrid_extents h).2

theorem ingrid_kconn {r pos : Nat} (h : InGrid r pos) (hk : KConn (cells r)) :
    KConn (cells (shl64 r pos)) :=
  KConn_shift (tileOK_ctor r) (ingrid_extents h).1 (ingrid_extents h).2 hk

theorem freeOK_disjoint {tiles : List Tile} {j occ pos : Nat} (h : freeOK tiles j occ pos) :
    Disjoint (cells occ) (cells (stepMask tiles j pos)) :=
  ((and_eq_zero_iff_disjoint (b := occ) (shl64_lt _ _)).1 h.2.2).symm

theorem freeFrom_count {tiles : List Tile} (l : List Nat) (j occ : Nat)
    (h : freeFrom tiles j occ l) :
    BIT_COUNT (occFrom tiles j occ l) =
      BIT_COUNT occ + (((tiles.drop j).take l.length).map (fun t => BIT_COUNT t.repr)).sum := by
  induction l generalizing j occ with
  | nil => simp [occFrom]
  | cons a l ih =>
    simp only [freeFrom] at h
    obtain ⟨hs, hrest⟩ := h
    simp only [occFrom, List.length_cons]
    have hc : BIT_COUNT (stepMask tiles j a) = BIT_COUNT (tileAt tiles j).repr := ingrid_count hs.2.1
    rw [ih _ _ hrest, BIT_COUNT_or_of_disjoint (freeOK_disjoint hs), hc]
    have hj := hs.1
    rw [List.drop_eq_getElem_cons hj, List.take_succ_cons, List.map_cons, List.sum_cons]
    have : tileAt tiles j = tiles[j] := by
      unfold tileAt; exact List.getD_eq_getElem _ _ hj
    rw [this]
    omega

theorem freeFrom_imbalance {tiles : List Tile} (l : List Nat) (j occ : Nat)
    (h : freeFrom tiles j occ l) :
    ciFrom tiles j (imbalance occ) l = imbalance (occFrom tiles j occ l) := by
  induction l generalizing j occ with
  | nil => simp [occFrom, ciFrom]
  | cons a l ih =>
    simp only [freeFrom] at h
    obtain ⟨hs, hrest⟩ := h
    simp only [occFrom, ciFrom]
    rw [← imbalance_or_of_disjoint (freeOK_disjoint hs)]
    exact ih _ _ hrest

theorem freeFrom_ci_bound {tiles : List Tile} (l : List Nat) (j occ : Nat) (ci : Int)
    (h : freeFrom tiles j occ l) :
    |ciFrom tiles j ci l - ci| ≤
      (((tiles.drop j).take l.length).map (fun t => |imbalance t.repr|)).sum := by
  induction l generalizing j occ ci with
  | nil => simp [ciFrom]
  | cons a l ih =>
    simp only [freeFrom] at h
    obtain ⟨hs, hrest⟩ := h
    have hj := hs.1
    simp only [ciFrom, List.length_cons]
    rw [List.drop_eq_getElem_cons hj, List.take_succ_cons, List.map_cons, List.sum_cons]
    have h1 := ih (j + 1) _ (ci + imbalance (stepMask tiles j a)) hrest
    have h2 : |imbalance (stepMask tiles j a)| = |imbalance (tileAt tiles j).repr| :=
      ingrid_abs_imbalance hs.2.1
    have e : tileAt tiles j = tiles[j] := by
      unfold tileAt; exact List.getD_eq_getElem _ _ hj
    rw [e] at h2
    rw [← h2]
    have h3 := abs_add ((ciFrom tiles (j + 1) (ci + imbalance (stepMask tiles j a)) l
      - (ci + imbalance (stepMask tiles j a)))) (imbalance (stepMask tiles j a))
    have e2 : ciFrom tiles (j + 1) (ci + imbalance (stepMask tiles j a)) l - ci =
        (ciFrom tiles (j + 1) (ci + imbalance (stepMask tiles j a)) l
          - (ci + imbalance (stepMask tiles j a))) + imbalance (stepMask tiles j a) := by ring
    rw [e2]
    omega

theorem freeFrom_maskCells {tiles : List Tile} (l : List Nat) (j occ : Nat)
    (h : freeFrom tiles j occ l) :
    cells (occFrom tiles j occ l) = cells occ ∪ (maskCells tiles j l).foldr (· ∪ ·) ∅ ∧
    (maskCells tiles j l).Pairwise Disjoint ∧
    (∀ P ∈ maskCells tiles j l, Disjoint (cells occ) P) ∧
    (∀ P ∈ maskCells tiles j l, ∃ j2 pos, j ≤ j2 ∧ j2 < tiles.length ∧
      P = cells (stepMask tiles j2 pos) ∧ InGrid (tileAt tiles j2).repr pos) := by
  induction l generalizing j occ with
  | nil => simp [occFrom, maskCells]
  | cons a l ih =>
    simp only [freeFrom] at h
    obtain ⟨hs, hrest⟩ := h
    obtain ⟨i1, i2, i3, i4⟩ := ih _ _ hrest
    simp only [occFrom, maskCells, List.foldr_cons, List.pairwise_cons, List.mem_cons,
      forall_eq_or_imp]
    refine ⟨?_, ⟨?_, i2⟩, ⟨(freeOK_disjoint hs), ?_⟩, ⟨?_, ?_⟩⟩
    · rw [i1, cells_or, Finset.union_assoc]
    · intro P hP
      have := i3 P hP
      rw [cells_or, Finset.disjoint_union_left] at this
      exact this.2
    · intro P hP
      have := i3 P hP
      rw [cells_or, Finset.disjoint_union_left] at this
      exact this.1
    · exact ⟨j, a, le_refl _, hs.1, rfl, hs.2.1⟩
    · intro P hP
      obtain ⟨j2, pos, h1, h2, h3, h4⟩ := i4 P hP
      exact ⟨j2, pos, by omega, h2, h3, h4⟩

/-- A coverable board of a valid search state: the popcounts of all tiles sum
to 64. -/
theorem coverable_sum {tiles : List Tile} (hg : GoodTiles tiles) {os : List Nat}
    (hv : Valid tiles os) {rest : List Nat}
    (hl : os.length + rest.length = tiles.length)
    (hfree : freeFrom tiles os.length (occFrom tiles 0 0 os) rest)
    (hfull : occFrom tiles os.length (occFrom tiles 0 0 os) rest = 2 ^ 64 - 1) :
    (tiles.map (fun t => BIT_COUNT t.repr)).sum = 64 := by
  have h1 := freeFrom_count rest os.length _ hfree
  have h2 := validFrom_count hg os 0 0 0 hv
  rw [hfull, h2, BIT_COUNT_zero, List.drop_zero] at h1
  have e1 : (tiles.drop os.length).take rest.length = tiles.drop os.length := by
    apply List.take_of_length_le
    rw [List.length_drop]; omega
  rw [e1] at h1
  have e2 : (tiles.map (fun t => BIT_COUNT t.repr)).sum =
      ((tiles.take os.length).map (fun t => BIT_COUNT t.repr)).sum
        + ((tiles.drop os.length).map (fun t => BIT_COUNT t.repr)).sum := by
    rw [← List.sum_append, ← List.map_append, List.take_append_drop]
  have e3 : BIT_COUNT (2 ^ 64 - 1) = 64 := by decide
  rw [e2]
  omega

/-- The suffix minimum is the popcount of one of the tiles it ranges over. -/
theorem sufMin_attained (tiles : List Tile) :
    ∀ (d i : Nat), i + d + 1 = tiles.length →
      ∃ j, i ≤ j ∧ j < tiles.length ∧ sufMin tiles i = BIT_COUNT (tiles.getD j default).repr := by
  intro d
  induction d with
  | zero =>
    intro i hi
    refine ⟨i, le_refl _, by omega, ?_⟩
    rw [sufMin_succ tiles i (by omega)]
    have e : i + 1 = tiles.length := by omega
    rw [e, sufMin_length]
    exact Nat.min_eq_left (BIT_COUNT_le _)
  | succ d ih =>
    intro i hi
    obtain ⟨j, h1, h2, h3⟩ := ih (i + 1) (by omega)
    rw [sufMin_succ tiles i (by omega)]
    rcases Nat.le_total (BIT_COUNT (tiles.getD i default).repr) (sufMin tiles (i + 1)) with h | h
    · exact ⟨i, le_refl _, by omega, Nat.min_eq_left h⟩
    · exact ⟨j, by omega, h2, by rw [Nat.min_eq_right h, h3]⟩

/-- The entry `suffix_min_size[len]` keeps the zero written by `resize`. -/
theorem suffix_min_size_last (tiles : List Tile) (hlen : tiles.length ≤ 128) :
    (Board.ctor tiles).suffix_min_size.getD tiles.length 0 = 0 := by
  simp only [Board.ctor]
  cases hemp : tiles.isEmpty with
  | true => simp
  | false =>
    have hpos : 1 ≤ tiles.length := by
      cases tiles with
      | nil => simp at hemp
      | cons a l => simp
    simp only [Bool.false_eq_true, if_false]
    rw [int8LoopCount_eq hpos hlen]
    obtain ⟨-, -, h3⟩ := suffixMinLoop_spec tiles tiles.length 64
      (List.replicate (tiles.length + 1) 0) (le_refl _) (by rw [sufMin_length]; rfl)
      (by simp) (by intro i h1 h2; omega)
    rw [h3 tiles.length (le_refl _)]
    simp [List.getD_eq_getElem?_getD]

end Tetromino

namespace Tetromino

/-- C3: `place` followed by `pop` is the identity on the board state: for a board
whose fields are in the range of their C++ types and that holds fewer than 64
history entries, a mask `p` and an origin `o ≤ 63`, the fields `occ`,
`piece_index`, `current_imbalance`, the history size and the live history
entries after `place(p, o); pop()` are those before `place`. -/
theorem place_pop_identity (b : Board) (p o : Nat)
    (hslots : b.history.history.length = 64) (hused : b.history.used < 64)
    (hidx : b.piece_index < 2 ^ 64)
    (hci : -2147483648 ≤ b.current_imbalance ∧ b.current_imbalance < 2147483648)
    (hp : p < 2 ^ 64) (ho : o ≤ 63) :
    ((b.place p o).pop).occ = b.occ ∧
    ((b.place p o).pop).piece_index = b.piece_index ∧
    ((b.place p o).pop).current_imbalance = b.current_imbalance ∧
    ((b.place p o).pop).history.size = b.history.size ∧
    ((b.place p o).pop).history.live = b.history.live ∧
    ((b.place p o).pop).pieces = b.pieces := by
  have hu : toSize ((b.history.used : Int) + 1) = b.history.used + 1 := by
    exact_mod_cast toSize_natCast (n := b.history.used + 1) (by omega)
  have hne : (b.place p o).history.empty = false := by
    simp [Board.place, PushPopHistoryArray.emplace_back, PushPopHistoryArray.empty, hu]
  have hback : (b.place p o).history.back =
      ⟨b.occ, o, toInt8 ((toUInt8 (BIT_COUNT (shl64 p o &&& CHECKERBOARD_MASK)) : Int)
        - (toUInt8 (BIT_COUNT (shl64 p o &&& not64 CHECKERBOARD_MASK)) : Int))⟩ := by
    simp only [Board.place, PushPopHistoryArray.emplace_back, PushPopHistoryArray.back,
      PushPopHistoryArray.get, hu, Nat.add_sub_cancel]
    rw [List.getD_eq_getElem _ _ (by rw [List.length_set, hslots]; exact hused)]
    simp
  have hd := place_delta_exact (shl64 p o)
  have hb := imbalance_bounds (shl64 p o)
  refine ⟨?_, ?_, ?_, ?_, ?_, ?_⟩
  · simp only [Board.pop, hne, hback]; rfl
  · simp only [Board.pop, hne]
    simp only [Bool.false_eq_true, if_false, Board.place]
    unfold toSize
    have : (2:Nat) ^ 64 = 18446744073709551616 := by norm_num
    omega
  · simp only [Board.pop, hne, hback]
    simp only [Bool.false_eq_true, if_false, Board.place, hd]
    unfold toInt32
    omega
  · simp only [Board.pop, hne]
    simp [Board.place, PushPopHistoryArray.emplace_back, PushPopHistoryArray.pop_back,
      PushPopHistoryArray.size, hu]
  · simp only [Board.pop, hne]
    simp [Board.place, PushPopHistoryArray.emplace_back, PushPopHistoryArray.pop_back,
      PushPopHistoryArray.live, hu, take_set_self]
  · simp only [Board.pop, hne]; rfl

/-- A board to try `place_pop_identity` on: one tile placed, dead data in slot 1. -/
theorem place_pop_identity_witness :
    ((((Board.ctor [Tile.ctor 3, Tile.ctor 1]).place 3 0).place 1 9).pop).occ = 3 :=
  (place_pop_identity ((Board.ctor [Tile.ctor 3, Tile.ctor 1]).place 3 0) 1 9
    (by decide) (by decide) (by decide) (by decide) (by decide) (by decide)).1.trans (by decide)

end Tetromino

namespace Tetromino

/-- C4: popcount invariant. On every board reached from `Board(tiles)` by `solve`
or `generateTasks` (at most 64 tiles, the capacity of the history),
`popcount(occ)` is the sum of the popcounts of the pieces below `piece_index`,
and the history size is `piece_index`. -/
theorem popcount_invariant (masks : List Nat) (hlen : masks.length ≤ 64) (b : Board)
    (hb : Reachable (masks.map Tile.ctor) b) :
    BIT_COUNT b.occ = ((b.pieces.take b.piece_index).map (fun t => BIT_COUNT t.repr)).sum ∧
    b.history.size = b.piece_index := by
  obtain ⟨os, hrep, hval⟩ := reachable_rep (by simpa using hlen) (GoodTiles.of_map masks) hb
  exact ⟨hrep.count_eq (GoodTiles.of_map masks) hval, by
    simp [PushPopHistoryArray.size, hrep.used, hrep.idx]⟩

set_option maxRecDepth 100000 in
/-- The two half-board tiles: the board after the first placement is reached by
`solve` and satisfies the popcount invariant. -/
theorem popcount_invariant_witness :
    BIT_COUNT ((boardOf [0x0F0F0F0F0F0F0F0F, 0x0F0F0F0F0F0F0F0F]).place 0x0F0F0F0F0F0F0F0F 0).occ
      = 32 :=
  (popcount_invariant [0x0F0F0F0F0F0F0F0F, 0x0F0F0F0F0F0F0F0F] (by decide)
    ((boardOf [0x0F0F0F0F0F0F0F0F, 0x0F0F0F0F0F0F0F0F]).place 0x0F0F0F0F0F0F0F0F 0)
    (Or.inl ⟨false, true, by decide⟩)).1.trans (by decide)

/-- C5: parity-accumulator invariant. On every reachable board (at most 64
tiles) `current_imbalance` is the number of occupied black cells minus the
number of occupied white cells, it is the sum of the `balance_delta` of the live
history entries, and each stored delta is the exact difference for its
placement (the narrowing to `int8_t` changes nothing). -/
theorem parity_invariant (masks : List Nat) (hlen : masks.length ≤ 64) (b : Board)
    (hb : Reachable (masks.map Tile.ctor) b) :
    b.current_imbalance = (BIT_COUNT (b.occ &&& CHECKERBOARD_MASK) : Int)
        - (BIT_COUNT (b.occ &&& not64 CHECKERBOARD_MASK) : Int) ∧
    b.current_imbalance = (b.history.live.map (fun e => e.balance_delta)).sum ∧
    ∀ j, j < b.piece_index →
      (b.history.get j).balance_delta =
        (BIT_COUNT (placedMask b j &&& CHECKERBOARD_MASK) : Int)
          - (BIT_COUNT (placedMask b j &&& not64 CHECKERBOARD_MASK) : Int) := by
  obtain ⟨os, hrep, hval⟩ := reachable_rep (by simpa using hlen) (GoodTiles.of_map masks) hb
  refine ⟨?_, ?_, ?_⟩
  · rw [hrep.ci, hrep.occ]
    have := validFrom_imbalance os 0 0 0 hval
    rw [imbalance_zero] at this
    rw [this]; rfl
  · rw [hrep.ci, hrep.live, ciFrom_eq_sum _ _ 0 0 0]; simp
  · intro j hj
    rw [hrep.idx] at hj
    rw [hrep.placedMask_eq hj, hrep.get_eq hj]
    rfl

set_option maxRecDepth 100000 in
/-- The two half-board tiles: after the first placement the accumulator is 0. -/
theorem parity_invariant_witness :
    ((boardOf [0x0F0F0F0F0F0F0F0F, 0x0F0F0F0F0F0F0F0F]).place 0x0F0F0F0F0F0F0F0F 0).current_imbalance
      = 0 :=
  (parity_invariant [0x0F0F0F0F0F0F0F0F, 0x0F0F0F0F0F0F0F0F] (by decide)
    ((boardOf [0x0F0F0F0F0F0F0F0F, 0x0F0F0F0F0F0F0F0F]).place 0x0F0F0F0F0F0F0F0F 0)
    (Or.inl ⟨false, true, by decide⟩)).1.trans (by decide)

theorem shl64_eq_shiftLeft_of_fit {p pos : Nat} (hp : p < 2 ^ 64)
    (h : ∀ k ∈ cells p, k + pos < 64) : p <<< pos < 2 ^ 64 := by
  apply Nat.lt_pow_two_of_testBit
  intro k hk
  rw [Nat.testBit_shiftLeft]
  by_cases hle : pos ≤ k
  · simp only [ge_iff_le, hle, decide_True, Bool.true_and]
    by_contra hb
    have hb1 : p.testBit (k - pos) = true := by simpa using hb
    have h64 := testBit_of_lt_two_pow64 hp hb1
    have := h (k - pos) (mem_cells.2 ⟨h64, hb1⟩)
    omega
  · simp [hle]

/-- C6: placement validity invariant. On every reachable board (at most 64
tiles, masks in the 64-bit range, extents from `Tile::Tile`) each placed tile
`j` with origin `pos = history[j].pos` lies inside the grid: `pos ≤ 63`, every
cell `(tx, ty)` of the tile lands on `(tx + pos % 8, ty + pos / 8)` with both
coordinates at most 7, the shifted mask loses no bit and has exactly these
cells, and it shares no cell with a tile placed earlier. -/
theorem placement_invariant (masks : List Nat) (hlen : masks.length ≤ 64)
    (hm : ∀ m ∈ masks, m < 2 ^ 64) (b : Board)
    (hb : Reachable (masks.map Tile.ctor) b) (j : Nat) (hj : j < b.piece_index) :
    (b.history.get j).pos ≤ 63 ∧
    (∀ tx ty, tx ≤ 7 → ty ≤ 7 → (b.getPiece j).repr.testBit (ty * 8 + tx) = true →
      tx + (b.history.get j).pos % 8 ≤ 7 ∧ ty + (b.history.get j).pos / 8 ≤ 7) ∧
    (b.getPiece j).repr <<< (b.history.get j).pos < 2 ^ 64 ∧
    (∀ k, (placedMask b j).testBit k = true ↔
      ∃ tx ty, tx ≤ 7 ∧ ty ≤ 7 ∧ (b.getPiece j).repr.testBit (ty * 8 + tx) = true ∧
        k = (ty + (b.history.get j).pos / 8) * 8 + (tx + (b.history.get j).pos % 8)) ∧
    (∀ j2, j2 < j → placedMask b j2 &&& placedMask b j = 0) := by
  have hg := GoodTiles.of_map masks
  obtain ⟨os, hrep, hval⟩ := reachable_rep (by simpa using hlen) hg hb
  rw [hrep.idx] at hj
  have hs := hval.stepOK_at hj
  have hfit := hs.fit hg
  have htile := hg.tileAt hs.1
  have hlt : (tileAt (masks.map Tile.ctor) j).repr < 2 ^ 64 := by
    have h1 : tileAt (masks.map Tile.ctor) j ∈ masks.map Tile.ctor := by
      unfold tileAt
      rw [List.getD_eq_getElem _ _ hs.1]
      exact List.getElem_mem _
    obtain ⟨m, hmm, he⟩ := List.mem_map.1 h1
    rw [← he]
    exact hm m hmm
  rw [hrep.pos_eq hj, hrep.getPiece_eq]
  refine ⟨hs.2.1, ?_, shl64_eq_shiftLeft_of_fit hlt (fun k hk => (hfit k hk).1), ?_, ?_⟩
  · intro tx ty htx hty hbit
    have := htile.2.2 (ty * 8 + tx) (by omega) hbit
    have h3 := hs.2.2.1
    have h4 := hs.2.2.2.1
    omega
  · intro k
    rw [hrep.placedMask_eq hj]
    constructor
    · intro hk
      have hk64 : k < 64 := testBit_of_lt_two_pow64 (stepMask_lt _ _ _) hk
      have hmem : k ∈ cells (stepMask (masks.map Tile.ctor) j os[j]) := mem_cells.2 ⟨hk64, hk⟩
      unfold stepMask at hmem
      rw [cells_shl64_of_fit (fun k hk => (hfit k hk).1), Finset.mem_image] at hmem
      obtain ⟨u, hu, rfl⟩ := hmem
      obtain ⟨hu64, hub⟩ := mem_cells.1 hu
      refine ⟨u % 8, u / 8, by omega, by omega, ?_, by omega⟩
      have : u / 8 * 8 + u % 8 = u := by omega
      rw [this]; exact hub
    · rintro ⟨tx, ty, htx, hty, hbit, rfl⟩
      have hu : ty * 8 + tx ∈ cells (tileAt (masks.map Tile.ctor) j).repr :=
        mem_cells.2 ⟨by omega, hbit⟩
      have hmem : (ty * 8 + tx) + os[j] ∈ cells (stepMask (masks.map Tile.ctor) j os[j]) := by
        unfold stepMask
        rw [cells_shl64_of_fit (fun k hk => (hfit k hk).1)]
        exact Finset.mem_image_of_mem _ hu
      have e : (ty + os[j] / 8) * 8 + (tx + os[j] % 8) = (ty * 8 + tx) + os[j] := by omega
      rw [e]
      exact (mem_cells.1 hmem).2
  · intro j2 hj2
    have hj2' : j2 < os.length := by omega
    rw [hrep.placedMask_eq hj, hrep.placedMask_eq hj2']
    exact hval.disjoint_at hj hj2' hj2

set_option maxRecDepth 100000 in
/-- The two half-board tiles, both placed: the second tile sits at origin 4. -/
theorem placement_invariant_witness :
    ((((boardOf [0x0F0F0F0F0F0F0F0F, 0x0F0F0F0F0F0F0F0F]).place 0x0F0F0F0F0F0F0F0F 0).place
      0x0F0F0F0F0F0F0F0F 4).history.get 1).pos ≤ 63 :=
  (placement_invariant [0x0F0F0F0F0F0F0F0F, 0x0F0F0F0F0F0F0F0F] (by decide) (by decide)
    (((boardOf [0x0F0F0F0F0F0F0F0F, 0x0F0F0F0F0F0F0F0F]).place 0x0F0F0F0F0F0F0F0F 0).place
      0x0F0F0F0F0F0F0F0F 4)
    (Or.inl ⟨false, true, by decide⟩) 1 (by decide)).1

end Tetromino

namespace Tetromino

theorem Rep.cover_unique {tiles : List Tile} {os : List Nat} {b : Board}
    (h : Rep tiles os b) (hv : Valid tiles os) (hfull : b.occ = 2 ^ 64 - 1) (c : Nat)
    (hc : c < 64) : ∃! j, j < b.piece_index ∧ (placedMask b j).testBit c = true := by
  have hmem : c ∈ cells (occFrom tiles 0 0 os) := by
    rw [← h.occ, hfull]
    exact mem_cells.2 ⟨hc, by rw [Nat.testBit_two_pow_sub_one]; simpa using hc⟩
  rcases mem_cells_occFrom tiles os 0 0 c hmem with h0 | ⟨d, hd, hcd⟩
  · simp [mem_cells] at h0
  · rw [Nat.zero_add] at hcd
    refine ⟨d, ⟨by rw [h.idx]; exact hd, ?_⟩, ?_⟩
    · rw [h.placedMask_eq hd]; exact (mem_cells.1 hcd).2
    · rintro j ⟨hj, hjc⟩
      rw [h.idx] at hj
      rw [h.placedMask_eq hj] at hjc
      by_contra hne
      have hdis : stepMask tiles j os[j] &&& stepMask tiles d os[d] = 0 := by
        rcases Nat.lt_or_gt_of_ne hne with hlt | hgt
        · exact hv.disjoint_at hd hj hlt
        · rw [Nat.and_comm]; exact hv.disjoint_at hj hd hgt
      have := congrArg (fun m => m.testBit c) hdis
      simp only [Nat.testBit_and, hjc, (mem_cells.1 hcd).2, Nat.zero_testBit] at this
      exact absurd this (by decide)

/-- C1: soundness of `solve`. For non-zero 64-bit masks whose popcounts sum to 64
(extents from `Tile::Tile`), every board in the run of `solve` on
`Board(tiles)` that is `done()`, which is where a solution is counted, has all
64 bits of `occ` set, its placed tiles are pairwise disjoint, and every cell
of the grid lies in exactly one placed tile. -/
theorem solve_sound (masks : List Nat) (hnz : ∀ m ∈ masks, m ≠ 0 ∧ m < 2 ^ 64)
    (hsum : (masks.map BIT_COUNT).sum = 64) (one_solution silent : Bool) (b : Board)
    (hb : b ∈ (solve (boardOf masks) 0 one_solution silent).2.visited)
    (hd : b.done = true) :
    b.occ = 2 ^ 64 - 1 ∧
    (∀ j k, j < k → k < b.piece_index → placedMask b j &&& placedMask b k = 0) ∧
    (∀ c, c < 64 → ∃! j, j < b.piece_index ∧ (placedMask b j).testBit c = true) := by
  have hg := GoodTiles.of_map masks
  have hlen := masks_length_le hnz (le_of_eq hsum)
  obtain ⟨os, hrep, hval⟩ := reachable_rep hlen hg (Or.inl ⟨one_solution, silent, hb⟩)
  have hfull : b.occ = 2 ^ 64 - 1 :=
    hrep.done_full hg hval hd (by rw [map_ctor_count]; exact hsum)
  refine ⟨hfull, ?_, hrep.cover_unique hval hfull⟩
  intro j k hjk hk
  rw [hrep.idx] at hk
  have hj : j < os.length := by omega
  rw [hrep.placedMask_eq hk, hrep.placedMask_eq hj]
  exact hval.disjoint_at hk hj hjk

set_option maxRecDepth 100000 in
/-- The two half-board tiles: the solved board is reached and is full. -/
theorem solve_sound_witness :
    (((boardOf [0x0F0F0F0F0F0F0F0F, 0x0F0F0F0F0F0F0F0F]).place 0x0F0F0F0F0F0F0F0F 0).place
      0x0F0F0F0F0F0F0F0F 4).occ = 2 ^ 64 - 1 :=
  (solve_sound [0x0F0F0F0F0F0F0F0F, 0x0F0F0F0F0F0F0F0F] (by decide) (by decide) false true
    (((boardOf [0x0F0F0F0F0F0F0F0F, 0x0F0F0F0F0F0F0F0F]).place 0x0F0F0F0F0F0F0F0F 0).place
      0x0F0F0F0F0F0F0F0F 4) (by decide) (by decide)).1

end Tetromino

namespace Tetromino

/-- C8, amended: for non-zero king-connected tiles whose popcounts sum to 64, the
number of solutions counted in enumerate-all mode does not depend on when the
region check runs: any gate, in particular threshold 0 (always), threshold 32
(as coded) and never, gives the count of `solve`. -/
theorem gate_independent (masks : List Nat) (hnz : ∀ m ∈ masks, m ≠ 0 ∧ m < 2 ^ 64)
    (hsum : (masks.map BIT_COUNT).sum = 64) (hk : ∀ m ∈ masks, kingConnected m = true)
    (gate : Nat → Bool) (silent : Bool) :
    (solveGated gate masks.length false silent ⟨boardOf masks, 0, [], []⟩).2.solution_count =
      (solve (boardOf masks) 0 false silent).2.solution_count := by
  have hg := GoodTiles.of_map masks
  have hlen := masks_length_le hnz (le_of_eq hsum)
  have hsum' : ((masks.map Tile.ctor).map (fun t => BIT_COUNT t.repr)).sum = 64 := by
    rw [map_ctor_count]; exact hsum
  have hfuel : (boardOf masks).pieces.length - (boardOf masks).piece_index = masks.length := by
    simp [boardOf, Board.ctor]
  unfold solve
  rw [hfuel]
  unfold boardOf
  rw [solve_count_eq hlen gate silent (Rep.ctor _) (by simp) 0 masks.length,
    solve_count_eq hlen codedGate silent (Rep.ctor _) (by simp) 0 masks.length,
    aTree_prune_indep hg (soundPrune_aPruned hg hlen hsum' (kconn_tiles hk) gate)
      (soundPrune_aPruned hg hlen hsum' (kconn_tiles hk) codedGate) masks.length []
      (Valid.nil _) (by simp)]

set_option maxRecDepth 100000 in
/-- Two half-board tiles: running the region check never also counts one solution. -/
theorem gate_independent_witness :
    (solveGated (fun _ => false) 2 false true
      ⟨boardOf [0x0F0F0F0F0F0F0F0F, 0x0F0F0F0F0F0F0F0F], 0, [], []⟩).2.solution_count = 1 :=
  (gate_independent [0x0F0F0F0F0F0F0F0F, 0x0F0F0F0F0F0F0F0F] (by decide) (by decide) (by decide)
    (fun _ => false) true).trans (by decide)

set_option maxRecDepth 100000 in
/-- C8 as stated fails: for the sorted list of two copies of the tile made of the
four even columns (not king-connected), `solve` with the coded gate counts no
solution, and with the region check never run it counts one. -/
theorem gate_independent_counterexample :
    SortedTiles ([0x5555555555555555, 0x5555555555555555].map Tile.ctor) ∧
    (solve (boardOf [0x5555555555555555, 0x5555555555555555]) 0 false true).2.solution_count = 0 ∧
    (solveGated (fun _ => false) 2 false true
      ⟨boardOf [0x5555555555555555, 0x5555555555555555], 0, [], []⟩).2.solution_count = 1 := by
  refine ⟨by decide, by decide, by decide⟩

end Tetromino

namespace Tetromino

/-- C2, amended: completeness of `solve`. For non-zero king-connected 64-bit masks
(extents from `Tile::Tile`), if some exact tiling of the board places the first
tile in the canonical octant and every tile equal to its predecessor at a
strictly larger origin, then `solve` on `Board(tiles)` returns true in
one-solution mode and in enumerate-all mode, where the counter ends at least 1. -/
theorem solve_complete (masks os : List Nat) (hnz : ∀ m ∈ masks, m ≠ 0 ∧ m < 2 ^ 64)
    (hk : ∀ m ∈ masks, kingConnected m = true) (ht : IsTiling masks os)
    (hc : Canonical masks os) (silent : Bool) :
    (solve (boardOf masks) 0 true silent).1 = true ∧
    (solve (boardOf masks) 0 false silent).1 = true ∧
    1 ≤ (solve (boardOf masks) 0 false silent).2.solution_count := by
  have hg := GoodTiles.of_map masks
  have hv := valid_of_tiling ht hc
  have hsum := tiling_sum ht hv
  have hlen := masks_length_le hnz (le_of_eq hsum)
  have hsum' : ((masks.map Tile.ctor).map (fun t => BIT_COUNT t.repr)).sum = 64 := by
    rw [map_ctor_count]; exact hsum
  have hfuel : (boardOf masks).pieces.length - (boardOf masks).piece_index = masks.length := by
    simp [boardOf, Board.ctor]
  have hmem : os ∈ aTree (masks.map Tile.ctor) (aPruned (masks.map Tile.ctor) codedGate)
      masks.length [] := by
    rw [aTree_prune_indep hg (soundPrune_aPruned hg hlen hsum' (kconn_tiles hk) codedGate)
      (soundPrune_never _) masks.length [] (Valid.nil _) (by simp)]
    have := mem_aTree_of_valid hg os [] (by simpa using hv) (by simpa using ht.1)
    rw [ht.1] at this
    simpa using this
  have hne : (aTree (masks.map Tile.ctor) (aPruned (masks.map Tile.ctor) codedGate)
      masks.length []).isEmpty = false := by
    cases h : aTree (masks.map Tile.ctor) (aPruned (masks.map Tile.ctor) codedGate)
      masks.length [] with
    | nil => rw [h] at hmem; simp at hmem
    | cons a l => rfl
  unfold solve
  rw [hfuel]
  unfold boardOf
  rw [solve_result_eq hlen codedGate true silent (Rep.ctor _) (by simp) 0 masks.length,
    solve_result_eq hlen codedGate false silent (Rep.ctor _) (by simp) 0 masks.length,
    solve_count_eq hlen codedGate silent (Rep.ctor _) (by simp) 0 masks.length, hne]
  refine ⟨rfl, rfl, ?_⟩
  have := List.length_pos_of_mem hmem
  omega

set_option maxRecDepth 100000 in
/-- Two half-board tiles at origins 0 and 4 form a canonical exact tiling, and
`solve` finds a solution. -/
theorem solve_complete_witness :
    (solve (boardOf [0x0F0F0F0F0F0F0F0F, 0x0F0F0F0F0F0F0F0F]) 0 true true).1 = true :=
  (solve_complete [0x0F0F0F0F0F0F0F0F, 0x0F0F0F0F0F0F0F0F] [0, 4] (by decide) (by decide)
    (by decide) (by decide) true).1

set_option maxRecDepth 100000 in
/-- C2 as stated fails in two ways. (1) The sorted, anchored, king-connected tiles
`0x00FFFFFFFFFFFF7F` (rows 0 to 6 without the cell (7,0)) and `0x80FF` tile the
board only with the first tile at origin 8, outside the octant, and `solve`
returns false in both modes. (2) Two copies of the even-columns tile tile the
board at origins 0 and 1, inside the octant and in increasing order, but the
tile is not king-connected and `solve` returns false. -/
theorem solve_complete_counterexample :
    (SortedTiles ([0x00FFFFFFFFFFFF7F, 0x80FF].map Tile.ctor) ∧
      Anchored 0x00FFFFFFFFFFFF7F ∧ Anchored 0x80FF ∧
      IsTiling [0x00FFFFFFFFFFFF7F, 0x80FF] [8, 0] ∧
      (solve (boardOf [0x00FFFFFFFFFFFF7F, 0x80FF]) 0 true true).1 = false ∧
      (solve (boardOf [0x00FFFFFFFFFFFF7F, 0x80FF]) 0 false true).1 = false) ∧
    (SortedTiles ([0x5555555555555555, 0x5555555555555555].map Tile.ctor) ∧
      Anchored 0x5555555555555555 ∧
      IsTiling [0x5555555555555555, 0x5555555555555555] [0, 1] ∧
      Canonical [0x5555555555555555, 0x5555555555555555] [0, 1] ∧
      (solve (boardOf [0x5555555555555555, 0x5555555555555555]) 0 true true).1 = false ∧
      (solve (boardOf [0x5555555555555555, 0x5555555555555555]) 0 false true).1 = false) := by
  refine ⟨⟨by decide, by decide, by decide, by decide, by decide, by decide⟩,
    ⟨by decide, by decide, by decide, by decide, by decide, by decide⟩⟩

set_option maxRecDepth 100000 in
/-- C9: the single one-cell tile. Its popcount is 1, not 64, and `solve` in
enumerate-all mode returns true and counts 10 solutions, one for each origin
of the octant. -/
theorem monomino_counted :
    ([1].map BIT_COUNT).sum = 1 ∧
    (solve (boardOf [1]) 0 false true).1 = true ∧
    (solve (boardOf [1]) 0 false true).2.solution_count = 10 := by
  refine ⟨by decide, by decide, by decide⟩

end Tetromino

namespace Tetromino

theorem tileBefore_false_iff (b a : Tile) :
    tileBefore b a = false ↔
      BIT_COUNT b.repr < BIT_COUNT a.repr ∨
        (BIT_COUNT b.repr = BIT_COUNT a.repr ∧ b.repr ≤ a.repr) := by
  unfold tileBefore
  rw [toUInt8_BIT_COUNT, toUInt8_BIT_COUNT]
  by_cases h : BIT_COUNT b.repr = BIT_COUNT a.repr
  · simp [h]
  · simp [h]; omega

theorem sorted_block {tiles : List Tile} (hs : SortedTiles tiles) {k l j : Nat}
    (hkl : k ≤ l) (hlj : l ≤ j) (hj : j < tiles.length)
    (he : (tileAt tiles k).repr = (tileAt tiles j).repr) :
    (tileAt tiles l).repr = (tileAt tiles j).repr := by
  have hk : k < tiles.length := by omega
  have hl : l < tiles.length := by omega
  have ek : tileAt tiles k = tiles[k] := List.getD_eq_getElem _ _ hk
  have el : tileAt tiles l = tiles[l] := List.getD_eq_getElem _ _ hl
  have ej : tileAt tiles j = tiles[j] := List.getD_eq_getElem _ _ hj
  rw [ek, ej] at he
  rw [el, ej]
  have hp := List.pairwise_iff_getElem.1 hs
  rcases Nat.eq_or_lt_of_le hkl with rfl | hkl'
  · exact he
  rcases Nat.eq_or_lt_of_le hlj with rfl | hlj'
  · rfl
  have h1 := (tileBefore_false_iff _ _).1 (hp k l hk hl hkl')
  have h2 := (tileBefore_false_iff _ _).1 (hp l j hl hj hlj')
  have hc : BIT_COUNT tiles[k].repr = BIT_COUNT tiles[j].repr := by rw [he]
  omega

theorem Valid.block_mono {tiles : List Tile} (hs : SortedTiles tiles) {o : List Nat}
    (hv : Valid tiles o) :
    ∀ (d k : Nat) (hk : k < o.length) (hj : k + d + 1 < o.length),
      (tileAt tiles k).repr = (tileAt tiles (k + d + 1)).repr → o[k] < o[k + d + 1] := by
  intro d
  induction d with
  | zero =>
    intro k hk hj he
    have hst := hv.stepOK_at hj
    have := hst.2.2.2.2.2.2 (by omega) (by
      simp only [Tile.beq, beq_iff_eq, Nat.add_sub_cancel]
      exact he.symm)
    rw [aLast_take hj (by omega) (by omega)] at this
    simpa using this
  | succ d ih =>
    intro k hk hj he
    have hlen := hv.length_le
    have hmid : (tileAt tiles (k + d + 1)).repr = (tileAt tiles (k + (d + 1) + 1)).repr :=
      sorted_block hs (by omega) (by omega) (by omega) he
    have hj1 : k + d + 1 < o.length := by omega
    have h1 := ih k hk hj1 (he.trans hmid.symm)
    have hst := hv.stepOK_at hj
    have h2 := hst.2.2.2.2.2.2 (by omega) (by
      simp only [Tile.beq, beq_iff_eq]
      have : k + (d + 1) + 1 - 1 = k + d + 1 := by omega
      rw [this]
      exact hmid.symm)
    rw [aLast_take hj (by omega) (by omega)] at h2
    have e : k + (d + 1) + 1 - 1 = k + d + 1 := by omega
    simp only [e] at h2
    omega

theorem Valid.block_lt {tiles : List Tile} (hs : SortedTiles tiles) {o : List Nat}
    (hv : Valid tiles o) {k j : Nat} (hkj : k < j) (hk : k < o.length) (hj : j < o.length)
    (he : (tileAt tiles k).repr = (tileAt tiles j).repr) : o[k] < o[j] := by
  obtain ⟨d, rfl⟩ : ∃ d, j = k + d + 1 := ⟨j - k - 1, by omega⟩
  exact hv.block_mono hs d k hk hj he

theorem mem_pairsOf {tiles : List Tile} {o : List Nat} {x : Nat × Nat} :
    x ∈ pairsOf tiles o ↔ ∃ k, ∃ hk : k < o.length, x = ((tileAt tiles k).repr, o[k]) := by
  unfold pairsOf
  rw [List.mem_map]
  constructor
  · rintro ⟨k, hk, rfl⟩
    rw [List.mem_range] at hk
    exact ⟨k, hk, by rw [List.getD_eq_getElem _ _ hk]⟩
  · rintro ⟨k, hk, rfl⟩
    exact ⟨k, List.mem_range.2 hk, by rw [List.getD_eq_getElem _ _ hk]⟩

/-- Two valid states of the same length over a sorted tile list with the same
set of (mask, origin) pairs are equal. -/
theorem pairs_inj {tiles : List Tile} (hs : SortedTiles tiles) {o1 o2 : List Nat}
    (h1 : Valid tiles o1) (h2 : Valid tiles o2) (hl : o1.length = o2.length)
    (hp : ∀ x, x ∈ pairsOf tiles o1 ↔ x ∈ pairsOf tiles o2) : o1 = o2 := by
  apply List.ext_getElem hl
  intro j
  induction j using Nat.strong_induction_on with
  | _ j ih =>
    intro hj1 hj2
    by_contra hne
    have m1 : ((tileAt tiles j).repr, o1[j]) ∈ pairsOf tiles o2 :=
      (hp _).1 (mem_pairsOf.2 ⟨j, hj1, rfl⟩)
    have m2 : ((tileAt tiles j).repr, o2[j]) ∈ pairsOf tiles o1 :=
      (hp _).2 (mem_pairsOf.2 ⟨j, hj2, rfl⟩)
    obtain ⟨k, hk, ek⟩ := mem_pairsOf.1 m1
    obtain ⟨k2, hk2, ek2⟩ := mem_pairsOf.1 m2
    simp only [Prod.mk.injEq] at ek ek2
    have hk' : k < o1.length := by omega
    have hk2' : k2 < o2.length := by omega
    have a1 : o2[j] < o1[j] := by
      rcases Nat.lt_trichotomy k j with hlt | heq | hgt
      · exfalso
        have := ih k hlt hk' hk
        have hb := h1.block_lt hs hlt hk' hj1 ek.1.symm
        omega
      · subst heq
        exact absurd ek.2 hne
      · have hb := h2.block_lt hs hgt hj2 hk ek.1
        omega
    have a2 : o1[j] < o2[j] := by
      rcases Nat.lt_trichotomy k2 j with hlt | heq | hgt
      · exfalso
        have := ih k2 hlt hk2 hk2'
        have hb := h2.block_lt hs hlt hk2' hj2 ek2.1.symm
        omega
      · subst heq
        exact absurd ek2.2.symm hne
      · have hb := h1.block_lt hs hgt hj1 hk2 ek2.1
        omega
    omega

end Tetromino

namespace Tetromino

theorem aTree_prefix (tiles : List Tile) (prune : List Nat → Bool) :
    ∀ (fuel : Nat) (os o : List Nat), o ∈ aTree tiles prune fuel os → ∃ rest, o = os ++ rest := by
  intro fuel
  induction fuel with
  | zero =>
    intro os o h
    simp only [aTree] at h
    split at h
    · simp only [List.mem_singleton] at h; exact ⟨[], by simp [h]⟩
    · simp at h
  | succ fuel ih =>
    intro os o h
    simp only [aTree] at h
    split at h
    · simp only [List.mem_singleton] at h; exact ⟨[], by simp [h]⟩
    · split at h
      · simp at h
      · obtain ⟨i, -, ho⟩ := List.mem_flatMap.1 h
        obtain ⟨rest, hr⟩ := ih _ _ ho
        exact ⟨i :: rest, by rw [hr]; simp⟩

theorem aCands_nodup {tiles : List Tile} {os : List Nat} (hv : Valid tiles os)
    (ht : TileOK (tileAt tiles os.length)) : (aCands tiles os).Nodup := by
  rw [← gCands_eq_aCands hv ht]
  unfold gCands
  exact (List.nodup_range' _ _).filter _

/-- The depth-first search lists every complete state once. -/
theorem aTree_nodup {tiles : List Tile} (hg : GoodTiles tiles) (prune : List Nat → Bool) :
    ∀ (fuel : Nat) (os : List Nat), Valid tiles os → os.length ≤ tiles.length →
      (aTree tiles prune fuel os).Nodup := by
  intro fuel
  induction fuel with
  | zero =>
    intro os _ _
    simp only [aTree]
    split <;> simp
  | succ fuel ih =>
    intro os hv hle
    simp only [aTree]
    split
    · simp
    · rename_i hd
      have hlt : os.length < tiles.length := by
        simp only [beq_iff_eq] at hd
        omega
      split
      · simp
      · rw [List.nodup_flatMap]
        constructor
        · intro i hi
          exact ih (os ++ [i]) (hv.cand hg hlt hi) (by simp; omega)
        · apply (aCands_nodup hv (hg.tileAt hlt)).pairwise_of_forall_ne
          intro a _ b _ hab
          simp only [Function.onFun]
          rw [List.disjoint_left]
          intro o ho1 ho2
          obtain ⟨r1, e1⟩ := aTree_prefix tiles prune fuel _ o ho1
          obtain ⟨r2, e2⟩ := aTree_prefix tiles prune fuel _ o ho2
          rw [e1] at e2
          simp only [List.append_assoc, List.singleton_append, List.append_cancel_left_eq,
            List.cons.injEq] at e2
          exact hab e2.1

theorem Rep.boardPairs_eq {tiles : List Tile} {o : List Nat} {b : Board} (h : Rep tiles o b) :
    boardPairs b = pairsOf tiles o := by
  unfold boardPairs pairsOf
  rw [h.idx]
  apply List.map_congr_left
  intro j hj
  rw [List.mem_range] at hj
  rw [h.getPiece_eq, h.pos_eq hj, List.getD_eq_getElem _ _ hj]

/-- C10: duplicate ordering. For a tile list sorted as `main` sorts it (at most 64
tiles): on every reachable board a placed piece equal to its predecessor has
a strictly larger origin; and in enumerate-all mode the boards written for
the counted solutions are as many as the counter says and no two of them
have the same set of (tile mask, origin) pairs. -/
theorem duplicate_ordering (masks : List Nat) (hlen : masks.length ≤ 64)
    (hs : SortedTiles (masks.map Tile.ctor)) :
    (∀ b, Reachable (masks.map Tile.ctor) b → ∀ j, j < b.piece_index → 0 < j →
      (b.getPiece j).beq (b.getPiece (j - 1)) = true →
        (b.history.get (j - 1)).pos < (b.history.get j).pos) ∧
    (solve (boardOf masks) 0 false false).2.out.length =
      (solve (boardOf masks) 0 false false).2.solution_count ∧
    (∀ a c (ha : a < (solve (boardOf masks) 0 false false).2.out.length)
      (hc : c < (solve (boardOf masks) 0 false false).2.out.length), a < c →
      ¬ ∀ x, x ∈ boardPairs ((solve (boardOf masks) 0 false false).2.out[a]) ↔
          x ∈ boardPairs ((solve (boardOf masks) 0 false false).2.out[c])) := by
  have hg := GoodTiles.of_map masks
  have hlen' : (masks.map Tile.ctor).length ≤ 64 := by simpa using hlen
  refine ⟨?_, ?_⟩
  · intro b hb j hj h0 hbeq
    obtain ⟨os, hrep, hval⟩ := reachable_rep hlen' hg hb
    rw [hrep.idx] at hj
    have hj1 : j - 1 < os.length := by omega
    have hst := hval.stepOK_at hj
    rw [hrep.getPiece_eq, hrep.getPiece_eq] at hbeq
    have := hst.2.2.2.2.2.2 h0 hbeq
    rw [aLast_take hj h0 hj1] at this
    rw [hrep.pos_eq hj, hrep.pos_eq hj1]
    exact this
  · have hspec := solveGated_spec (masks.map Tile.ctor) codedGate false false hlen'
      ((boardOf masks).pieces.length - (boardOf masks).piece_index) []
      ⟨boardOf masks, 0, [], []⟩ (Rep.ctor _) (by simp)
    obtain ⟨new, hnew, hfa⟩ := hspec.out
    have hcount := hspec.count
    simp only [found, Bool.false_eq_true, if_false, List.nil_append, Nat.zero_add] at hnew hfa hcount
    have hout : (solve (boardOf masks) 0 false false).2.out = new := hnew
    have hlenfa := hfa.length_eq
    constructor
    · rw [hout, ← hlenfa]
      exact hcount.symm
    · intro a c ha hc hac hpairs
      have hnd := aTree_nodup hg (aPruned (masks.map Tile.ctor) codedGate)
        ((boardOf masks).pieces.length - (boardOf masks).piece_index) [] (Valid.nil _) (by simp)
      generalize (solve (boardOf masks) 0 false false).2.out = outl at hout ha hc hpairs
      subst hout
      have ha' : a < (aTree (masks.map Tile.ctor) (aPruned (masks.map Tile.ctor) codedGate)
          ((boardOf masks).pieces.length - (boardOf masks).piece_index) []).length := by omega
      have hc' : c < (aTree (masks.map Tile.ctor) (aPruned (masks.map Tile.ctor) codedGate)
          ((boardOf masks).pieces.length - (boardOf masks).piece_index) []).length := by omega
      have hra := (List.forall₂_iff_get.1 hfa).2 a ha' ha
      have hrc := (List.forall₂_iff_get.1 hfa).2 c hc' hc
      simp only [List.get_eq_getElem] at hra hrc
      obtain ⟨-, hva, hla⟩ := aTree_complete hg _ _ [] _ (Valid.nil _) (by simp)
        (List.getElem_mem ha')
      obtain ⟨-, hvc, hlc⟩ := aTree_complete hg _ _ [] _ (Valid.nil _) (by simp)
        (List.getElem_mem hc')
      rw [hra.boardPairs_eq, hrc.boardPairs_eq] at hpairs
      have heq := pairs_inj hs hva hvc (by rw [hla, hlc]) hpairs
      have := (hnd.getElem_inj_iff).1 heq
      omega

set_option maxRecDepth 100000 in
/-- Two half-board tiles: the list is sorted, one solution is counted and written. -/
theorem duplicate_ordering_witness :
    (solve (boardOf [0x0F0F0F0F0F0F0F0F, 0x0F0F0F0F0F0F0F0F]) 0 false false).2.out.length = 1 :=
  (duplicate_ordering [0x0F0F0F0F0F0F0F0F, 0x0F0F0F0F0F0F0F0F] (by decide)
    (by decide)).2.1.trans (by decide)

end Tetromino

namespace Tetromino

set_option maxRecDepth 100000 in
/-- C14: eight horizontal strips `0xFF`. In enumerate-all mode `solve` on
`Board(tiles)` returns true and counts exactly one solution, and the one board
it prints has all 8 pieces placed, piece `j` at origin `8 * j` for
`j = 0 .. 7`. The three components are the result, the counter and the
printed boards of the one run. -/
theorem eight_strips :
    (fun res : Bool × Run =>
        (res.1, res.2.solution_count,
          res.2.out.map fun b => (b.piece_index, (List.range 8).map fun j => (b.history.get j).pos)))
      (solve (boardOf (List.replicate 8 0xFF)) 0 false false)
      = (true, 1, [(8, [0, 8, 16, 24, 32, 40, 48, 56])]) := by
  decide

set_option maxRecDepth 100000 in
/-- C15: sixteen 2×2 squares (mask `0x303`). The board that `solve` prints for
the first solution, rendered with `use_ansi_colors` and `use_block_characters`
set and `use_flat_output` clear, takes 751 characters before the terminating
NUL, more than the 744 that fit the 745-byte buffer; without block characters
the same board takes 727 characters. -/
theorem render_overflow :
    (solve (boardOf (List.replicate 16 0x303)) 0 true false).2.out.map
      (fun b => ((render b true true false).length, (render b true false false).length))
        = [(751, 727)] := by
  decide

end Tetromino

namespace Tetromino

/-- C16, amended: the suffix parity table. For every tile list of at most 64
tiles whose values `|black − white|` sum to at most 127 (the range of the
`int8_t` accumulator), `Board::Board` sets `suffix_max_imbalance[i]` to the
exact sum of `|black − white|` over the tiles `i .. len - 1`, for every
`i < len`, and `suffix_max_imbalance[len]` to 0. -/
theorem suffix_parity_table (tiles : List Tile) (hlen : tiles.length ≤ 64)
    (hsum : ((tiles.map fun t => |imbalance t.repr|).sum) ≤ 127) :
    (∀ i, i < tiles.length →
      (Board.ctor tiles).suffix_max_imbalance.getD i 0
        = ((tiles.drop i).map fun t => |imbalance t.repr|).sum) ∧
    (Board.ctor tiles).suffix_max_imbalance.getD tiles.length 0 = 0 := by
  have h0 : sufImb tiles 0 ≤ 127 := by
    unfold sufImb; rw [List.drop_zero]; exact hsum
  refine ⟨fun i hi => ?_, ?_⟩
  · exact suffix_max_imbalance_spec tiles (by omega) h0 i (by omega)
  · rw [suffix_max_imbalance_spec tiles (by omega) h0 tiles.length (le_refl _), sufImb_length]

/-- Two dominoes and a square: the table is `[4, 2, 0]` before the final zero. -/
theorem suffix_parity_table_witness :
    (Board.ctor ([0x303, 0x5, 0x5].map Tile.ctor)).suffix_max_imbalance.getD 1 0
      = ((([0x303, 0x5, 0x5].map Tile.ctor).drop 1).map fun t => |imbalance t.repr|).sum :=
  (suffix_parity_table ([0x303, 0x5, 0x5].map Tile.ctor) (by decide) (by decide)).1 1 (by decide)

/-- C16 as stated fails: four tiles that each cover the 32 black cells give the
exact sum 128 at index 0, and the `int8_t` accumulator stores -128. -/
theorem suffix_parity_table_counterexample :
    ([0xAA55AA55AA55AA55, 0xAA55AA55AA55AA55, 0xAA55AA55AA55AA55, 0xAA55AA55AA55AA55].map
        Tile.ctor).length ≤ 64 ∧
    (([0xAA55AA55AA55AA55, 0xAA55AA55AA55AA55, 0xAA55AA55AA55AA55, 0xAA55AA55AA55AA55].map
        Tile.ctor).map fun t => |imbalance t.repr|).sum = 128 ∧
    (boardOf [0xAA55AA55AA55AA55, 0xAA55AA55AA55AA55, 0xAA55AA55AA55AA55,
        0xAA55AA55AA55AA55]).suffix_max_imbalance.getD 0 0 = -128 := by
  refine ⟨by decide, by decide, by decide⟩

/-- C17, amended: the suffix minimum table. For every tile list of at most 64
tiles (non-empty or not), `Board::Board` sets `suffix_min_size[i]`, for every `i < len`,
to the minimum of the popcounts of the tiles `i .. len - 1` (a lower bound of
all of them that one of them attains), and the entry `suffix_min_size[len]` is
0, the value `resize` left there. -/
theorem suffix_min_table (tiles : List Tile) (hlen : tiles.length ≤ 64) :
    (∀ i, i < tiles.length →
      (∀ j, i ≤ j → j < tiles.length →
        (Board.ctor tiles).suffix_min_size.getD i 0 ≤ BIT_COUNT (tiles.getD j default).repr) ∧
      (∃ j, i ≤ j ∧ j < tiles.length ∧
        (Board.ctor tiles).suffix_min_size.getD i 0 = BIT_COUNT (tiles.getD j default).repr)) ∧
    (Board.ctor tiles).suffix_min_size.getD tiles.length 0 = 0 := by
  refine ⟨fun i hi => ?_, suffix_min_size_last tiles (by omega)⟩
  rw [suffix_min_size_spec tiles (by omega) i hi]
  refine ⟨fun j hij hj => sufMin_le tiles i j hij hj, ?_⟩
  exact sufMin_attained tiles (tiles.length - i - 1) i (by omega)

/-- A square, a domino and a single cell: the table is `[1, 1, 1, 0]`. -/
theorem suffix_min_table_witness :
    (∀ i, i < ([0x303, 0x3, 0x1].map Tile.ctor).length →
      (∀ j, i ≤ j → j < ([0x303, 0x3, 0x1].map Tile.ctor).length →
        (Board.ctor ([0x303, 0x3, 0x1].map Tile.ctor)).suffix_min_size.getD i 0
          ≤ BIT_COUNT (([0x303, 0x3, 0x1].map Tile.ctor).getD j default).repr) ∧
      (∃ j, i ≤ j ∧ j < ([0x303, 0x3, 0x1].map Tile.ctor).length ∧
        (Board.ctor ([0x303, 0x3, 0x1].map Tile.ctor)).suffix_min_size.getD i 0
          = BIT_COUNT (([0x303, 0x3, 0x1].map Tile.ctor).getD j default).repr)) ∧
    (Board.ctor ([0x303, 0x3, 0x1].map Tile.ctor)).suffix_min_size.getD
      ([0x303, 0x3, 0x1].map Tile.ctor).length 0 = 0 :=
  suffix_min_table ([0x303, 0x3, 0x1].map Tile.ctor) (by decide)

/-- C17 as stated fails: for the single tile `0xFF` the entry
`suffix_min_size[len]` is 0, which is not greater than any component size
(components have between 1 and 64 cells). -/
theorem suffix_min_table_counterexample :
    (boardOf [0xFF]).suffix_min_size.getD (boardOf [0xFF]).pieces.length 0 = 0 ∧
    ¬ ∃ c, 1 ≤ c ∧ c ≤ 64 ∧
      c < (boardOf [0xFF]).suffix_min_size.getD (boardOf [0xFF]).pieces.length 0 := by
  have h : (boardOf [0xFF]).suffix_min_size.getD (boardOf [0xFF]).pieces.length 0 = 0 := by
    decide
  refine ⟨h, ?_⟩
  rw [h]
  rintro ⟨c, h1, -, h3⟩
  omega

end Tetromino

namespace Tetromino

theorem Rep.sameState {tiles : List Tile} {os : List Nat} {b b2 : Board}
    (h : Rep tiles os b) (h2 : Rep tiles os b2) : SameState b b2 :=
  ⟨by rw [h2.occ, h.occ], by rw [h2.idx, h.idx], by rw [h2.ci, h.ci],
    by simp only [PushPopHistoryArray.size]; rw [h2.used, h.used],
    by rw [h2.live, h.live], by rw [h2.pieces, h.pieces]⟩

/-- C20: `solve` in enumerate-all mode restores its board, and so does
`generateTasks`. For every board `b` reachable from `Board(tiles)` (at most 64
tiles, extents from `Tile::Tile`), every counter value and every `silent`, the
board left by `solve(b, count, false, silent)` has the same `occ`,
`piece_index`, `current_imbalance`, history size and live history entries as
`b`; the board left by `generateTasks(b, depth, goal_depth)` too. -/
theorem solve_restores (masks : List Nat) (hlen : masks.length ≤ 64) (b : Board)
    (hb : Reachable (masks.map Tile.ctor) b) :
    (∀ (count : Nat) (silent : Bool), SameState b (solve b count false silent).2.board) ∧
    (∀ depth goal_depth : Nat, SameState b (generateTasks b depth goal_depth).board) := by
  have hg := GoodTiles.of_map masks
  have hlen' : (masks.map Tile.ctor).length ≤ 64 := by simpa using hlen
  obtain ⟨os, hrep, hv⟩ := reachable_rep hlen' hg hb
  have hle := hv.length_le
  constructor
  · intro count silent
    have hspec := solveGated_spec (masks.map Tile.ctor) codedGate false silent hlen'
      (b.pieces.length - b.piece_index) os ⟨b, count, [], []⟩ hrep hle
    have hboard := hspec.board
    simp only [Bool.false_eq_true, if_false] at hboard
    exact hrep.sameState hboard
  · intro depth goal
    have hspec := generateTasksAux_spec (masks.map Tile.ctor) goal hlen' 256 depth os
      ⟨b, [], []⟩ hrep hle
    exact hrep.sameState hspec.board

set_option maxRecDepth 100000 in
/-- Two half boards; the board after the first placement is restored by `solve`
and by `generateTasks`. -/
theorem solve_restores_witness :
    (∀ (count : Nat) (silent : Bool),
      SameState ((boardOf [0x0F0F0F0F0F0F0F0F, 0x0F0F0F0F0F0F0F0F]).place 0x0F0F0F0F0F0F0F0F 0)
        (solve ((boardOf [0x0F0F0F0F0F0F0F0F, 0x0F0F0F0F0F0F0F0F]).place 0x0F0F0F0F0F0F0F0F 0)
          count false silent).2.board) ∧
    (∀ depth goal_depth : Nat,
      SameState ((boardOf [0x0F0F0F0F0F0F0F0F, 0x0F0F0F0F0F0F0F0F]).place 0x0F0F0F0F0F0F0F0F 0)
        (generateTasks
          ((boardOf [0x0F0F0F0F0F0F0F0F, 0x0F0F0F0F0F0F0F0F]).place 0x0F0F0F0F0F0F0F0F 0)
          depth goal_depth).board) :=
  solve_restores [0x0F0F0F0F0F0F0F0F, 0x0F0F0F0F0F0F0F0F] (by decide) _
    (Or.inl ⟨false, true, by decide⟩)

/-- On a board of a valid search state, every occupied cell lies in exactly one
placed tile. -/
theorem Rep.cell_unique {tiles : List Tile} {os : List Nat} {b : Board}
    (h : Rep tiles os b) (hv : Valid tiles os) (c : Nat) (hc : c ∈ cells b.occ) :
    ∃ k, k < b.piece_index ∧ (placedMask b k).testBit c = true ∧
      ∀ j, j < b.piece_index → (placedMask b j).testBit c = true → j = k := by
  rw [h.occ] at hc
  rcases mem_cells_occFrom tiles os 0 0 c hc with h0 | ⟨d, hd, hcd⟩
  · simp [mem_cells] at h0
  · rw [Nat.zero_add] at hcd
    refine ⟨d, by rw [h.idx]; exact hd, ?_, ?_⟩
    · rw [h.placedMask_eq hd]; exact (mem_cells.1 hcd).2
    · intro j hj hjc
      rw [h.idx] at hj
      rw [h.placedMask_eq hj] at hjc
      by_contra hne
      have hdis : stepMask tiles j os[j] &&& stepMask tiles d os[d] = 0 := by
        rcases Nat.lt_or_gt_of_ne hne with hlt | hgt
        · exact hv.disjoint_at hd hj hlt
        · rw [Nat.and_comm]; exact hv.disjoint_at hj hd hgt
      have := congrArg (fun m => m.testBit c) hdis
      simp only [Nat.testBit_and, hjc, (mem_cells.1 hcd).2, Nat.zero_testBit] at this
      exact absurd this (by decide)

theorem and_bit_eq_zero_iff (m c : Nat) (hc : c < 64) :
    m &&& shl64 1 c = 0 ↔ m.testBit c = false := by
  rw [Nat.and_comm, and_eq_zero_iff_disjoint (shl64_lt _ _), cells_bit hc,
    Finset.disjoint_singleton_left, mem_cells]
  simp [hc]

theorem find?_unique (p : Nat → Bool) :
    ∀ (l : List Nat) (k : Nat), k ∈ l → p k = true → (∀ j ∈ l, p j = true → j = k) →
      l.find? p = some k := by
  intro l
  induction l with
  | nil => intro k hk; simp at hk
  | cons a l ih =>
    intro k hk hpk huniq
    cases hpa : p a with
    | true =>
      rw [List.find?_cons_of_pos _ hpa, huniq a (List.mem_cons_self _ _) hpa]
    | false =>
      rw [List.find?_cons_of_neg _ (by simp [hpa])]
      rcases List.mem_cons.1 hk with rfl | hk2
      · rw [hpa] at hpk; exact absurd hpk (by decide)
      · exact ih k hk2 hpk (fun j hj => huniq j (List.mem_cons_of_mem _ hj))

theorem label_ne_question : ∀ n : Fin 26, Char.ofNat (97 + n.1) ≠ '?' := by decide

/-- The value of `getChar` on a cell, through the placed tile that contains the
cell. -/
theorem getChar_eq (b : Board) (x y : Nat) (hx : x ≤ 7) (hy : y ≤ 7) :
    (b.occ.testBit (y * 8 + x) = false → b.getChar x y = '.') ∧
    (∀ k, b.occ.testBit (y * 8 + x) = true → k < b.piece_index →
      (placedMask b k).testBit (y * 8 + x) = true →
      (∀ j, j < b.piece_index → (placedMask b j).testBit (y * 8 + x) = true → j = k) →
      b.getChar x y = Char.ofNat (97 + k % 26)) := by
  have hc : y * 8 + x < 64 := by omega
  constructor
  · intro h
    unfold Board.getChar
    simp only
    rw [if_pos ((and_bit_eq_zero_iff _ _ hc).2 h)]
  · intro k hocc hk hkc huniq
    unfold Board.getChar
    simp only
    rw [if_neg (by rw [and_bit_eq_zero_iff _ _ hc, hocc]; decide)]
    have hp : ∀ j, (shl64 (b.pieces.getD j default).repr (b.history.get j).pos
        &&& shl64 1 (y * 8 + x) != 0) = (placedMask b j).testBit (y * 8 + x) := by
      intro j
      have := and_bit_eq_zero_iff (placedMask b j) _ hc
      unfold placedMask Board.getPiece at this
      unfold placedMask Board.getPiece
      cases hb : (shl64 (b.pieces.getD j default).repr (b.history.get j).pos).testBit
        (y * 8 + x) with
      | true =>
        rw [hb] at this
        simp only [Bool.true_eq_false, iff_false] at this
        simpa using this
      | false =>
        rw [hb] at this
        simpa using this.2 rfl
    simp only [hp]
    have hfind : (List.range b.piece_index).find?
        (fun i => (placedMask b i).testBit (y * 8 + x)) = some k :=
      find?_unique _ _ k (List.mem_range.2 hk) hkc
        (fun j hj hjc => huniq j (List.mem_range.1 hj) hjc)
    rw [hfind]

/-- C13: cell labelling. For every board reachable from `Board(tiles)` (at most
64 tiles, extents from `Tile::Tile`) and every cell `(x, y)` with `x, y ≤ 7`:
`getChar(x, y)` is `'.'` when bit `y * 8 + x` of `occ` is clear; otherwise
exactly one index `k < piece_index` has the cell in its translated mask, and
`getChar(x, y)` is `'a' + (k mod 26)`; it is never `'?'`. -/
theorem getChar_label (masks : List Nat) (hlen : masks.length ≤ 64) (b : Board)
    (hb : Reachable (masks.map Tile.ctor) b) (x y : Nat) (hx : x ≤ 7) (hy : y ≤ 7) :
    (b.occ.testBit (y * 8 + x) = false → b.getChar x y = '.') ∧
    (b.occ.testBit (y * 8 + x) = true →
      ∃ k, k < b.piece_index ∧ (placedMask b k).testBit (y * 8 + x) = true ∧
        (∀ j, j < b.piece_index → (placedMask b j).testBit (y * 8 + x) = true → j = k) ∧
        b.getChar x y = Char.ofNat (97 + k % 26)) ∧
    b.getChar x y ≠ '?' := by
  have hg := GoodTiles.of_map masks
  have hlen' : (masks.map Tile.ctor).length ≤ 64 := by simpa using hlen
  obtain ⟨os, hrep, hv⟩ := reachable_rep hlen' hg hb
  have hc : y * 8 + x < 64 := by omega
  obtain ⟨g1, g2⟩ := getChar_eq b x y hx hy
  have hocc : b.occ.testBit (y * 8 + x) = true →
      ∃ k, k < b.piece_index ∧ (placedMask b k).testBit (y * 8 + x) = true ∧
        (∀ j, j < b.piece_index → (placedMask b j).testBit (y * 8 + x) = true → j = k) ∧
        b.getChar x y = Char.ofNat (97 + k % 26) := by
    intro h
    obtain ⟨k, hk, hkc, huniq⟩ := hrep.cell_unique hv (y * 8 + x) (mem_cells.2 ⟨hc, h⟩)
    exact ⟨k, hk, hkc, huniq, g2 k h hk hkc huniq⟩
  refine ⟨g1, hocc, ?_⟩
  cases h : b.occ.testBit (y * 8 + x) with
  | false => rw [g1 h]; decide
  | true =>
    obtain ⟨k, -, -, -, e⟩ := hocc h
    rw [e]
    have h26 : k % 26 < 26 := Nat.mod_lt _ (by decide)
    exact label_ne_question ⟨k % 26, h26⟩

set_option maxRecDepth 100000 in
/-- Two half boards, after the first placement: the cell `(0, 0)` is labelled
`'a'` and the cell `(4, 0)` is `'.'`. -/
theorem getChar_label_witness :
    (((boardOf [0x0F0F0F0F0F0F0F0F, 0x0F0F0F0F0F0F0F0F]).place 0x0F0F0F0F0F0F0F0F 0).getChar 0 0
        ≠ '?') ∧
    ((boardOf [0x0F0F0F0F0F0F0F0F, 0x0F0F0F0F0F0F0F0F]).place 0x0F0F0F0F0F0F0F0F 0).getChar 4 0
      = '.' :=
  ⟨(getChar_label [0x0F0F0F0F0F0F0F0F, 0x0F0F0F0F0F0F0F0F] (by decide) _
      (Or.inl ⟨false, true, by decide⟩) 0 0 (by decide) (by decide)).2.2,
    (getChar_label [0x0F0F0F0F0F0F0F0F, 0x0F0F0F0F0F0F0F0F] (by decide) _
      (Or.inl ⟨false, true, by decide⟩) 4 0 (by decide) (by decide)).1 (by decide)⟩

end Tetromino

namespace Tetromino

/-- A coverable board, in terms of the search state it represents. -/
theorem Rep.coverable {tiles : List Tile} {os : List Nat} {b : Board} (h : Rep tiles os b)
    (hc : Coverable b) :
    ∃ rest : List Nat, os.length + rest.length = tiles.length ∧
      freeFrom tiles os.length (occFrom tiles 0 0 os) rest ∧
      occFrom tiles os.length (occFrom tiles 0 0 os) rest = 2 ^ 64 - 1 := by
  obtain ⟨rest, h1, h2, h3⟩ := hc
  rw [h.pieces, h.idx, h.occ] at h2 h3
  rw [h.pieces, h.idx] at h1
  exact ⟨rest, h1, h2, h3⟩

/-- The parity test cuts no state that some in-grid, non-overlapping placement
of the remaining tiles completes to a full board. -/
theorem parity_sound_free {tiles : List Tile} (hg : GoodTiles tiles) (hlen : tiles.length ≤ 64)
    {os : List Nat} (hv : Valid tiles os) {rest : List Nat}
    (hl : os.length + rest.length = tiles.length)
    (hfree : freeFrom tiles os.length (occFrom tiles 0 0 os) rest)
    (hfull : occFrom tiles os.length (occFrom tiles 0 0 os) rest = 2 ^ 64 - 1) :
    |ciFrom tiles 0 0 os| ≤ (Board.ctor tiles).suffix_max_imbalance.getD os.length 0 := by
  have hsum := coverable_sum hg hv hl hfree hfull
  have hs0 : sufImb tiles 0 ≤ 127 := by
    have := sufImb_zero_le tiles
    rw [hsum] at this
    omega
  rw [suffix_max_imbalance_spec tiles (by omega) hs0 os.length (by omega)]
  have h1 := validFrom_imbalance os 0 0 0 hv
  rw [imbalance_zero] at h1
  have h2 := freeFrom_imbalance rest os.length _ hfree
  rw [hfull, imbalance_full, ← h1] at h2
  have h3 := freeFrom_ci_bound rest os.length _ (ciFrom tiles 0 0 os) hfree
  rw [h2] at h3
  have e1 : (tiles.drop os.length).take rest.length = tiles.drop os.length := by
    apply List.take_of_length_le
    rw [List.length_drop]; omega
  rw [e1, zero_sub, abs_neg] at h3
  exact h3

/-- C11: soundness of the parity bound. For every board reachable from
`Board(tiles)` (at most 64 tiles, extents from `Tile::Tile`) with
`|current_imbalance| > suffix_max_imbalance[piece_index]`, no sequence of
in-grid, non-overlapping placements of the remaining pieces covers all 64
cells; and an in-grid translation of a mask changes its black minus white
count at most in sign. -/
theorem parity_bound_sound (masks : List Nat) (hlen : masks.length ≤ 64) (b : Board)
    (hb : Reachable (masks.map Tile.ctor) b)
    (hcut : |b.getCurrentImbalance| > b.getSuffixMaxImbalance) :
    ¬ Coverable b ∧
    ∀ r pos, InGrid r pos →
      imbalance (shl64 r pos) = imbalance r ∨ imbalance (shl64 r pos) = -imbalance r := by
  have hg := GoodTiles.of_map masks
  have hlen' : (masks.map Tile.ctor).length ≤ 64 := by simpa using hlen
  obtain ⟨os, hrep, hv⟩ := reachable_rep hlen' hg hb
  refine ⟨fun hc => ?_, fun r pos h => abs_eq_abs.1 (ingrid_abs_imbalance h)⟩
  obtain ⟨rest, hl, hfree, hfull⟩ := hrep.coverable hc
  have := parity_sound_free hg hlen' hv hl hfree hfull
  simp only [Board.getCurrentImbalance, Board.getSuffixMaxImbalance, hrep.ci, hrep.smax,
    hrep.idx] at hcut
  omega

set_option maxRecDepth 100000 in
/-- A single cell and a domino: after the single cell is placed at origin 0 the
accumulator is off by one and the domino cannot correct it, so the board is not
coverable. -/
theorem parity_bound_sound_witness :
    ¬ Coverable ((boardOf [0x1, 0x3]).place 0x1 0) :=
  (parity_bound_sound [0x1, 0x3] (by decide) _ (Or.inl ⟨false, true, by decide⟩)
    (by decide)).1

/-- The region test cuts no state that some in-grid, non-overlapping placement
of the remaining tiles completes to a full board, when every tile is
king-connected. -/
theorem region_sound_free {tiles : List Tile} (hlen : tiles.length ≤ 64)
    (hk : ∀ t ∈ tiles, KConn (cells t.repr)) {os : List Nat} {rest : List Nat}
    (hl : os.length + rest.length = tiles.length)
    (hfree : freeFrom tiles os.length (occFrom tiles 0 0 os) rest)
    (hfull : occFrom tiles os.length (occFrom tiles 0 0 os) rest = 2 ^ 64 - 1) :
    (aBoard tiles os).hasSolvableRegions = true := by
  rw [hsr_unfold]
  by_cases hE : not64 (occFrom tiles 0 0 os) = 0
  · rw [if_pos hE]
  · rw [if_neg hE]
    by_cases hm : toInt8 (((Board.ctor tiles).suffix_min_size.getD os.length 0 : Nat) : Int) = 0
    · rw [if_pos hm]
    · rw [if_neg hm]
      have hlt : os.length < tiles.length := by
        by_contra hge
        have hr : rest = [] := by
          apply List.eq_nil_of_length_eq_zero
          omega
        rw [hr] at hfull
        simp only [occFrom] at hfull
        rw [hfull] at hE
        exact hE not64_full
      have hmin : toInt8 (((Board.ctor tiles).suffix_min_size.getD os.length 0 : Nat) : Int)
          = (sufMin tiles os.length : Int) := by
        rw [suffix_min_size_spec tiles (by omega) os.length hlt]
        have := sufMin_le_64 tiles os.length
        exact toInt8_of_bounds (by omega) (by omega)
      rw [hmin]
      by_contra hfalse
      have hfalse' : regionLoop (sufMin tiles os.length) (Board.ctor tiles).tile_gcd 65
          (not64 (occFrom tiles 0 0 os)) = false := by simpa using hfalse
      obtain ⟨C, hCne, hCsub, hCcl, hCtest⟩ := regionLoop_false (not64 (occFrom tiles 0 0 os))
        (sufMin tiles os.length) (Board.ctor tiles).tile_gcd 65 (not64 (occFrom tiles 0 0 os))
        (not64_lt _) (Finset.Subset.refl _) (by
          intro u hu
          simp at hu) hfalse'
      obtain ⟨m1, m2, m3, m4⟩ := freeFrom_maskCells rest os.length
        (occFrom tiles 0 0 os) hfree
      rw [hfull] at m1
      have hcover : cells (not64 (occFrom tiles 0 0 os))
          ⊆ (maskCells tiles os.length rest).foldr (· ∪ ·) ∅ := by
        intro k hk2
        rw [cells_not64, Finset.mem_sdiff] at hk2
        have : k ∈ cells (2 ^ 64 - 1) := by
          rw [mem_cells, Nat.testBit_two_pow_sub_one]
          exact ⟨Finset.mem_range.1 hk2.1, by simpa using Finset.mem_range.1 hk2.1⟩
        rw [m1, Finset.mem_union] at this
        rcases this with h | h
        · exact absurd h hk2.2
        · exact h
      have hP : ∀ P ∈ maskCells tiles os.length rest,
          P ⊆ cells (not64 (occFrom tiles 0 0 os)) ∧ KConn P ∧
          (Board.ctor tiles).tile_gcd ∣ P.card ∧
            ((sufMin tiles os.length : Nat) : Int) ≤ (P.card : Int) := by
        intro P hPm
        obtain ⟨j2, pos, h1, h2, rfl, h4⟩ := m4 P hPm
        have hmem : tileAt tiles j2 ∈ tiles := by
          unfold tileAt
          rw [List.getD_eq_getElem _ _ h2]
          exact List.getElem_mem _
        have hcard : (cells (stepMask tiles j2 pos)).card = BIT_COUNT (tileAt tiles j2).repr := by
          rw [← BIT_COUNT_eq_card]
          exact ingrid_count h4
        refine ⟨?_, ingrid_kconn h4 (hk _ hmem), ?_, ?_⟩
        · intro k hk2
          rw [cells_not64, Finset.mem_sdiff]
          refine ⟨cells_subset_range _ hk2, fun hocc => ?_⟩
          exact Finset.disjoint_left.1 (m3 _ hPm) hocc hk2
        · rw [hcard]
          exact ListGCD_dvd tiles _ hmem
        · rw [hcard]
          have := sufMin_le tiles os.length j2 (by omega) h2
          unfold tileAt
          exact_mod_cast this
      obtain ⟨r1, r2⟩ := component_ok hcover m2 hP hCne hCsub hCcl
      rw [← BIT_COUNT_eq_card] at r1 r2
      rcases hCtest with h | h
      · omega
      · exact h (Nat.mod_eq_zero_of_dvd r2)

/-- C19: soundness of the region-solvability pruning for king-connected tiles.
For every tile list (at most 64 tiles, extents from `Tile::Tile`) in which
every tile is king-connected, and every board reachable from `Board(tiles)` on
which `hasSolvableRegions()` returns false, no sequence of in-grid,
non-overlapping placements of the remaining pieces covers all 64 cells. -/
theorem region_prune_sound (masks : List Nat) (hlen : masks.length ≤ 64)
    (hk : ∀ m ∈ masks, kingConnected m = true) (b : Board)
    (hb : Reachable (masks.map Tile.ctor) b) (hcut : b.hasSolvableRegions = false) :
    ¬ Coverable b := by
  have hg := GoodTiles.of_map masks
  have hlen' : (masks.map Tile.ctor).length ≤ 64 := by simpa using hlen
  obtain ⟨os, hrep, hv⟩ := reachable_rep hlen' hg hb
  intro hc
  obtain ⟨rest, hl, hfree, hfull⟩ := hrep.coverable hc
  have := region_sound_free hlen' (kconn_tiles hk) hl hfree hfull
  rw [hrep.hsr_eq, this] at hcut
  exact absurd hcut (by decide)

set_option maxRecDepth 100000 in
/-- Two S-shaped tetrominoes `0x306`: placed at origin 0 the first one cuts off
the corner cell, `hasSolvableRegions()` is false, and the board is not
coverable. -/
theorem region_prune_sound_witness :
    ¬ Coverable ((boardOf [0x306, 0x306]).place 0x306 0) :=
  region_prune_sound [0x306, 0x306] (by decide) (by decide) _
    (Or.inl ⟨false, true, by decide⟩) (by decide)

end Tetromino

namespace Tetromino

theorem notH_bit_true {k : Nat} (hk : k < 64) (h : NOT_H_FILE.testBit k = true) : k % 8 ≠ 7 := by
  rw [notH_bit_fin ⟨k, hk⟩] at h; simpa using h

theorem notA_bit_true {k : Nat} (hk : k < 64) (h : NOT_A_FILE.testBit k = true) : k % 8 ≠ 0 := by
  rw [notA_bit_fin ⟨k, hk⟩] at h; simpa using h

theorem kingAdj_of {u v : Nat} (h1 : u ≠ v) (h2 : u % 8 ≤ v % 8 + 1) (h3 : v % 8 ≤ u % 8 + 1)
    (h4 : u / 8 ≤ v / 8 + 1) (h5 : v / 8 ≤ u / 8 + 1) : kingAdj u v = true :=
  (kingAdj_iff u v).2 ⟨h1, h2, h3, h4, h5⟩

/-- The eight shifts of the flood fill reach only cells of the component and
king neighbours of them. -/
theorem grow8_sub {c v : Nat} (hc : c < 2 ^ 64) (hv : v ∈ cells (grow8 c)) :
    v ∈ cells c ∨ ∃ u ∈ cells c, kingAdj u v = true := by
  obtain ⟨hv64, hb⟩ := mem_cells.1 hv
  have hin : ∀ u, c.testBit u = true → u ∈ cells c := fun u hu =>
    mem_cells.2 ⟨testBit_of_lt_two_pow64 hc hu, hu⟩
  unfold grow8 at hb
  simp only [Nat.testBit_or, Bool.or_eq_true, testBit_shl64, testBit_shr_sub, Nat.testBit_and,
    Bool.and_eq_true, decide_eq_true_eq] at hb
  rcases hb with (((((((h | h) | h) | h) | h) | h) | h) | h) | h
  · exact Or.inl (hin v h)
  · obtain ⟨⟨-, h1⟩, h2, h3⟩ := h
    have hu := hin _ h2
    have := notH_bit_true (mem_cells.1 hu).1 h3
    exact Or.inr ⟨v - 1, hu, kingAdj_of (by omega) (by omega) (by omega) (by omega) (by omega)⟩
  · obtain ⟨h2, h3⟩ := h
    have hu := hin _ h2
    have := notA_bit_true (mem_cells.1 hu).1 h3
    exact Or.inr ⟨v + 1, hu, kingAdj_of (by omega) (by omega) (by omega) (by omega) (by omega)⟩
  · obtain ⟨⟨-, h1⟩, h2⟩ := h
    have hu := hin _ h2
    exact Or.inr ⟨v - 8, hu, kingAdj_of (by omega) (by omega) (by omega) (by omega) (by omega)⟩
  · have hu := hin _ h
    have := (mem_cells.1 hu).1
    exact Or.inr ⟨v + 8, hu, kingAdj_of (by omega) (by omega) (by omega) (by omega) (by omega)⟩
  · obtain ⟨⟨-, h1⟩, h2, h3⟩ := h
    have hu := hin _ h2
    have := notH_bit_true (mem_cells.1 hu).1 h3
    exact Or.inr ⟨v - 9, hu, kingAdj_of (by omega) (by omega) (by omega) (by omega) (by omega)⟩
  · obtain ⟨⟨-, h1⟩, h2, h3⟩ := h
    have hu := hin _ h2
    have := notA_bit_true (mem_cells.1 hu).1 h3
    exact Or.inr ⟨v - 7, hu, kingAdj_of (by omega) (by omega) (by omega) (by omega) (by omega)⟩
  · obtain ⟨h2, h3⟩ := h
    have hu := hin _ h2
    have := notH_bit_true (mem_cells.1 hu).1 h3
    have := (mem_cells.1 hu).1
    exact Or.inr ⟨v + 7, hu, kingAdj_of (by omega) (by omega) (by omega) (by omega) (by omega)⟩
  · obtain ⟨h2, h3⟩ := h
    have hu := hin _ h2
    have := notA_bit_true (mem_cells.1 hu).1 h3
    have := (mem_cells.1 hu).1
    exact Or.inr ⟨v + 9, hu, kingAdj_of (by omega) (by omega) (by omega) (by omega) (by omega)⟩

theorem KConn_singleton (s : Nat) : KConn {s} := by
  intro A hA hne _
  obtain ⟨a, ha⟩ := hne
  have := Finset.mem_singleton.1 (hA ha)
  subst this
  exact Finset.Subset.antisymm hA (Finset.singleton_subset_iff.2 ha)

/-- A king-connected set stays king-connected when cells are added that each
touch it. -/
theorem KConn_union_adj {S N : Finset ℕ} (hS : KConn S)
    (hN : ∀ v ∈ N, v ∈ S ∨ ∃ u ∈ S, kingAdj u v = true) : KConn (S ∪ N) := by
  intro A hA hAne hcl
  by_cases hAS : (A ∩ S).Nonempty
  · have hSA : A ∩ S = S := hS (A ∩ S) Finset.inter_subset_right hAS (by
      intro u hu v hv
      rw [Finset.mem_sdiff] at hv
      apply hcl u (Finset.mem_inter.1 hu).1 v
      rw [Finset.mem_sdiff]
      exact ⟨Finset.mem_union_left _ hv.1, fun hvA => hv.2 (Finset.mem_inter.2 ⟨hvA, hv.1⟩)⟩)
    have hsub : S ⊆ A := fun x hx => by
      rw [← hSA] at hx; exact (Finset.mem_inter.1 hx).1
    apply Finset.Subset.antisymm hA
    intro v hv
    rcases Finset.mem_union.1 hv with h | h
    · exact hsub h
    · rcases hN v h with h1 | ⟨u, hu, hadj⟩
      · exact hsub h1
      · by_contra hvA
        have := hcl u (hsub hu) v (Finset.mem_sdiff.2 ⟨hv, hvA⟩)
        rw [this] at hadj
        exact absurd hadj (by decide)
  · exfalso
    obtain ⟨a, ha⟩ := hAne
    have haS : a ∉ S := fun h => hAS ⟨a, Finset.mem_inter.2 ⟨ha, h⟩⟩
    have haN : a ∈ N := by
      rcases Finset.mem_union.1 (hA ha) with h | h
      · exact absurd h haS
      · exact h
    rcases hN a haN with h1 | ⟨u, hu, hadj⟩
    · exact haS h1
    · have huA : u ∉ A := fun h => hAS ⟨u, Finset.mem_inter.2 ⟨h, hu⟩⟩
      have := hcl a ha u (Finset.mem_sdiff.2 ⟨Finset.mem_union_left _ hu, huA⟩)
      rw [kingAdj_symm, this] at hadj
      exact absurd hadj (by decide)

/-- The component grown by the inner flood loop is king-connected. -/
theorem floodLoop_kconn :
    ∀ (fuel c e : Nat), c < 2 ^ 64 → e < 2 ^ 64 → (cells c).Nonempty → KConn (cells c) →
      KConn (cells (floodLoop fuel c e).1) := by
  intro fuel
  induction fuel with
  | zero => intro c e _ _ _ h; exact h
  | succ fuel ih =>
    intro c e hc he hne hk
    rw [floodLoop_succ]
    by_cases hn : grow8 c &&& e = 0
    · rw [if_pos hn]; exact hk
    · rw [if_neg hn]
      have hnew_lt : grow8 c &&& e < 2 ^ 64 := lt_of_le_of_lt Nat.and_le_right he
      apply ih _ _ (Nat.or_lt_two_pow hc hnew_lt) (lt_of_le_of_lt Nat.and_le_left he)
      · rw [cells_or]
        exact hne.mono Finset.subset_union_left
      · rw [cells_or]
        apply KConn_union_adj hk
        intro v hv
        rw [cells_and, Finset.mem_inter] at hv
        exact grow8_sub hc hv.1

/-- The outer loop of `hasSolvableRegions` answers `true` exactly when every
king-connected component of the cells it is given passes both size tests. -/
theorem regionLoop_iff (min_sz : Int) (g : Nat) :
    ∀ (fuel E : Nat), E < 2 ^ 64 → (cells E).card < fuel →
      (regionLoop min_sz g fuel E = true ↔
        ∀ C, IsComponent (cells E) C → min_sz ≤ (C.card : Int) ∧ C.card % g = 0) := by
  intro fuel
  induction fuel with
  | zero => intro E _ h; omega
  | succ fuel ih =>
    intro E hE hcard
    rw [regionLoop_succ]
    by_cases h0 : E = 0
    · rw [if_pos h0]
      refine ⟨fun _ C hC => ?_, fun _ => rfl⟩
      obtain ⟨⟨x, hx⟩, hsub, -, -⟩ := hC
      have := hsub hx
      rw [h0] at this
      simp [mem_cells] at this
    · rw [if_neg h0]
      have hEne : (cells E).Nonempty := by
        rw [Finset.nonempty_iff_ne_empty]
        intro hc
        exact h0 ((cells_eq_empty_iff hE).1 hc)
      have hl := LSB_mem hEne
      have hl64 := (mem_cells.1 hl).1
      have hstart := cells_bit hl64
      have hd0 : Disjoint (cells (shl64 1 (LSB E))) (cells (E &&& not64 (shl64 1 (LSB E)))) := by
        rw [sdiff_cells_and_not]
        exact Finset.disjoint_sdiff
      have hcard0 : (cells (E &&& not64 (shl64 1 (LSB E)))).card < 64 := by
        rw [sdiff_cells_and_not, hstart]
        have h1 := Finset.card_sdiff_add_card_eq_card (Finset.singleton_subset_iff.2 hl)
        have h2 := Finset.card_le_card (cells_subset_range E)
        simp only [Finset.card_singleton, Finset.card_range] at h1 h2
        omega
      obtain ⟨r1, r2, r3, r4, r5, r6⟩ := floodLoop_spec 64 (shl64 1 (LSB E))
        (E &&& not64 (shl64 1 (LSB E))) (shl64_lt _ _)
        (lt_of_le_of_lt Nat.and_le_left hE) hd0 hcard0
      have hkc := floodLoop_kconn 64 (shl64 1 (LSB E)) (E &&& not64 (shl64 1 (LSB E)))
        (shl64_lt _ _) (lt_of_le_of_lt Nat.and_le_left hE)
        (by rw [hstart]; exact Finset.singleton_nonempty _)
        (by rw [hstart]; exact KConn_singleton _)
      generalize floodLoop 64 (shl64 1 (LSB E)) (E &&& not64 (shl64 1 (LSB E))) = ce
        at r1 r2 r3 r4 r5 r6 hkc
      have hunion : cells ce.1 ∪ cells ce.2 = cells E := by
        rw [r3, sdiff_cells_and_not, hstart]
        exact Finset.union_sdiff_of_subset (Finset.singleton_subset_iff.2 hl)
      have hC_E : cells ce.1 ⊆ cells E := by
        rw [← hunion]; exact Finset.subset_union_left
      have hE2 : cells ce.2 ⊆ cells E := by
        rw [← hunion]; exact Finset.subset_union_right
      have hclosed : ∀ u ∈ cells ce.1, ∀ v ∈ cells ce.2, kingAdj u v = false := by
        intro u hu v hv
        by_contra hadj
        have hadj2 : kingAdj u v = true := by simpa using hadj
        have hg := grow8_adj hu (mem_cells.1 hv).1 hadj2
        have : v ∈ cells (grow8 ce.1 &&& ce.2) := by
          rw [cells_and]; exact Finset.mem_inter.2 ⟨hg, hv⟩
        rw [r6] at this
        simp [mem_cells] at this
      have hne1 : (cells ce.1).Nonempty :=
        ⟨LSB E, r5 (by rw [hstart]; exact Finset.mem_singleton_self _)⟩
      have hcl1 : ∀ u ∈ cells ce.1, ∀ v ∈ cells E, kingAdj u v = true → v ∈ cells ce.1 := by
        intro u hu v hv hadj
        rw [← hunion, Finset.mem_union] at hv
        rcases hv with hvC | hv2
        · exact hvC
        · rw [hclosed u hu v hv2] at hadj
          exact absurd hadj (by decide)
      have hcomp : IsComponent (cells E) (cells ce.1) := ⟨hne1, hC_E, hkc, hcl1⟩
      by_cases htest : ((BIT_COUNT ce.1 : Int) < min_sz || BIT_COUNT ce.1 % g != 0) = true
      · rw [if_pos htest]
        refine ⟨fun h => absurd h (by decide), fun h => ?_⟩
        obtain ⟨g1, g2⟩ := h _ hcomp
        rw [← BIT_COUNT_eq_card] at g1 g2
        simp only [Bool.or_eq_true, decide_eq_true_eq, bne_iff_ne] at htest
        rcases htest with h1 | h1
        · omega
        · exact absurd g2 h1
      · rw [if_neg htest]
        have hgood : min_sz ≤ ((cells ce.1).card : Int) ∧ (cells ce.1).card % g = 0 := by
          rw [← BIT_COUNT_eq_card]
          simp only [Bool.or_eq_true, decide_eq_true_eq, bne_iff_ne, not_or, not_lt,
            not_not] at htest
          exact htest
        have hcard2 : (cells ce.2).card < fuel := by
          have h1 := Finset.card_union_of_disjoint r4
          rw [hunion] at h1
          have h2 := Finset.card_pos.2 hne1
          omega
        rw [ih ce.2 r2 hcard2]
        constructor
        · intro h C hC
          obtain ⟨c1, c2, c3, c4⟩ := hC
          rcases KConn_sub_or_disjoint c3 c2 hcl1 with hsub | hdis
          · rcases KConn_sub_or_disjoint hkc hC_E c4 with hsub2 | hdis2
            · rw [Finset.Subset.antisymm hsub hsub2]; exact hgood
            · exfalso
              obtain ⟨x, hx⟩ := c1
              exact Finset.disjoint_left.1 hdis2 (hsub hx) hx
          · apply h C
            refine ⟨c1, ?_, c3, fun u hu v hv hadj => c4 u hu v (hE2 hv) hadj⟩
            intro x hx
            have := c2 hx
            rw [← hunion, Finset.mem_union] at this
            rcases this with h1 | h1
            · exact absurd hx (Finset.disjoint_right.1 hdis h1)
            · exact h1
        · intro h C hC
          obtain ⟨c1, c2, c3, c4⟩ := hC
          apply h C
          refine ⟨c1, Finset.Subset.trans c2 hE2, c3, ?_⟩
          intro u hu v hv hadj
          rw [← hunion, Finset.mem_union] at hv
          rcases hv with hv1 | hv2
          · exfalso
            have hu2 := c2 hu
            have := hclosed v hv1 u hu2
            rw [kingAdj_symm, this] at hadj
            exact absurd hadj (by decide)
          · exact c4 u hu v hv2 hadj

/-- C12: `hasSolvableRegions` equals its reference definition. It returns true
when `~occ = 0` or `min = suffix_min_size[piece_index]` is 0; and when
`~occ ≠ 0`, `min > 0` and `tile_gcd ≥ 1` it returns true if and only if every
king-connected component `C` of the empty cells `~occ` has at least `min`
cells and a number of cells divisible by `tile_gcd`. -/
theorem hsr_reference (b : Board) :
    (not64 b.occ = 0 ∨ toInt8 (b.suffix_min_size.getD b.piece_index 0) = 0 →
      b.hasSolvableRegions = true) ∧
    (not64 b.occ ≠ 0 → 0 < toInt8 (b.suffix_min_size.getD b.piece_index 0) →
      1 ≤ b.tile_gcd →
      (b.hasSolvableRegions = true ↔
        ∀ C, IsComponent (cells (not64 b.occ)) C →
          toInt8 (b.suffix_min_size.getD b.piece_index 0) ≤ (C.card : Int) ∧
            C.card % b.tile_gcd = 0)) := by
  constructor
  · intro h
    unfold Board.hasSolvableRegions
    simp only
    by_cases h0 : not64 b.occ = 0
    · rw [if_pos h0]
    · rw [if_neg h0]
      rcases h with h | h
      · exact absurd h h0
      · rw [if_pos h]
  · intro h0 hmin _
    unfold Board.hasSolvableRegions
    simp only
    rw [if_neg h0, if_neg (by omega)]
    apply regionLoop_iff _ _ 65 _ (not64_lt _)
    have := Finset.card_le_card (cells_subset_range (not64 b.occ))
    simp only [Finset.card_range] at this
    omega

set_option maxRecDepth 100000 in
/-- Two tiles `0x306`, the first one placed at origin 0: `~occ ≠ 0`, `min = 4`,
`tile_gcd = 4`, `hasSolvableRegions()` is false, so some component of the empty
cells fails a size test (the corner cell is one). -/
theorem hsr_reference_witness :
    ¬ ∀ C, IsComponent (cells (not64 ((boardOf [0x306, 0x306]).place 0x306 0).occ)) C →
      toInt8 (((boardOf [0x306, 0x306]).place 0x306 0).suffix_min_size.getD
          ((boardOf [0x306, 0x306]).place 0x306 0).piece_index 0) ≤ (C.card : Int) ∧
        C.card % ((boardOf [0x306, 0x306]).place 0x306 0).tile_gcd = 0 :=
  fun h => absurd (((hsr_reference ((boardOf [0x306, 0x306]).place 0x306 0)).2
    (by decide) (by decide) (by decide)).2 h) (by decide)

end Tetromino

namespace Tetromino

theorem place_pop_index (c : Board) (piece i : Nat) (hused : c.history.used < 64)
    (hidx : c.piece_index < 2 ^ 64) :
    ((c.place piece i).pop).piece_index = c.piece_index ∧
    ((c.place piece i).pop).history.used = c.history.used := by
  have hu : toSize ((c.history.used : Int) + 1) = c.history.used + 1 := by
    exact_mod_cast toSize_natCast (n := c.history.used + 1) (by omega)
  have hne : (c.place piece i).history.empty = false := by
    simp [Board.place, PushPopHistoryArray.emplace_back, PushPopHistoryArray.empty, hu]
  constructor
  · simp only [Board.pop, hne]
    simp only [Bool.false_eq_true, if_false, Board.place]
    unfold toSize
    have : (2:Nat) ^ 64 = 18446744073709551616 := by norm_num
    omega
  · simp only [Board.pop, hne]
    simp [Board.place, PushPopHistoryArray.emplace_back, PushPopHistoryArray.pop_back, hu]

/-- The placement loop of `solve` over the origins that pass the boundary
check, and the placement loop of `generateTasks` over all origins, place the
piece on the same boards in the same order. -/
theorem loops_agree (cpi pl piece : Nat) (t : Tile) (hcpi : cpi < 2 ^ 64) (bd : Nat → Bool)
    (hbd : ∀ i, (decide (i % 8 > toUInt8 (7 - (t.p_width : Int)))
      || decide (i / 8 > toUInt8 (7 - (t.p_height : Int)))) = !bd i) :
    ∀ (l : List Nat) (r : Run) (g : GenRun), (∀ i ∈ l, i < 64) →
      r.board = g.board → r.out = g.task_queue → g.board.history.used < 64 →
      g.board.piece_index = cpi →
      (solveLoop logPlaced false pl piece (l.filter bd) false r).2.out
        = (generateLoop logPlacedGen cpi pl piece t l g).task_queue := by
  intro l
  induction l with
  | nil =>
    intro r g _ _ ho _ _
    simpa [solveLoop_nil, generateLoop_nil] using ho
  | cons i rest ih =>
    intro r g hl hb ho hused hidx
    have hrest : ∀ j ∈ rest, j < 64 := fun j hj => hl j (List.mem_cons_of_mem _ hj)
    have hi : i < 64 := hl i (List.mem_cons_self _ _)
    have hsym : (!r.board.symmetryBroken) = (cpi == 0) := by
      rw [hb]
      simp only [Board.symmetryBroken, hidx]
      cases cpi <;> simp
    rw [generateLoop_cons, hbd i]
    by_cases ho1 : (cpi == 0 && outsideOctant i) = true
    · rw [if_pos ho1]
      by_cases h : bd i = true
      · rw [List.filter_cons_of_pos h, solveLoop_cons, if_pos (by rw [hsym]; exact ho1)]
        exact ih r g hrest hb ho hused hidx
      · rw [List.filter_cons_of_neg h]
        exact ih r g hrest hb ho hused hidx
    · rw [if_neg ho1]
      by_cases h : bd i = true
      · rw [if_neg (by simp [h]), List.filter_cons_of_pos h, solveLoop_cons,
          if_neg (by rw [hsym]; exact ho1)]
        by_cases hcol : (shl64 piece i &&& pl != shl64 piece i) = true
        · rw [if_pos hcol, if_pos hcol]
          exact ih r g hrest hb ho hused hidx
        · rw [if_neg hcol, if_neg hcol]
          have hcast : toUInt8 (i : Int) = i := toUInt8_natCast (by omega)
          rw [hcast]
          have hfalse : ¬ ((logPlaced { r with board := r.board.place piece i }).1 && false)
              = true := by simp
          rw [if_neg hfalse]
          obtain ⟨p1, p2⟩ := place_pop_index g.board piece i hused (by rw [hidx]; exact hcpi)
          apply ih _ _ hrest
          · simp only [logPlaced, logPlacedGen, hb]
          · simp only [logPlaced, logPlacedGen, hb, ho]
          · simp only [logPlacedGen]; rw [p2]; exact hused
          · simp only [logPlacedGen]; rw [p1]; exact hidx
      · rw [if_pos (by simp [h]), List.filter_cons_of_neg h]
        exact ih r g hrest hb ho hused hidx

/-- C18: candidate-origin equivalence. For a tile with extents in `[0, 7]` and
`start_pos` in `[0, 64]`, the nested `y`/`x` loops of `solve` visit, in
increasing order, exactly the origins `i` with `start_pos ≤ i ≤ 63`,
`i % 8 ≤ 7 - p_width` and `i / 8 ≤ 7 - p_height`, which are the origins of the
linear loop of `generateTasks` that pass its boundary check; and on every board
(fewer than 64 history entries) the two loops, with the same octant filter
and collision test, place the piece on the same boards in the same order. -/
theorem candidate_origins (t : Tile) (hw : t.p_width ≤ 7) (hh : t.p_height ≤ 7) (start_pos : Nat)
    (hs : start_pos ≤ 64) :
    (solveOrigins start_pos (toUInt8 (7 - (t.p_width : Int))) (toUInt8 (7 - (t.p_height : Int)))
      = (List.range' start_pos (64 - start_pos)).filter
          (fun i => decide (i % 8 ≤ 7 - t.p_width) && decide (i / 8 ≤ 7 - t.p_height))) ∧
    (solveOrigins start_pos (toUInt8 (7 - (t.p_width : Int)))
      (toUInt8 (7 - (t.p_height : Int)))).Pairwise (· < ·) ∧
    (solveOrigins start_pos (toUInt8 (7 - (t.p_width : Int))) (toUInt8 (7 - (t.p_height : Int)))
      = (List.range' start_pos (64 - start_pos)).filter
          (fun i => !(decide (i % 8 > toUInt8 (7 - (t.p_width : Int)))
            || decide (i / 8 > toUInt8 (7 - (t.p_height : Int)))))) ∧
    ∀ b : Board, b.history.used < 64 → b.piece_index < 2 ^ 64 →
      (solveLoop logPlaced false b.placements t.repr
        (solveOrigins start_pos (toUInt8 (7 - (t.p_width : Int)))
          (toUInt8 (7 - (t.p_height : Int)))) false ⟨b, 0, [], []⟩).2.out
        = (generateLoop logPlacedGen b.piece_index b.placements t.repr t
            (List.range' start_pos (64 - start_pos)) ⟨b, [], []⟩).task_queue := by
  have e1 := toUInt8_seven_sub hw
  have e2 := toUInt8_seven_sub hh
  have hf := @solveOrigins_eq_filter start_pos (7 - t.p_width) (7 - t.p_height) hs (by omega)
    (by omega)
  have hf2 : solveOrigins start_pos (toUInt8 (7 - (t.p_width : Int)))
      (toUInt8 (7 - (t.p_height : Int)))
      = (List.range' start_pos (64 - start_pos)).filter
          (fun i => !(decide (i % 8 > toUInt8 (7 - (t.p_width : Int)))
            || decide (i / 8 > toUInt8 (7 - (t.p_height : Int))))) := by
    rw [e1, e2, hf]
    apply List.filter_congr
    intro i _
    rw [Bool.eq_iff_iff]
    simp only [Bool.and_eq_true, decide_eq_true_eq, Bool.not_eq_true', Bool.or_eq_false_iff,
      decide_eq_false_iff_not, gt_iff_lt, not_lt]
  refine ⟨by rw [e1, e2]; exact hf, ?_, hf2, ?_⟩
  · rw [e1, e2]
    exact solveOrigins_sorted start_pos _ _ hs (by omega) (by omega)
  · intro b hused hidx
    rw [hf2]
    apply loops_agree b.piece_index b.placements t.repr t hidx _ (fun i => by simp) _ _ _ ?_
      rfl rfl hused rfl
    intro i hi
    rw [List.mem_range'_1] at hi
    omega

/-- The L-tromino `0x103` on the board of two such tiles, from `start_pos = 3`. -/
theorem candidate_origins_witness :
    (solveOrigins 3 (toUInt8 (7 - ((Tile.ctor 0x103).p_width : Int)))
      (toUInt8 (7 - ((Tile.ctor 0x103).p_height : Int)))).Pairwise (· < ·) :=
  (candidate_origins (Tile.ctor 0x103) (by decide) (by decide) 3 (by decide)).2.1

end Tetromino

namespace Tetromino

theorem floodLoopChecked_succ (fuel c e : Nat) :
    floodLoopChecked (fuel + 1) c e =
      if grow8 c &&& e = 0 then some (c, e)
      else floodLoopChecked fuel (c ||| (grow8 c &&& e)) (e &&& not64 (grow8 c &&& e)) := rfl

/-- With more fuel than empty cells the inner flood loop leaves through `break`. -/
theorem floodLoopChecked_eq :
    ∀ (fuel c e : Nat), e < 2 ^ 64 → (cells e).card < fuel →
      floodLoopChecked fuel c e = some (floodLoop fuel c e) := by
  intro fuel
  induction fuel with
  | zero => intro c e _ h; omega
  | succ fuel ih =>
    intro c e he hcard
    rw [floodLoopChecked_succ, floodLoop_succ]
    by_cases hn : grow8 c &&& e = 0
    · rw [if_pos hn, if_pos hn]
    · rw [if_neg hn, if_neg hn]
      have hnew_lt : grow8 c &&& e < 2 ^ 64 := lt_of_le_of_lt Nat.and_le_right he
      have hnew_ne : (cells (grow8 c &&& e)).Nonempty := by
        rw [Finset.nonempty_iff_ne_empty]
        intro h0
        exact hn ((cells_eq_empty_iff hnew_lt).1 h0)
      have hnew_sub : cells (grow8 c &&& e) ⊆ cells e := by
        rw [cells_and]; exact Finset.inter_subset_right
      apply ih _ _ (lt_of_le_of_lt Nat.and_le_left he)
      rw [sdiff_cells_and_not]
      have := Finset.card_sdiff_add_card_eq_card hnew_sub
      have hpos := Finset.card_pos.2 hnew_ne
      omega

theorem regionLoopChecked_succ (min_sz : Int) (g fuel E : Nat) :
    regionLoopChecked min_sz g (fuel + 1) E =
      if E = 0 then Checked.value true
      else
        match floodLoopChecked 64 (shl64 1 (LSB E)) (E &&& not64 (shl64 1 (LSB E))) with
        | none => Checked.outOfFuel
        | some ce =>
          if (BIT_COUNT ce.1 : Int) < min_sz then Checked.value false
          else if g = 0 then Checked.divisionByZero
          else if BIT_COUNT ce.1 % g != 0 then Checked.value false
          else regionLoopChecked min_sz g fuel ce.2 := rfl

/-- With more fuel than empty cells the outer loop of `hasSolvableRegions` ends
on its own; with a non-zero `tile_gcd` its checked run gives the value of the
plain one. -/
theorem regionLoopChecked_eq (min_sz : Int) (g : Nat) :
    ∀ (fuel E : Nat), E < 2 ^ 64 → (cells E).card < fuel →
      regionLoopChecked min_sz g fuel E ≠ Checked.outOfFuel ∧
      (g ≠ 0 → regionLoopChecked min_sz g fuel E = Checked.value (regionLoop min_sz g fuel E)) := by
  intro fuel
  induction fuel with
  | zero => intro E _ h; omega
  | succ fuel ih =>
    intro E hE hcard
    rw [regionLoopChecked_succ, regionLoop_succ]
    by_cases h0 : E = 0
    · rw [if_pos h0, if_pos h0]
      exact ⟨by simp, fun _ => rfl⟩
    · rw [if_neg h0, if_neg h0]
      have hEne : (cells E).Nonempty := by
        rw [Finset.nonempty_iff_ne_empty]
        intro hc
        exact h0 ((cells_eq_empty_iff hE).1 hc)
      have hl := LSB_mem hEne
      have hl64 := (mem_cells.1 hl).1
      have hstart := cells_bit hl64
      have hd0 : Disjoint (cells (shl64 1 (LSB E))) (cells (E &&& not64 (shl64 1 (LSB E)))) := by
        rw [sdiff_cells_and_not]
        exact Finset.disjoint_sdiff
      have hrest_lt : E &&& not64 (shl64 1 (LSB E)) < 2 ^ 64 :=
        lt_of_le_of_lt Nat.and_le_left hE
      have hcard0 : (cells (E &&& not64 (shl64 1 (LSB E)))).card < 64 := by
        rw [sdiff_cells_and_not, hstart]
        have h1 := Finset.card_sdiff_add_card_eq_card (Finset.singleton_subset_iff.2 hl)
        have h2 := Finset.card_le_card (cells_subset_range E)
        simp only [Finset.card_singleton, Finset.card_range] at h1 h2
        omega
      rw [floodLoopChecked_eq 64 _ _ hrest_lt hcard0]
      obtain ⟨r1, r2, r3, r4, r5, r6⟩ := floodLoop_spec 64 (shl64 1 (LSB E))
        (E &&& not64 (shl64 1 (LSB E))) (shl64_lt _ _) hrest_lt hd0 hcard0
      generalize floodLoop 64 (shl64 1 (LSB E)) (E &&& not64 (shl64 1 (LSB E))) = ce
        at r1 r2 r3 r4 r5 r6
      have hunion : cells ce.1 ∪ cells ce.2 = cells E := by
        rw [r3, sdiff_cells_and_not, hstart]
        exact Finset.union_sdiff_of_subset (Finset.singleton_subset_iff.2 hl)
      have hne1 : (cells ce.1).Nonempty :=
        ⟨LSB E, r5 (by rw [hstart]; exact Finset.mem_singleton_self _)⟩
      have hcard2 : (cells ce.2).card < fuel := by
        have h1 := Finset.card_union_of_disjoint r4
        rw [hunion] at h1
        have h2 := Finset.card_pos.2 hne1
        omega
      obtain ⟨i1, i2⟩ := ih ce.2 r2 hcard2
      simp only
      by_cases hlt : (BIT_COUNT ce.1 : Int) < min_sz
      · rw [if_pos hlt]
        refine ⟨by simp, fun _ => ?_⟩
        rw [if_pos (by simp [hlt])]
      · rw [if_neg hlt]
        by_cases hg : g = 0
        · rw [if_pos hg]
          exact ⟨by simp, fun h => absurd hg h⟩
        · rw [if_neg hg]
          by_cases hm : (BIT_COUNT ce.1 % g != 0) = true
          · rw [if_pos hm]
            refine ⟨by simp, fun _ => ?_⟩
            rw [if_pos (by simp only [Bool.or_eq_true]; exact Or.inr hm)]
          · rw [if_neg hm]
            refine ⟨i1, fun h => ?_⟩
            rw [if_neg (by
              simp only [Bool.or_eq_true, decide_eq_true_eq, not_or]
              exact ⟨hlt, hm⟩)]
            exact i2 h

theorem int8LoopCount_large {n : Nat} (h1 : 129 ≤ n) (h2 : n ≤ 255) : int8LoopCount n = 0 := by
  unfold int8LoopCount toInt8
  omega

/-- A non-zero `suffix_min_size[piece_index]` on a board built by `Board::Board`
comes with a non-zero `tile_gcd`. -/
theorem tile_gcd_ne_zero (tiles : List Tile) (hlen : tiles.length ≤ 255) (idx : Nat)
    (hidx : idx ≤ tiles.length)
    (hmin : toInt8 ((Board.ctor tiles).suffix_min_size.getD idx 0) ≠ 0) :
    (Board.ctor tiles).tile_gcd ≠ 0 := by
  have hg : (Board.ctor tiles).tile_gcd = ListGCD tiles := rfl
  rw [hg]
  by_cases h128 : tiles.length ≤ 128
  · rcases Nat.lt_or_ge idx tiles.length with hlt | hge
    · rw [suffix_min_size_spec tiles h128 idx hlt] at hmin
      have hpos : sufMin tiles idx ≠ 0 := by
        intro h0
        rw [h0] at hmin
        exact hmin (by decide)
      have hle := sufMin_le tiles idx idx (le_refl _) hlt
      have hmem : tiles.getD idx default ∈ tiles := by
        rw [List.getD_eq_getElem _ _ hlt]
        exact List.getElem_mem _
      have hdvd := ListGCD_dvd tiles _ hmem
      intro h0
      rw [h0, zero_dvd_iff] at hdvd
      omega
    · have e : idx = tiles.length := by omega
      rw [e, suffix_min_size_last tiles h128] at hmin
      exact absurd rfl hmin
  · exfalso
    apply hmin
    have hemp : tiles.isEmpty = false := by
      cases tiles with
      | nil => simp at h128
      | cons a l => rfl
    simp only [Board.ctor, hemp, Bool.false_eq_true, if_false]
    rw [int8LoopCount_large (by omega) hlen]
    have e : suffixMinLoop tiles 0 64 (List.replicate (tiles.length + 1) 0)
        = List.replicate (tiles.length + 1) 0 := rfl
    rw [e]
    have : (List.replicate (tiles.length + 1) 0).getD idx 0 = 0 := by
      simp only [List.getD_eq_getElem?_getD, List.getElem?_replicate]
      split_ifs <;> rfl
    rw [this]
    rfl

/-- C22: no division by zero in `hasSolvableRegions`, and its loops terminate.
For every tile list the constructor returns on (at most 255 tiles; zero masks
and the empty list included), every `occ` and every `piece_index` in
`[0, len]`: whenever `~occ ≠ 0` and `min_sz ≠ 0`, which is when the loop with
the remainder `BIT_COUNT(component) % tile_gcd` is entered, `tile_gcd` is
non-zero; and the checked run of `hasSolvableRegions`, which reports a
remainder by zero and a loop that outlasts its fuel, reports neither and
gives the value of `hasSolvableRegions`. On every board whatsoever the loops
end within their fuel. -/
theorem hsr_safe (tiles : List Tile) (hlen : tiles.length ≤ 255) (occ idx : Nat)
    (hidx : idx ≤ tiles.length) :
    (not64 occ ≠ 0 → toInt8 ((Board.ctor tiles).suffix_min_size.getD idx 0) ≠ 0 →
      (Board.ctor tiles).tile_gcd ≠ 0) ∧
    ({ Board.ctor tiles with occ := occ, piece_index := idx } : Board).hasSolvableRegionsChecked
      = Checked.value
        ({ Board.ctor tiles with occ := occ, piece_index := idx } : Board).hasSolvableRegions ∧
    ∀ b : Board, b.hasSolvableRegionsChecked ≠ Checked.outOfFuel := by
  have hcard : ∀ o : Nat, (cells (not64 o)).card < 65 := by
    intro o
    have := Finset.card_le_card (cells_subset_range (not64 o))
    simp only [Finset.card_range] at this
    omega
  refine ⟨fun _ hmin => tile_gcd_ne_zero tiles hlen idx hidx hmin, ?_, ?_⟩
  · unfold Board.hasSolvableRegionsChecked Board.hasSolvableRegions
    simp only
    by_cases h0 : not64 occ = 0
    · rw [if_pos h0, if_pos h0]
    · rw [if_neg h0, if_neg h0]
      by_cases hm : toInt8 ((Board.ctor tiles).suffix_min_size.getD idx 0) = 0
      · rw [if_pos hm, if_pos hm]
      · rw [if_neg hm, if_neg hm]
        exact (regionLoopChecked_eq _ _ 65 _ (not64_lt _) (hcard occ)).2
          (tile_gcd_ne_zero tiles hlen idx hidx hm)
  · intro b
    unfold Board.hasSolvableRegionsChecked
    simp only
    by_cases h0 : not64 b.occ = 0
    · rw [if_pos h0]; simp
    · rw [if_neg h0]
      by_cases hm : toInt8 (b.suffix_min_size.getD b.piece_index 0) = 0
      · rw [if_pos hm]; simp
      · rw [if_neg hm]
        exact (regionLoopChecked_eq _ _ 65 _ (not64_lt _) (hcard b.occ)).1

set_option maxRecDepth 100000 in
/-- A tile `0x306` and a zero-mask tile, with the first tile on the board: the
checked run gives a value. -/
theorem hsr_safe_witness :
    ({ Board.ctor [Tile.ctor 0x306, Tile.ctor 0] with occ := 0x306, piece_index := 1 }
        : Board).hasSolvableRegionsChecked
      = Checked.value
        ({ Board.ctor [Tile.ctor 0x306, Tile.ctor 0] with occ := 0x306, piece_index := 1 }
          : Board).hasSolvableRegions :=
  (hsr_safe [Tile.ctor 0x306, Tile.ctor 0] (by decide) 0x306 1 (by decide)).2.1

end Tetromino

namespace Tetromino

theorem place_frame (c : Board) (piece i fuel : Nat) (h : FuelOK c (fuel + 1)) :
    FuelOK (c.place piece i) fuel ∧ (c.place piece i).piece_index = c.piece_index + 1 ∧
      (c.place piece i).history.used = c.history.used + 1 := by
  obtain ⟨h1, h2, h3⟩ := h
  have hu : toSize ((c.history.used : Int) + 1) = c.history.used + 1 := by
    exact_mod_cast toSize_natCast (n := c.history.used + 1) (by omega)
  have hi : toSize ((c.piece_index : Int) + 1) = c.piece_index + 1 := by
    exact_mod_cast toSize_natCast (n := c.piece_index + 1) (by omega)
  have e1 : (c.place piece i).piece_index = c.piece_index + 1 := by
    simp only [Board.place]; exact hi
  have e2 : (c.place piece i).history.used = c.history.used + 1 := by
    simp only [Board.place, PushPopHistoryArray.emplace_back]; exact hu
  have e3 : (c.place piece i).pieces = c.pieces := rfl
  refine ⟨⟨?_, ?_, ?_⟩, e1, e2⟩
  · rw [e1, e3]; omega
  · rw [e3]; exact h2
  · rw [e2]; omega

theorem pop_frame (c : Board) (hused : 0 < c.history.used) (hidx : 0 < c.piece_index)
    (hlt : c.piece_index < 2 ^ 64) :
    (c.pop).piece_index = c.piece_index - 1 ∧ (c.pop).history.used = c.history.used - 1 ∧
      (c.pop).pieces = c.pieces := by
  have hne : c.history.empty = false := by
    simp only [PushPopHistoryArray.empty]
    cases h : c.history.used with
    | zero => omega
    | succ n => rfl
  refine ⟨?_, ?_, ?_⟩
  · simp only [Board.pop, hne, Bool.false_eq_true, if_false]
    unfold toSize
    have : (2:Nat) ^ 64 = 18446744073709551616 := by norm_num
    omega
  · simp only [Board.pop, hne, Bool.false_eq_true, if_false, PushPopHistoryArray.pop_back]
    rw [if_pos hused]
  · simp only [Board.pop, hne, Bool.false_eq_true, if_false]

theorem not_done_of_fuel {c : Board} {fuel : Nat} (h : FuelOK c (fuel + 1)) : c.done = false := by
  obtain ⟨h1, -, -⟩ := h
  simp only [Board.done, beq_eq_false_iff_ne, ne_eq]
  omega

theorem done_of_fuel_zero {c : Board} (h : FuelOK c 0) : c.done = true := by
  obtain ⟨h1, -, -⟩ := h
  simp only [Board.done, beq_iff_eq]
  omega

theorem countP_snoc_done (v : List Board) (c : Board) :
    (v ++ [c]).countP Board.done = v.countP Board.done + (if c.done = true then 1 else 0) := by
  rw [List.countP_append, List.countP_cons, List.countP_nil, Nat.zero_add]

/-- The placement loop of `solve` keeps the counter in step with its result,
when the recursive call does. -/
theorem solveLoop_count (rec : Run → Bool × Run) (one : Bool) (pl piece fuel : Nat)
    (hrec : ∀ r, FuelOK r.board fuel → CountSpec one false r (rec r)) :
    ∀ (l : List Nat) (acc : Bool) (r : Run), FuelOK r.board (fuel + 1) →
      CountSpec one acc r (solveLoop rec one pl piece l acc r) := by
  intro l
  induction l with
  | nil =>
    intro acc r _
    rw [solveLoop_nil]
    exact ⟨le_refl _, by simp, fun _ _ => by simp, rfl, fun _ => ⟨rfl, rfl, rfl⟩⟩
  | cons i rest ih =>
    intro acc r hf
    rw [solveLoop_cons]
    by_cases ho : (!r.board.symmetryBroken && outsideOctant i) = true
    · rw [if_pos ho]; exact ih acc r hf
    · rw [if_neg ho]
      by_cases hc : (shl64 piece i &&& pl != shl64 piece i) = true
      · rw [if_pos hc]; exact ih acc r hf
      · rw [if_neg hc]
        obtain ⟨hpf, hpi, hpu⟩ := place_frame r.board piece i fuel hf
        have hs := hrec { r with board := r.board.place piece i } hpf
        generalize rec { r with board := r.board.place piece i } = sub at hs
        obtain ⟨s1, s2, s3, s4, s5⟩ := hs
        simp only [Bool.false_eq_true, false_or] at s2
        simp only at s1 s2 s3 s4 s5
        by_cases hret : (sub.1 && one) = true
        · rw [if_pos hret]
          simp only [Bool.and_eq_true] at hret
          refine ⟨s1, ?_, fun h1 _ => s3 h1 trivial, s4, fun h => absurd ⟨rfl, hret.2⟩ h⟩
          simp only [true_iff]
          exact Or.inr (s2.1 hret.1)
        · rw [if_neg hret]
          have hnot : ¬ (sub.1 = true ∧ one = true) := by
            simpa [Bool.and_eq_true] using hret
          obtain ⟨f1, f2, f3⟩ := s5 hnot
          obtain ⟨g1, g2, g3⟩ := hf
          obtain ⟨p1, p2, p3⟩ := pop_frame sub.2.board (by rw [f2, hpu]; omega)
            (by rw [f1, hpi]; omega) (by rw [f1, hpi]; omega)
          have hpieces : sub.2.board.pop.pieces = r.board.pieces := by
            rw [p3, f3]; rfl
          have hidx : sub.2.board.pop.piece_index = r.board.piece_index := by
            rw [p1, f1, hpi]; omega
          have hused : sub.2.board.pop.history.used = r.board.history.used := by
            rw [p2, f2, hpu]; omega
          have hf3 : FuelOK sub.2.board.pop (fuel + 1) :=
            ⟨by rw [hidx, hpieces]; exact g1, by rw [hpieces]; exact g2, by rw [hused]; exact g3⟩
          have hnd := not_done_of_fuel hf3
          have hi := ih (acc || sub.1)
            { sub.2 with board := sub.2.board.pop, visited := sub.2.visited ++ [sub.2.board.pop] }
            hf3
          generalize solveLoop rec one pl piece rest (acc || sub.1)
            { sub.2 with board := sub.2.board.pop,
                         visited := sub.2.visited ++ [sub.2.board.pop] } = res at hi
          obtain ⟨i1, i2, i3, i4, i5⟩ := hi
          simp only at i1 i2 i3 i4 i5
          rw [countP_snoc_done, hnd] at i4
          simp only [Bool.false_eq_true, if_false, Nat.add_zero] at i4
          refine ⟨le_trans s1 i1, ?_, ?_, by omega, ?_⟩
          · rw [i2]
            simp only [Bool.or_eq_true]
            constructor
            · rintro ((h | h) | h)
              · exact Or.inl h
              · exact Or.inr (lt_of_lt_of_le (s2.1 h) i1)
              · exact Or.inr (lt_of_le_of_lt s1 h)
            · rintro (h | h)
              · exact Or.inl (Or.inl h)
              · by_cases hlt : r.solution_count < sub.2.solution_count
                · exact Or.inl (Or.inr (s2.2 hlt))
                · exact Or.inr (by omega)
          · intro h1 hacc
            have hsub : sub.1 = false := by
              cases h : sub.1 with
              | false => rfl
              | true => exact absurd ⟨h, h1⟩ hnot
            have hle : ¬ r.solution_count < sub.2.solution_count := fun h => by
              rw [s2.2 h] at hsub; exact absurd hsub (by decide)
            have := i3 h1 (by rw [hacc, hsub]; rfl)
            omega
          · intro h
            obtain ⟨j1, j2, j3⟩ := i5 h
            exact ⟨by rw [j1, hidx], by rw [j2, hused], by rw [j3, hpieces]⟩

/-- The function `solve`, with any gate for the region test: on a board whose
remaining pieces are the fuel, the counter is in step with the result. -/
theorem solveGated_count (gate : Nat → Bool) :
    ∀ (fuel : Nat) (one silent : Bool) (r : Run), FuelOK r.board fuel →
      CountSpec one false r (solveGated gate fuel one silent r) := by
  intro fuel
  induction fuel with
  | zero =>
    intro one silent r hf
    rw [solveGated_zero, if_pos (done_of_fuel_zero hf)]
    refine ⟨by simp [solveDone], by simp [solveDone], fun _ _ => by simp [solveDone], ?_,
      fun _ => ⟨rfl, rfl, rfl⟩⟩
    simp only [solveDone]
    rw [countP_snoc_done, if_pos (done_of_fuel_zero hf)]
    omega
  | succ fuel ih =>
    intro one silent r hf
    have hnd := not_done_of_fuel hf
    have hcut : CountSpec one false r (false, { r with visited := r.visited ++ [r.board] }) := by
      refine ⟨le_refl _, ⟨fun h => Bool.noConfusion h, fun h => ?_⟩,
        fun _ _ => Nat.le_succ _, ?_, fun _ => ⟨rfl, rfl, rfl⟩⟩
      · rcases h with h | h
        · exact Bool.noConfusion h
        · exact absurd h (lt_irrefl _)
      · simp only
        rw [countP_snoc_done, hnd]
        simp only [Bool.false_eq_true, if_false, Nat.add_zero]
    rw [solveGated_succ, if_neg (by rw [hnd]; decide)]
    by_cases hp : |r.board.getCurrentImbalance| > r.board.getSuffixMaxImbalance
    · rw [if_pos hp]; exact hcut
    · rw [if_neg hp]
      by_cases hg : (gate (r.board.openSquares
            + r.board.getCurrentPiece.p_height * r.board.getCurrentPiece.p_width)
          && !r.board.hasSolvableRegions) = true
      · rw [if_pos hg]; exact hcut
      · rw [if_neg hg]
        have hl := solveLoop_count (solveGated gate fuel one silent) one r.board.placements
          r.board.getCurrentPiece.repr fuel (fun r2 h2 => ih one silent r2 h2)
          (solveOrigins
            (if decide (r.board.getPieceIndex > 0)
                && (r.board.getPiece r.board.getPieceIndex).beq
                    (r.board.getPiece (r.board.getPieceIndex - 1)) then
              r.board.getLastPlacementPos + 1
            else 0)
            (toUInt8 (7 - (r.board.getCurrentPiece.p_width : Int)))
            (toUInt8 (7 - (r.board.getCurrentPiece.p_height : Int))))
          false { r with visited := r.visited ++ [r.board] } hf
        obtain ⟨l1, l2, l3, l4, l5⟩ := hl
        simp only at l1 l2 l4 l5
        rw [countP_snoc_done, hnd] at l4
        simp only [Bool.false_eq_true, if_false, Nat.add_zero] at l4
        exact ⟨l1, l2, l3, l4, l5⟩

/-- C21: the return value of `solve` agrees with its counter. For every board
with `piece_index ≤ len`, a piece count that fits `size_t` and room in the
history for the pieces left, every counter value, both values of
`one_solution` and of `silent`: `solve` returns true if and only if the
counter ends at least 1 above its value on entry (it never ends below); with
`one_solution = true` a true result comes with an increase of exactly 1; and
the increase is the number of done boards among the boards the call reached.
The counter is the natural number of the embedding. -/
theorem solve_counter (b : Board) (hidx : b.piece_index ≤ b.pieces.length)
    (hlen : b.pieces.length < 2 ^ 64)
    (hused : b.history.used + (b.pieces.length - b.piece_index) ≤ 64) (count : Nat)
    (one_solution silent : Bool) :
    ((solve b count one_solution silent).1 = true ↔
      count + 1 ≤ (solve b count one_solution silent).2.solution_count) ∧
    count ≤ (solve b count one_solution silent).2.solution_count ∧
    (one_solution = true → (solve b count one_solution silent).1 = true →
      (solve b count one_solution silent).2.solution_count = count + 1) ∧
    (solve b count one_solution silent).2.solution_count
      = count + (solve b count one_solution silent).2.visited.countP Board.done := by
  have hf : FuelOK b (b.pieces.length - b.piece_index) := ⟨by omega, hlen, hused⟩
  have hs := solveGated_count codedGate (b.pieces.length - b.piece_index) one_solution silent
    ⟨b, count, [], []⟩ hf
  obtain ⟨s1, s2, s3, s4, -⟩ := hs
  simp only [Bool.false_eq_true, false_or, List.countP_nil, Nat.add_zero] at s1 s2 s3 s4
  unfold solve
  refine ⟨by rw [s2]; omega, s1, fun h1 h2 => ?_, s4⟩
  have := s3 h1 trivial
  have := s2.1 h2
  omega

set_option maxRecDepth 100000 in
/-- Two half boards in one-solution mode: `solve` returns true and the counter
goes from 5 to 6. -/
theorem solve_counter_witness :
    (solve (boardOf [0x0F0F0F0F0F0F0F0F, 0x0F0F0F0F0F0F0F0F]) 5 true true).2.solution_count
      = 5 + 1 :=
  (solve_counter (boardOf [0x0F0F0F0F0F0F0F0F, 0x0F0F0F0F0F0F0F0F]) (by decide) (by decide)
    (by decide) 5 true true).2.2.1 rfl (by decide)

end Tetromino
